import Mathlib

/-! # rxi/ini: the in-place tokenizer, the unescape pass and the lookup

A shallow embedding of `src/ini.c`.

* The buffer `ini->data` is a `List Nat` of bytes; a pointer into it is an index.
  `ini->end` is an index as well.
* Every access outside the buffer makes the computation stop with `Res.oob`.
* The `while` loops of the source are run by `iterate`, which is given the loop
  body and a number of iterations it may use; using them up gives
  `Res.timeout`.  The theorems show that the numbers handed out are enough.
* A pointer that is only read through (`strcmpci`, the literal `""`) is the
  list of bytes that starts at it.
-/

namespace Ini

/-! ## Results of a run -/

/-- Outcome of running a piece of the program. -/
inductive Res (α : Type) where
  | ok (a : α)
  | oob
  | timeout
  deriving DecidableEq, Repr

/-- Sequencing of two pieces of the program. -/
def Res.bind {α β : Type} : Res α → (α → Res β) → Res β
  | .ok a, f => f a
  | .oob, _ => .oob
  | .timeout, _ => .timeout

instance : Monad Res where
  pure := Res.ok
  bind := Res.bind

/-- What the body of a loop asks for: another round, or leaving the loop. -/
inductive Ctl (σ α : Type) where
  | again (s : σ)
  | leave (a : α)
  deriving DecidableEq, Repr

/-- Runs a loop body at most `fuel` times. -/
def iterate {σ α : Type} (body : σ → Res (Ctl σ α)) : Nat → σ → Res α
  | 0, _ => .timeout
  | fuel + 1, s =>
    match body s with
    | .ok (.again s') => iterate body fuel s'
    | .ok (.leave a) => .ok a
    | .oob => .oob
    | .timeout => .timeout

/-! ## Memory -/

/-- The structure `ini_t`: the buffer and the offset of its end. -/
structure ini_t where
  data : List Nat
  end_ : Nat
  deriving DecidableEq, Repr

/-- Reads `*p`. -/
def rd (b : List Nat) (p : Nat) : Res Nat :=
  match b[p]? with
  | some c => .ok c
  | none => .oob

/-- Writes `*p = c`. -/
def wr (b : List Nat) (p c : Nat) : Res (List Nat) :=
  if p < b.length then .ok (b.set p c) else .oob

/-- The library function `strlen` on the bytes from a pointer on. -/
def strlen_from : List Nat → Res Nat
  | [] => .oob
  | c :: m => if c = 0 then .ok 0 else (strlen_from m).bind fun n => .ok (n + 1)

/-- The call `strlen(p)`. -/
def strlen (b : List Nat) (p : Nat) : Res Nat := strlen_from (b.drop p)

/-- The library function `strcspn` on the bytes from a pointer on. -/
def strcspn_from (reject : List Nat) : List Nat → Res Nat
  | [] => .oob
  | c :: m =>
    if c = 0 ∨ c ∈ reject then .ok 0
    else (strcspn_from reject m).bind fun n => .ok (n + 1)

/-- The call `strcspn(p, reject)`. -/
def strcspn (b : List Nat) (p : Nat) (reject : List Nat) : Res Nat :=
  strcspn_from reject (b.drop p)

/-- The library function `memset(q, c, n)`. -/
def memset (q c : Nat) : Nat → List Nat → Res (List Nat)
  | 0, b => .ok b
  | n + 1, b => (wr b (q + n) c).bind fun b' => memset q c n b'

/-- The library function `tolower` in the C locale. -/
def tolower (c : Nat) : Nat := if 65 ≤ c ∧ c ≤ 90 then c + 32 else c

/-- The string at `p`: the bytes from `p` up to the first null byte. -/
def string_at (b : List Nat) (p : Nat) : Res (List Nat) :=
  (strlen b p).bind fun n => .ok ((b.drop p).take n)

/-! ## The functions of `ini.c` -/

/-- The function `strcmpci`; `a` and `b` are the bytes from the two pointers on. -/
def strcmpci : List Nat → List Nat → Res Int
  | x :: a, y :: b =>
    let d : Int := (tolower x : Int) - (tolower y : Int)
    if d ≠ 0 ∨ x = 0 then .ok d else strcmpci a b
  | _, _ => .oob

/-- Body of the loop of `next`: `while (p < ini->end && *p == '\0') p++`. -/
def next_body (b : List Nat) (e : Nat) (p : Nat) : Res (Ctl Nat Nat) :=
  if p < e then
    (rd b p).bind fun c => if c = 0 then .ok (.again (p + 1)) else .ok (.leave p)
  else .ok (.leave p)

/-- The function `next`. -/
def next (b : List Nat) (e : Nat) (p : Nat) : Res Nat :=
  (strlen b p).bind fun n => iterate (next_body b e) (b.length + 1) (p + n)

/-- The label `trim_back` of `split_data`, entered with `q = p - 1`:
`while (*q == ' ' || *q == '\t' || *q == '\r') *q-- = '\0'`.
The argument is `q + 1`, so that `q = -1` has a place. -/
def trim_back : Nat → List Nat → Res (List Nat)
  | 0, _ => .oob
  | q + 1, b =>
    (rd b q).bind fun c =>
      if c = 32 ∨ c = 9 ∨ c = 13 then (wr b q 0).bind fun b' => trim_back q b'
      else .ok b

/-- Body of `do { *p++ = '\0'; } while (*p == ' ' || *p == '\t')`. -/
def eq_body : List Nat × Nat → Res (Ctl (List Nat × Nat) (List Nat × Nat))
  | (b, p) =>
    (wr b p 0).bind fun b' =>
    (rd b' (p + 1)).bind fun c =>
      if c = 32 ∨ c = 9 then .ok (.again (b', p + 1)) else .ok (.leave (b', p + 1))

/-- Body of `while (*p && *p != '\n') { *p++ = '\0'; }`. -/
def semi_body : List Nat × Nat → Res (Ctl (List Nat × Nat) (List Nat × Nat))
  | (b, p) =>
    (rd b p).bind fun c =>
      if c ≠ 0 ∧ c ≠ 10 then (wr b p 0).bind fun b' => .ok (.again (b', p + 1))
      else .ok (.leave (b, p))

/-- Body of the loop `while (p < ini->end) switch (*p) ...` of `split_data`. -/
def split_body (e : Nat) : List Nat × Nat → Res (Ctl (List Nat × Nat) (List Nat))
  | (b, p) =>
    if p < e then
      (rd b p).bind fun c =>
        if c = 13 ∨ c = 10 ∨ c = 9 ∨ c = 32 then
          (wr b p 0).bind fun b' => .ok (.again (b', p + 1))
        else if c = 0 then .ok (.again (b, p + 1))
        else if c = 91 then
          (strcspn b p [93]).bind fun n =>
          (wr b (p + n) 0).bind fun b' => .ok (.again (b', p + n))
        else if c = 61 then
          (iterate eq_body (b.length + 1) (b, p)).bind fun s =>
          (strcspn s.1 s.2 [10]).bind fun n =>
          (trim_back (s.2 + n) s.1).bind fun b' => .ok (.again (b', s.2 + n))
        else if c = 59 then
          (iterate semi_body (b.length + 1) (b, p)).bind fun s => .ok (.again s)
        else
          (strcspn b p [61]).bind fun n =>
          (trim_back (p + n) b).bind fun b' => .ok (.again (b', p + n))
    else .ok (.leave b)

/-- The function `split_data`. -/
def split_data (ini : ini_t) : Res ini_t :=
  (iterate (split_body ini.end_) (ini.data.length + 1) (ini.data, 0)).bind fun b =>
    .ok { ini with data := b }

/-- Body of the loop `while (*q)` of `unescape_quoted_strings`; the state is
the buffer, the write head `q` and the read head `p`. -/
def quote_body :
    List Nat × Nat × Nat → Res (Ctl (List Nat × Nat × Nat) (List Nat × Nat × Nat))
  | (b, q, p) =>
    (rd b q).bind fun cq =>
      if cq ≠ 0 then
        (rd b p).bind fun cp =>
          if cp = 92 then
            (rd b (p + 1)).bind fun c =>
            (wr b q (if c = 114 then 13 else if c = 110 then 10
                     else if c = 116 then 9 else c)).bind fun b' =>
              .ok (.again (b', q + 1, p + 1 + 1))
          else if cp = 34 then
            (wr b q 0).bind fun b' => .ok (.leave (b', q, p))
          else
            (wr b q cp).bind fun b' => .ok (.again (b', q + 1, p + 1))
      else .ok (.leave (b, q, p))

/-- Body of the loop `while (p < ini->end)` of `unescape_quoted_strings`. -/
def unescape_body (e : Nat) : List Nat × Nat → Res (Ctl (List Nat × Nat) (List Nat))
  | (b, p) =>
    if p < e then
      (rd b p).bind fun c =>
        if c = 34 then
          (iterate quote_body (b.length + 1) (b, p, p + 1)).bind fun s =>
          (next s.1 e s.2.2).bind fun p' =>
          (if p' < s.2.1 then .oob else memset s.2.1 0 (p' - s.2.1) s.1).bind fun b' =>
            .ok (.again (b', p'))
        else
          (next b e p).bind fun p' => .ok (.again (b, p'))
    else .ok (.leave b)

/-- The first lines of `unescape_quoted_strings` and of `ini_get`:
`p = ini->data; if (*p == '\0') p = next(ini, p)`. -/
def first_token (b : List Nat) (e : Nat) : Res Nat :=
  (rd b 0).bind fun c => if c = 0 then next b e 0 else .ok 0

/-- The function `unescape_quoted_strings`. -/
def unescape_quoted_strings (ini : ini_t) : Res ini_t :=
  (first_token ini.data ini.end_).bind fun p =>
  (iterate (unescape_body ini.end_) (ini.data.length + 1) (ini.data, p)).bind fun b =>
    .ok { ini with data := b }

/-- The memory a string argument points to: its bytes and the terminator. -/
def c_str (s : List Nat) : List Nat := s ++ [0]

/-- The test `!section || !strcmpci(section, current_section)` of `ini_get`;
`none` is the null pointer. -/
def section_ok (sec : Option (List Nat)) (current_section : List Nat) : Res Bool :=
  match sec with
  | none => .ok true
  | some s => (strcmpci (c_str s) current_section).bind fun d => .ok (decide (d = 0))

/-- Body of the loop `while (p < ini->end)` of `ini_get`; the state is `p` and
the bytes `current_section` points to. -/
def get_body (b : List Nat) (e : Nat) (sec : Option (List Nat)) (key : List Nat) :
    Nat × List Nat → Res (Ctl (Nat × List Nat) (Option Nat))
  | (p, current_section) =>
    if p < e then
      (rd b p).bind fun c =>
        if c = 91 then
          (next b e p).bind fun p' => .ok (.again (p', b.drop (p + 1)))
        else
          (next b e p).bind fun val =>
          (section_ok sec current_section).bind fun so =>
          (if so then (strcmpci (b.drop p) (c_str key)).bind fun d => .ok (decide (d = 0))
           else .ok false).bind fun hit =>
            if hit then .ok (.leave (some val))
            else (next b e val).bind fun p' => .ok (.again (p', current_section))
    else .ok (.leave none)

/-- The function `ini_get`: the offset of the value, or `none` for `NULL`. -/
def ini_get (ini : ini_t) (sec : Option (List Nat)) (key : List Nat) : Res (Option Nat) :=
  (first_token ini.data ini.end_).bind fun p =>
    iterate (get_body ini.data ini.end_ sec key) (ini.data.length + 1) (p, c_str [])

/-- The part of `ini_load` after the file has been read: `content` is what
`fread` delivered; a null byte is put behind it and the two passes run. -/
def ini_load (content : List Nat) : Res ini_t :=
  (split_data { data := content ++ [0], end_ := content.length }).bind fun ini =>
    unescape_quoted_strings ini

/-- Loads `content`, calls `ini_get` and reads the string it returns. -/
def lookup (content : List Nat) (sec : Option (List Nat)) (key : List Nat) :
    Res (Option (List Nat)) :=
  (ini_load content).bind fun ini =>
  (ini_get ini sec key).bind fun r =>
    match r with
    | none => .ok none
    | some v => (string_at ini.data v).bind fun s => .ok (some s)

/-- The bytes of a text. -/
def bytes (s : String) : List Nat := s.toList.map Char.toNat

/-- Applies a function to the result of a run. -/
def Res.map {α β : Type} (g : α → β) : Res α → Res β
  | .ok a => .ok (g a)
  | .oob => .oob
  | .timeout => .timeout

/-- Applies functions to the state or to the result a loop body hands back. -/
def Ctl.map {σ σ' α α' : Type} (g : σ → σ') (k : α → α') : Ctl σ α → Ctl σ' α'
  | .again s => .again (g s)
  | .leave a => .leave (k a)

/-- The variant of the loops over the buffer: the bytes left. -/
def left (s : List Nat × Nat) : Nat := s.1.length - s.2

/-- The variant of the loop of the unescape pass. -/
def left3 (s : List Nat × Nat × Nat) : Nat := s.1.length - s.2.2

/-- A state of a loop over the buffer, with `Z` put in front of the buffer. -/
def sh2 (Z : List Nat) (s : List Nat × Nat) : List Nat × Nat := (Z ++ s.1, s.2 + Z.length)

/-- A state of the loop of the unescape pass, with `Z` put in front of the buffer. -/
def sh3 (Z : List Nat) (s : List Nat × Nat × Nat) : List Nat × Nat × Nat :=
  (Z ++ s.1, s.2.1 + Z.length, s.2.2 + Z.length)

/-- A state of the loop of `ini_get`, with `n` bytes put in front of the buffer. -/
def shg (n : Nat) (s : Nat × List Nat) : Nat × List Nat := (s.1 + n, s.2)

/-- An `ini_t` with `Z` put in front of the buffer. -/
def shi (Z : List Nat) (ini : ini_t) : ini_t :=
  { data := Z ++ ini.data, end_ := ini.end_ + Z.length }

/-- A buffer of `e` bytes with the null byte behind them. -/
def Terminated (b : List Nat) (e : Nat) : Prop := b.length = e + 1 ∧ b[e]? = some 0

/-- The token at `p`: the bytes from `p` up to the first null byte. -/
def token_at (b : List Nat) (p : Nat) : List Nat := (b.drop p).takeWhile (fun c => c != 0)

/-- Whether a token starts at `p`: the byte at `p` is not null and stands at
the start of the buffer or behind a null byte. -/
def token_start (b : List Nat) (p : Nat) : Bool :=
  (match b[p]? with
   | some c => c != 0
   | none => false) && (p == 0 || b[p - 1]? == some 0)

/-- The bytes of a row of tokens, each with the number of null bytes behind it. -/
def flat : List (List Nat × Nat) → List Nat
  | [] => []
  | (t, k) :: L => t ++ (List.replicate k 0 ++ flat L)

/-- A row of tokens: no token is empty or holds a null byte, and every token
but the last has a null byte behind it. -/
def Lay : List (List Nat × Nat) → Prop
  | [] => True
  | (t, k) :: L => t ≠ [] ∧ 0 ∉ t ∧ (L ≠ [] → 0 < k) ∧ Lay L

/-- Whether the section argument of `ini_get` accepts the section `name`. -/
def sec_matches (sec : Option (List Nat)) (name : List Nat) : Bool :=
  match sec with
  | none => true
  | some s => decide (s.map tolower = name.map tolower)

/-- Whether the token `t` is the key `key` up to the case of ASCII letters. -/
def key_matches (t key : List Nat) : Bool := decide (t.map tolower = key.map tolower)

/-- The lookup on a row of tokens that starts at offset `off`, in section `cur`. -/
def get_lay (sec : Option (List Nat)) (key : List Nat) :
    Nat → List Nat → List (List Nat × Nat) → Option Nat
  | _, _, [] => none
  | off, cur, (t, k) :: L =>
    if t.head? = some 91 then get_lay sec key (off + t.length + k) t.tail L
    else if sec_matches sec cur && key_matches t key then some (off + t.length + k)
    else
      match L with
      | [] => none
      | (t', k') :: L' => get_lay sec key (off + t.length + k + t'.length + k') cur L'

/-- The loop of `split_data` from a state on, with the rounds it is given there. -/
def split_run (e : Nat) (s : List Nat × Nat) : Res (List Nat) :=
  iterate (split_body e) (s.1.length + 1) s

/-- A line of a well-formed text: `[name]` or `key=value`. -/
inductive Line where
  | header (name : List Nat)
  | assign (key value : List Nat)
  deriving DecidableEq, Repr

/-- The bytes of a line. -/
def Line.text : Line → List Nat
  | .header n => 91 :: n ++ [93]
  | .assign k v => k ++ 61 :: v

/-- The text of the lines, with a line feed between two lines. -/
def render (ls : List Line) : List Nat := List.intercalate [10] (ls.map Line.text)

/-- ASCII letters and digits. -/
def alnum (c : Nat) : Bool :=
  (48 ≤ c && c ≤ 57) || (65 ≤ c && c ≤ 90) || (97 ≤ c && c ≤ 122)

/-- A non-empty string of ASCII letters and digits. -/
def word (w : List Nat) : Prop := w ≠ [] ∧ ∀ c ∈ w, alnum c = true

/-- Names, keys and values of a line are non-empty and alphanumeric. -/
def Line.wf : Line → Prop
  | .header n => word n
  | .assign k v => word k ∧ word v

/-- The tokens the tokenizer makes of the lines. -/
def lay : List Line → List (List Nat × Nat)
  | [] => []
  | [.header n] => [(91 :: n, 1)]
  | [.assign k v] => [(k, 1), (v, 0)]
  | .header n :: l :: ls => (91 :: n, 2) :: lay (l :: ls)
  | .assign k v :: l :: ls => (k, 1) :: (v, 1) :: lay (l :: ls)

/-- An assignment of a text: the section it stands in, its key, its value
and the offset of the value in the text. -/
structure Entry where
  sec : List Nat
  key : List Nat
  value : List Nat
  offset : Nat
  deriving DecidableEq, Repr

/-- The assignments of the lines in file order; `off` is the offset of the
first line and `cur` the name of the nearest section header before it (the
empty name when there is none). -/
def entries : Nat → List Nat → List Line → List Entry
  | _, _, [] => []
  | off, _, .header n :: ls => entries (off + n.length + 3) n ls
  | off, cur, .assign k v :: ls =>
    ⟨cur, k, v, off + k.length + 1⟩ :: entries (off + k.length + v.length + 2) cur ls

/-- The first assignment in file order whose section passes the section
argument and whose key is `key` up to the case of ASCII letters. -/
def first_match (sec : Option (List Nat)) (key : List Nat) (es : List Entry) : Option Entry :=
  es.find? fun en => sec_matches sec en.sec && key_matches en.key key

/-- The byte a backslash escape stands for: `\r`, `\n`, `\t`, or the byte
behind the backslash itself. -/
def esc (c : Nat) : Nat :=
  if c = 114 then 13 else if c = 110 then 10 else if c = 116 then 9 else c

/-- The decoded form of the body of a quoted string, read from left to right. -/
def decode : List Nat → List Nat
  | [] => []
  | [c] => [c]
  | c :: d :: rest => if c = 92 then esc d :: decode rest else c :: decode (d :: rest)

/-- The body of a quoted string that is escaped throughout: every backslash
has a byte behind it and every double quote is the second byte of an escape. -/
def escaped : List Nat → Bool
  | [] => true
  | [c] => c != 92 && c != 34
  | c :: d :: rest => if c = 92 then escaped rest else c != 34 && escaped (d :: rest)

/-- The loop of `unescape_quoted_strings` from a state on, with the rounds it
is given there. -/
def unescape_run (e : Nat) (s : List Nat × Nat) : Res (List Nat) :=
  iterate (unescape_body e) (s.1.length + 1) s

/-- Space or tab: what the tokenizer skips behind `=`. -/
def is_blank (c : Nat) : Bool := c == 32 || c == 9

/-- Space, tab or carriage return: what the tokenizer trims at the end of a line. -/
def is_trail (c : Nat) : Bool := c == 32 || c == 9 || c == 13

/-- The part of the text behind `=` from its first byte that is no space or
tab to its last byte that is no space, tab or carriage return. -/
def value_of (v : List Nat) : List Nat :=
  ((v.dropWhile is_blank).reverse.dropWhile is_trail).reverse

instance word_decidable (w : List Nat) : Decidable (word w) := by
  unfold word
  exact inferInstance

instance wf_decidable (l : Line) : Decidable l.wf := by
  cases l with
  | header n => exact word_decidable n
  | assign k v =>
    simp only [Line.wf]
    exact inferInstance

/-- Runs a loop body at most `fuel` times, as `iterate` does, and hands back
the state in which the loop is left. -/
def iterate_exit {σ α : Type} (body : σ → Res (Ctl σ α)) : Nat → σ → Res σ
  | 0, _ => .timeout
  | fuel + 1, s =>
    match body s with
    | .ok (.again s') => iterate_exit body fuel s'
    | .ok (.leave _) => .ok s
    | .oob => .oob
    | .timeout => .timeout

/-- The states in which a loop run by `iterate` enters its body, in order. -/
def iterate_trace {σ α : Type} (body : σ → Res (Ctl σ α)) : Nat → σ → List σ
  | 0, _ => []
  | fuel + 1, s =>
    s :: match body s with
      | .ok (.again s') => iterate_trace body fuel s'
      | _ => []

/-- The escaped form of a byte: a backslash goes in front of a backslash and
of a double quote, and line feed, carriage return and tab are written
backslash-n, backslash-r and backslash-t. -/
def escape_byte (c : Nat) : List Nat :=
  if c = 92 then [92, 92]
  else if c = 34 then [92, 34]
  else if c = 10 then [92, 110]
  else if c = 13 then [92, 114]
  else if c = 9 then [92, 116]
  else [c]

/-- The escaped form of a byte string. -/
def escape : List Nat → List Nat
  | [] => []
  | c :: s => escape_byte c ++ escape s

/-- The function `ini_get` entered with `current_section` pointing to the
bytes `cur`; the source enters with the literal `""`. -/
def ini_get_from (ini : ini_t) (cur : List Nat) (sec : Option (List Nat)) (key : List Nat) :
    Res (Option Nat) :=
  (first_token ini.data ini.end_).bind fun p =>
    iterate (get_body ini.data ini.end_ sec key) (ini.data.length + 1) (p, cur)

/-- The text of the lines, with a line feed behind every line. -/
def lines_lf : List Line → List Nat
  | [] => []
  | l :: ls => l.text ++ 10 :: lines_lf ls

/-- The tokens the tokenizer makes of lines that all end in a line feed. -/
def lay_lf : List Line → List (List Nat × Nat)
  | [] => []
  | .header n :: ls => (91 :: n, 2) :: lay_lf ls
  | .assign k v :: ls => (k, 1) :: (v, 1) :: lay_lf ls

/-- Whether a line is an assignment to the key `k`, up to the case of ASCII
letters. -/
def has_key (k : List Nat) : Line → Bool
  | .assign k' _ => key_matches k' k
  | .header _ => false

/-! # Theorems -/

/-! ## Results and loops in general -/

@[simp] theorem Res.bind_ok {α β : Type} (a : α) (f : α → Res β) : (Res.ok a).bind f = f a := rfl
@[simp] theorem Res.bind_oob {α β : Type} (f : α → Res β) : (Res.oob : Res α).bind f = .oob := rfl
@[simp] theorem Res.bind_timeout {α β : Type} (f : α → Res β) :
    (Res.timeout : Res α).bind f = .timeout := rfl

theorem Res.bind_eq_ok {α β : Type} {r : Res α} {f : α → Res β} {y : β}
    (h : r.bind f = .ok y) : ∃ a, r = .ok a ∧ f a = .ok y := by
  cases r with
  | ok a => exact ⟨a, rfl, h⟩
  | oob => simp at h
  | timeout => simp at h

theorem Res.bind_ne_timeout {α β : Type} {r : Res α} {f : α → Res β}
    (h1 : r ≠ .timeout) (h2 : ∀ a, f a ≠ .timeout) : r.bind f ≠ .timeout := by
  cases r with
  | ok a => exact h2 a
  | oob => simp
  | timeout => exact absurd rfl h1

theorem iterate_zero {σ α : Type} (body : σ → Res (Ctl σ α)) (s : σ) :
    iterate body 0 s = .timeout := rfl

theorem iterate_again {σ α : Type} {body : σ → Res (Ctl σ α)} {s s' : σ}
    (h : body s = .ok (.again s')) (f : Nat) :
    iterate body (f + 1) s = iterate body f s' := by
  simp [iterate, h]

theorem iterate_leave {σ α : Type} {body : σ → Res (Ctl σ α)} {s : σ} {a : α}
    (h : body s = .ok (.leave a)) (f : Nat) :
    iterate body (f + 1) s = .ok a := by
  simp [iterate, h]

theorem iterate_oob {σ α : Type} {body : σ → Res (Ctl σ α)} {s : σ}
    (h : body s = .oob) (f : Nat) :
    iterate body (f + 1) s = .oob := by
  simp [iterate, h]

/-- Above the value of a variant that every round decreases, the number of
rounds handed to a loop does not matter. -/
theorem iterate_fuel {σ α : Type} (body : σ → Res (Ctl σ α)) (μ : σ → Nat)
    (hdec : ∀ s s', body s = .ok (.again s') → μ s' < μ s) :
    ∀ f f' s, μ s < f → μ s < f' → iterate body f s = iterate body f' s := by
  intro f
  induction f with
  | zero => intro f' s h; omega
  | succ f ih =>
    intro f' s h h'
    cases f' with
    | zero => omega
    | succ f' =>
      cases hb : body s with
      | ok c =>
        cases c with
        | again s' =>
          rw [iterate_again hb, iterate_again hb]
          have := hdec s s' hb
          exact ih f' s' (by omega) (by omega)
        | leave a => rw [iterate_leave hb, iterate_leave hb]
      | oob => simp [iterate, hb]
      | timeout => simp [iterate, hb]

/-- A loop whose rounds decrease a variant and never time out themselves does
not time out when it is handed more rounds than the variant. -/
theorem iterate_ne_timeout {σ α : Type} (body : σ → Res (Ctl σ α)) (μ : σ → Nat)
    (hdec : ∀ s s', body s = .ok (.again s') → μ s' < μ s)
    (hnt : ∀ s, body s ≠ .timeout) :
    ∀ f s, μ s < f → iterate body f s ≠ .timeout := by
  intro f
  induction f with
  | zero => intro s h; omega
  | succ f ih =>
    intro s h
    cases hb : body s with
    | ok c =>
      cases c with
      | again s' =>
        rw [iterate_again hb]
        have := hdec s s' hb
        exact ih s' (by omega)
      | leave a => rw [iterate_leave hb]; simp
    | oob => simp [iterate, hb]
    | timeout => exact absurd hb (hnt s)

/-- One round of a loop, whatever the numbers of rounds handed out. -/
theorem iterate_step {σ α : Type} (body : σ → Res (Ctl σ α)) (μ : σ → Nat)
    (hdec : ∀ s s', body s = .ok (.again s') → μ s' < μ s)
    {s s' : σ} (h : body s = .ok (.again s')) (f f' : Nat)
    (hf : μ s < f) (hf' : μ s' < f') :
    iterate body f s = iterate body f' s' := by
  cases f with
  | zero => omega
  | succ f =>
    rw [iterate_again h]
    have := hdec s s' h
    exact iterate_fuel body μ hdec f f' s' (by omega) hf'

/-- Invariants: what holds before a loop and is kept by every round holds of
what the loop returns. -/
theorem iterate_inv {σ α : Type} (body : σ → Res (Ctl σ α)) (I : σ → Prop) (Q : α → Prop)
    (h1 : ∀ s s', I s → body s = .ok (.again s') → I s')
    (h2 : ∀ s a, I s → body s = .ok (.leave a) → Q a) :
    ∀ f s a, I s → iterate body f s = .ok a → Q a := by
  intro f
  induction f with
  | zero => intro s a _ h; simp [iterate] at h
  | succ f ih =>
    intro s a hI h
    cases hb : body s with
    | ok c =>
      cases c with
      | again s' =>
        rw [iterate_again hb] at h
        exact ih s' a (h1 s s' hI hb) h
      | leave a' =>
        rw [iterate_leave hb] at h
        cases h
        exact h2 s a hI hb
    | oob => simp [iterate, hb] at h
    | timeout => simp [iterate, hb] at h

/-- Total correctness: an invariant, a variant and rounds that never fail. -/
theorem iterate_total {σ α : Type} (body : σ → Res (Ctl σ α)) (I : σ → Prop) (Q : α → Prop)
    (μ : σ → Nat)
    (h : ∀ s, I s → (∃ s', body s = .ok (.again s') ∧ I s' ∧ μ s' < μ s) ∨
                    (∃ a, body s = .ok (.leave a) ∧ Q a)) :
    ∀ f s, I s → μ s < f → ∃ a, iterate body f s = .ok a ∧ Q a := by
  intro f
  induction f with
  | zero => intro s _ h; omega
  | succ f ih =>
    intro s hI hf
    rcases h s hI with ⟨s', hb, hI', hμ⟩ | ⟨a, hb, hQ⟩
    · rw [iterate_again hb]
      exact ih s' hI' (by omega)
    · exact ⟨a, iterate_leave hb f, hQ⟩

@[simp] theorem Res.map_ok {α β : Type} (g : α → β) (a : α) : (Res.ok a).map g = .ok (g a) := rfl
@[simp] theorem Res.map_oob {α β : Type} (g : α → β) : (Res.oob : Res α).map g = .oob := rfl
@[simp] theorem Res.map_timeout {α β : Type} (g : α → β) :
    (Res.timeout : Res α).map g = .timeout := rfl

theorem Res.map_bind {α β γ : Type} (r : Res α) (f : α → Res β) (g : β → γ) :
    (r.bind f).map g = r.bind fun a => (f a).map g := by
  cases r <;> rfl

theorem Res.bind_map {α β γ : Type} (r : Res α) (g : α → β) (f : β → Res γ) :
    (r.map g).bind f = r.bind fun a => f (g a) := by
  cases r <;> rfl

/-- Simulation: two loops whose bodies correspond along `g` and `k` give
corresponding results. -/
theorem iterate_map {σ σ' α α' : Type} (body : σ → Res (Ctl σ α)) (body' : σ' → Res (Ctl σ' α'))
    (g : σ → σ') (k : α → α')
    (h : ∀ s, body' (g s) = (body s).map (Ctl.map g k)) :
    ∀ f s, iterate body' f (g s) = (iterate body f s).map k := by
  intro f
  induction f with
  | zero => intro s; rfl
  | succ f ih =>
    intro s
    have hs := h s
    cases hb : body s with
    | ok c =>
      rw [hb] at hs
      cases c with
      | again s' =>
        rw [iterate_again hb, iterate_again (by simpa [Ctl.map] using hs)]
        exact ih s'
      | leave a =>
        rw [iterate_leave hb, iterate_leave (by simpa [Ctl.map] using hs)]
        rfl
    | oob =>
      rw [hb] at hs
      simp [iterate, hb, hs]
    | timeout =>
      rw [hb] at hs
      simp [iterate, hb, hs]

/-! ## Reading and writing -/

theorem rd_eq_ok {b : List Nat} {p c : Nat} : rd b p = .ok c ↔ b[p]? = some c := by
  unfold rd
  cases h : b[p]? <;> simp

theorem rd_lt {b : List Nat} {p c : Nat} (h : rd b p = .ok c) : p < b.length := by
  rw [rd_eq_ok] at h
  exact (List.getElem?_eq_some_iff.1 h).1

theorem rd_ne_timeout (b : List Nat) (p : Nat) : rd b p ≠ .timeout := by
  unfold rd
  cases b[p]? <;> simp

theorem wr_ne_timeout (b : List Nat) (p c : Nat) : wr b p c ≠ .timeout := by
  unfold wr
  split <;> simp

theorem wr_eq_ok {b b' : List Nat} {p c : Nat} (h : wr b p c = .ok b') :
    p < b.length ∧ b' = b.set p c := by
  unfold wr at h
  split at h
  · cases h; exact ⟨by assumption, rfl⟩
  · cases h

theorem wr_length {b b' : List Nat} {p c : Nat} (h : wr b p c = .ok b') :
    b'.length = b.length := by
  rw [(wr_eq_ok h).2, List.length_set]

theorem rd_at (pre : List Nat) (c : Nat) (suf : List Nat) :
    rd (pre ++ c :: suf) pre.length = .ok c := by
  rw [rd_eq_ok, List.getElem?_append_right (le_refl _)]; simp

theorem wr_at (pre : List Nat) (c : Nat) (suf : List Nat) (v : Nat) :
    wr (pre ++ c :: suf) pre.length v = .ok (pre ++ v :: suf) := by
  unfold wr
  simp

theorem rd_shift (Z b : List Nat) (p : Nat) : rd (Z ++ b) (p + Z.length) = rd b p := by
  unfold rd
  rw [List.getElem?_append_right (by omega)]
  simp

theorem wr_shift (Z b : List Nat) (p c : Nat) :
    wr (Z ++ b) (p + Z.length) c = (wr b p c).map (Z ++ ·) := by
  unfold wr
  by_cases h : p < b.length
  · have : p + Z.length < (Z ++ b).length := by simp; omega
    rw [if_pos h, if_pos this, List.set_append]
    have h2 : ¬ p + Z.length < Z.length := by omega
    simp [h2]
  · have : ¬ p + Z.length < (Z ++ b).length := by simp; omega
    rw [if_neg h, if_neg this]; rfl

theorem drop_shift (Z b : List Nat) (p : Nat) : (Z ++ b).drop (p + Z.length) = b.drop p := by
  rw [Nat.add_comm, List.drop_append]

theorem strlen_shift (Z b : List Nat) (p : Nat) : strlen (Z ++ b) (p + Z.length) = strlen b p := by
  unfold strlen
  rw [drop_shift]

theorem strcspn_shift (Z b : List Nat) (p : Nat) (rej : List Nat) :
    strcspn (Z ++ b) (p + Z.length) rej = strcspn b p rej := by
  unfold strcspn
  rw [drop_shift]

theorem memset_shift (Z : List Nat) (q c : Nat) :
    ∀ n b, memset (q + Z.length) c n (Z ++ b) = (memset q c n b).map (Z ++ ·) := by
  intro n
  induction n with
  | zero => intro b; rfl
  | succ n ih =>
    intro b
    simp only [memset]
    have : q + Z.length + n = (q + n) + Z.length := by omega
    rw [this, wr_shift]
    cases h : wr b (q + n) c with
    | ok b' => simp [ih]
    | oob => rfl
    | timeout => rfl

theorem strlen_from_ne_timeout (m : List Nat) : strlen_from m ≠ .timeout := by
  induction m with
  | nil => simp [strlen_from]
  | cons c m ih =>
    simp only [strlen_from]
    split
    · simp
    · exact Res.bind_ne_timeout ih (by simp)

theorem strcspn_from_ne_timeout (rej m : List Nat) : strcspn_from rej m ≠ .timeout := by
  induction m with
  | nil => simp [strcspn_from]
  | cons c m ih =>
    simp only [strcspn_from]
    split
    · simp
    · exact Res.bind_ne_timeout ih (by simp)

theorem memset_ne_timeout (q c : Nat) : ∀ n b, memset q c n b ≠ .timeout := by
  intro n
  induction n with
  | zero => intro b; simp [memset]
  | succ n ih =>
    intro b
    simp only [memset]
    exact Res.bind_ne_timeout (wr_ne_timeout _ _ _) (fun b' => ih b')

theorem memset_length (q c : Nat) : ∀ n b b', memset q c n b = .ok b' → b'.length = b.length := by
  intro n
  induction n with
  | zero => intro b b' h; simp [memset] at h; rw [h]
  | succ n ih =>
    intro b b' h
    simp only [memset] at h
    obtain ⟨b1, h1, h2⟩ := Res.bind_eq_ok h
    rw [ih b1 b' h2, wr_length h1]

theorem trim_back_ne_timeout : ∀ q b, trim_back q b ≠ .timeout := by
  intro q
  induction q with
  | zero => intro b; simp [trim_back]
  | succ q ih =>
    intro b
    simp only [trim_back]
    refine Res.bind_ne_timeout (rd_ne_timeout _ _) (fun c => ?_)
    split
    · exact Res.bind_ne_timeout (wr_ne_timeout _ _ _) (fun b' => ih b')
    · simp

theorem trim_back_length : ∀ q b b', trim_back q b = .ok b' → b'.length = b.length := by
  intro q
  induction q with
  | zero => intro b b' h; simp [trim_back] at h
  | succ q ih =>
    intro b b' h
    simp only [trim_back] at h
    obtain ⟨c, _, h2⟩ := Res.bind_eq_ok h
    split at h2
    · obtain ⟨b1, h3, h4⟩ := Res.bind_eq_ok h2
      rw [ih b1 b' h4, wr_length h3]
    · cases h2; rfl

/-- The backward trim stops at a byte that is no space, tab or carriage
return; when there is one at `p`, what lies before `p` plays no part. -/
theorem trim_back_shift (Z : List Nat) (p c : Nat) (hc : ¬ (c = 32 ∨ c = 9 ∨ c = 13)) :
    ∀ d b, b[p]? = some c →
      trim_back (p + 1 + d + Z.length) (Z ++ b) = (trim_back (p + 1 + d) b).map (Z ++ ·) := by
  intro d
  induction d with
  | zero =>
    intro b hb
    have h1 : rd b p = .ok c := rd_eq_ok.2 hb
    have h2 : rd (Z ++ b) (p + Z.length) = .ok c := by rw [rd_shift]; exact h1
    have e1 : p + 1 + 0 + Z.length = (p + Z.length) + 1 := by omega
    rw [e1]
    simp only [trim_back, h1, h2, Res.bind_ok, if_neg hc, Nat.add_zero, Res.map_ok]
  | succ d ih =>
    intro b hb
    have e1 : p + 1 + (d + 1) + Z.length = (p + 1 + d + Z.length) + 1 := by omega
    have e2 : p + 1 + (d + 1) = (p + 1 + d) + 1 := by omega
    rw [e1, e2]
    simp only [trim_back]
    rw [rd_shift]
    cases hr : rd b (p + 1 + d) with
    | ok x =>
      simp only [Res.bind_ok]
      by_cases hx : x = 32 ∨ x = 9 ∨ x = 13
      · rw [if_pos hx, if_pos hx, wr_shift]
        cases hw : wr b (p + 1 + d) 0 with
        | ok b1 =>
          simp only [Res.map_ok, Res.bind_ok]
          apply ih
          rw [(wr_eq_ok hw).2, List.getElem?_set_ne (by omega)]
          exact hb
        | oob => rfl
        | timeout => rfl
      · rw [if_neg hx, if_neg hx]; rfl
    | oob => rfl
    | timeout => rfl

/-! ## Every loop makes progress -/

theorem drop_of_rd {b : List Nat} {p c : Nat} (h : rd b p = .ok c) :
    b.drop p = c :: b.drop (p + 1) := by
  have hlt := rd_lt h
  rw [rd_eq_ok] at h
  rw [List.drop_eq_getElem_cons hlt]
  congr 1
  rw [List.getElem?_eq_getElem hlt] at h
  exact Option.some.inj h

theorem strlen_from_le : ∀ (m : List Nat) (n : Nat), strlen_from m = .ok n → n < m.length := by
  intro m
  induction m with
  | nil => intro n h; simp [strlen_from] at h
  | cons c m ih =>
    intro n h
    simp only [strlen_from] at h
    split at h
    · cases h; simp
    · obtain ⟨k, hk, h2⟩ := Res.bind_eq_ok h
      cases h2
      have := ih k hk
      simp; omega

theorem strcspn_from_le (rej : List Nat) :
    ∀ (m : List Nat) (n : Nat), strcspn_from rej m = .ok n → n < m.length := by
  intro m
  induction m with
  | nil => intro n h; simp [strcspn_from] at h
  | cons c m ih =>
    intro n h
    simp only [strcspn_from] at h
    split at h
    · cases h; simp
    · obtain ⟨k, hk, h2⟩ := Res.bind_eq_ok h
      cases h2
      have := ih k hk
      simp; omega

theorem strlen_lt {b : List Nat} {p n : Nat} (h : strlen b p = .ok n) : p + n < b.length := by
  have := strlen_from_le _ _ h
  simp at this; omega

theorem strcspn_lt {b : List Nat} {p n : Nat} {rej : List Nat} (h : strcspn b p rej = .ok n) :
    p + n < b.length := by
  have := strcspn_from_le _ _ _ h
  simp at this; omega

theorem strlen_ne_timeout (b : List Nat) (p : Nat) : strlen b p ≠ .timeout :=
  strlen_from_ne_timeout _

theorem strcspn_ne_timeout (b : List Nat) (p : Nat) (rej : List Nat) :
    strcspn b p rej ≠ .timeout :=
  strcspn_from_ne_timeout _ _

theorem strcspn_pos {b : List Nat} {p c n : Nat} {rej : List Nat} (hr : rd b p = .ok c)
    (h0 : c ≠ 0) (hc : c ∉ rej) (h : strcspn b p rej = .ok n) : 1 ≤ n := by
  unfold strcspn at h
  rw [drop_of_rd hr] at h
  simp only [strcspn_from] at h
  rw [if_neg (by simp [h0, hc])] at h
  obtain ⟨k, _, h2⟩ := Res.bind_eq_ok h
  cases h2; omega

theorem strlen_pos {b : List Nat} {p c n : Nat} (hr : rd b p = .ok c)
    (h0 : c ≠ 0) (h : strlen b p = .ok n) : 1 ≤ n := by
  unfold strlen at h
  rw [drop_of_rd hr] at h
  simp only [strlen_from] at h
  rw [if_neg h0] at h
  obtain ⟨k, _, h2⟩ := Res.bind_eq_ok h
  cases h2; omega

theorem strlen_null {b : List Nat} {p : Nat} (hr : rd b p = .ok 0) : strlen b p = .ok 0 := by
  unfold strlen
  rw [drop_of_rd hr]
  simp [strlen_from]

theorem next_body_dec (b : List Nat) (e : Nat) (p p' : Nat)
    (h : next_body b e p = .ok (.again p')) : b.length - p' < b.length - p := by
  unfold next_body at h
  split at h
  · obtain ⟨c, hc, h2⟩ := Res.bind_eq_ok h
    have := rd_lt hc
    split at h2
    · cases h2; omega
    · cases h2
  · cases h

theorem next_body_ne_timeout (b : List Nat) (e : Nat) (p : Nat) :
    next_body b e p ≠ .timeout := by
  unfold next_body
  split
  · refine Res.bind_ne_timeout (rd_ne_timeout _ _) (fun c => ?_)
    split <;> simp
  · simp

theorem next_ne_timeout (b : List Nat) (e p : Nat) : next b e p ≠ .timeout := by
  unfold next
  refine Res.bind_ne_timeout (strlen_ne_timeout _ _) (fun n => ?_)
  exact iterate_ne_timeout _ (fun p => b.length - p) (next_body_dec b e)
    (next_body_ne_timeout b e) _ _ (by show b.length - (p + n) < b.length + 1; omega)

theorem next_loop_ge (b : List Nat) (e : Nat) (f p j : Nat)
    (h : iterate (next_body b e) f p = .ok j) : p ≤ j := by
  refine iterate_inv (next_body b e) (fun p' => p ≤ p') (fun j => p ≤ j) ?_ ?_ f p j
    (le_refl _) h
  · intro s s' hs hb
    unfold next_body at hb
    split at hb
    · obtain ⟨c, _, h2⟩ := Res.bind_eq_ok hb
      split at h2
      · cases h2; omega
      · cases h2
    · cases hb
  · intro s a hs hb
    unfold next_body at hb
    split at hb
    · obtain ⟨c, _, h2⟩ := Res.bind_eq_ok hb
      split at h2
      · cases h2
      · cases h2; exact hs
    · cases hb; exact hs

theorem next_ge {b : List Nat} {e p j : Nat} (h : next b e p = .ok j) : p ≤ j := by
  unfold next at h
  obtain ⟨n, _, h2⟩ := Res.bind_eq_ok h
  have := next_loop_ge b e _ _ _ h2
  omega

/-- The forward skip moves on: from a `p` before the end it returns more than `p`. -/
theorem next_gt {b : List Nat} {e p j c : Nat} (hp : p < e) (hr : rd b p = .ok c)
    (h : next b e p = .ok j) : p < j := by
  unfold next at h
  obtain ⟨n, hn, h2⟩ := Res.bind_eq_ok h
  by_cases h0 : c = 0
  · subst h0
    rw [strlen_null hr] at hn
    cases hn
    have hb : next_body b e (p + 0) = .ok (.again (p + 0 + 1)) := by
      simp [next_body, hp, hr]
    rw [iterate_again hb] at h2
    have := next_loop_ge b e _ _ _ h2
    omega
  · have := strlen_pos hr h0 hn
    have := next_loop_ge b e _ _ _ h2
    omega

theorem eq_body_dec (s s' : List Nat × Nat) (h : eq_body s = .ok (.again s')) :
    left s' < left s ∧ s'.1.length = s.1.length ∧ s.2 < s'.2 := by
  obtain ⟨b, p⟩ := s
  simp only [eq_body] at h
  obtain ⟨b1, h1, h2⟩ := Res.bind_eq_ok h
  obtain ⟨c, _, h3⟩ := Res.bind_eq_ok h2
  have hl := wr_length h1
  have hp := (wr_eq_ok h1).1
  split at h3
  · cases h3; simp only [left]; omega
  · cases h3

theorem eq_body_leave (s s' : List Nat × Nat) (h : eq_body s = .ok (.leave s')) :
    s'.1.length = s.1.length ∧ s.2 < s'.2 := by
  obtain ⟨b, p⟩ := s
  simp only [eq_body] at h
  obtain ⟨b1, h1, h2⟩ := Res.bind_eq_ok h
  obtain ⟨c, _, h3⟩ := Res.bind_eq_ok h2
  have hl := wr_length h1
  split at h3
  · cases h3
  · cases h3; simp only; omega

theorem eq_body_ne_timeout (s : List Nat × Nat) : eq_body s ≠ .timeout := by
  obtain ⟨b, p⟩ := s
  simp only [eq_body]
  refine Res.bind_ne_timeout (wr_ne_timeout _ _ _) (fun b1 => ?_)
  refine Res.bind_ne_timeout (rd_ne_timeout _ _) (fun c => ?_)
  split <;> simp

theorem semi_body_dec (s s' : List Nat × Nat) (h : semi_body s = .ok (.again s')) :
    left s' < left s ∧ s'.1.length = s.1.length ∧ s.2 < s'.2 := by
  obtain ⟨b, p⟩ := s
  simp only [semi_body] at h
  obtain ⟨c, _, h2⟩ := Res.bind_eq_ok h
  split at h2
  · obtain ⟨b1, h1, h3⟩ := Res.bind_eq_ok h2
    have hl := wr_length h1
    have hp := (wr_eq_ok h1).1
    cases h3; simp only [left]; omega
  · cases h2

theorem semi_body_ne_timeout (s : List Nat × Nat) : semi_body s ≠ .timeout := by
  obtain ⟨b, p⟩ := s
  simp only [semi_body]
  refine Res.bind_ne_timeout (rd_ne_timeout _ _) (fun c => ?_)
  split
  · exact Res.bind_ne_timeout (wr_ne_timeout _ _ _) (fun b1 => by simp)
  · simp

theorem quote_body_dec (s s' : List Nat × Nat × Nat) (h : quote_body s = .ok (.again s')) :
    left3 s' < left3 s ∧ s'.1.length = s.1.length ∧ s.2.2 < s'.2.2 := by
  obtain ⟨b, q, p⟩ := s
  simp only [quote_body] at h
  obtain ⟨cq, _, h2⟩ := Res.bind_eq_ok h
  split at h2
  · obtain ⟨cp, hcp, h3⟩ := Res.bind_eq_ok h2
    have hp := rd_lt hcp
    split at h3
    · obtain ⟨c, _, h4⟩ := Res.bind_eq_ok h3
      obtain ⟨b1, h5, h6⟩ := Res.bind_eq_ok h4
      have hl := wr_length h5
      cases h6; simp only [left3]; omega
    · split at h3
      · obtain ⟨b1, _, h6⟩ := Res.bind_eq_ok h3
        cases h6
      · obtain ⟨b1, h5, h6⟩ := Res.bind_eq_ok h3
        have hl := wr_length h5
        cases h6; simp only [left3]; omega
  · cases h2

theorem quote_body_leave (s s' : List Nat × Nat × Nat) (h : quote_body s = .ok (.leave s')) :
    s'.1.length = s.1.length ∧ s'.2.2 = s.2.2 := by
  obtain ⟨b, q, p⟩ := s
  simp only [quote_body] at h
  obtain ⟨cq, _, h2⟩ := Res.bind_eq_ok h
  split at h2
  · obtain ⟨cp, hcp, h3⟩ := Res.bind_eq_ok h2
    split at h3
    · obtain ⟨c, _, h4⟩ := Res.bind_eq_ok h3
      obtain ⟨b1, h5, h6⟩ := Res.bind_eq_ok h4
      cases h6
    · split at h3
      · obtain ⟨b1, h5, h6⟩ := Res.bind_eq_ok h3
        have hl := wr_length h5
        cases h6; exact ⟨hl, rfl⟩
      · obtain ⟨b1, h5, h6⟩ := Res.bind_eq_ok h3
        cases h6
  · cases h2; exact ⟨rfl, rfl⟩

theorem quote_body_ne_timeout (s : List Nat × Nat × Nat) : quote_body s ≠ .timeout := by
  obtain ⟨b, q, p⟩ := s
  simp only [quote_body]
  refine Res.bind_ne_timeout (rd_ne_timeout _ _) (fun cq => ?_)
  split
  · refine Res.bind_ne_timeout (rd_ne_timeout _ _) (fun cp => ?_)
    split
    · refine Res.bind_ne_timeout (rd_ne_timeout _ _) (fun c => ?_)
      exact Res.bind_ne_timeout (wr_ne_timeout _ _ _) (fun b1 => by simp)
    · split
      · exact Res.bind_ne_timeout (wr_ne_timeout _ _ _) (fun b1 => by simp)
      · exact Res.bind_ne_timeout (wr_ne_timeout _ _ _) (fun b1 => by simp)
  · simp

/-- What the loop after `=` returns: the buffer keeps its length, the cursor
has moved on and the byte it started at is null. -/
theorem eq_loop_post (f : Nat) (b : List Nat) (p : Nat) (s : List Nat × Nat)
    (h : iterate eq_body f (b, p) = .ok s) :
    s.1.length = b.length ∧ p < s.2 ∧ s.1[p]? = some 0 := by
  refine iterate_inv eq_body
    (fun t => t.1.length = b.length ∧ (t = (b, p) ∨ (p < t.2 ∧ t.1[p]? = some 0)))
    (fun t => t.1.length = b.length ∧ p < t.2 ∧ t.1[p]? = some 0) ?_ ?_ f (b, p) s
    ⟨rfl, Or.inl rfl⟩ h
  · rintro ⟨b1, p1⟩ ⟨b2, p2⟩ ⟨hl, hI⟩ hb
    simp only [eq_body] at hb
    obtain ⟨b3, h1, h2⟩ := Res.bind_eq_ok hb
    obtain ⟨c, _, h3⟩ := Res.bind_eq_ok h2
    have hw := wr_eq_ok h1
    split at h3
    · cases h3
      refine ⟨by rw [wr_length h1]; exact hl, Or.inr ?_⟩
      rcases hI with hI | ⟨hI1, hI2⟩
      · cases hI
        refine ⟨by omega, ?_⟩
        rw [hw.2, List.getElem?_set_self hw.1]
      · refine ⟨by simp only at hI1 ⊢; omega, ?_⟩
        simp only at hI1 hI2 ⊢
        rw [hw.2, List.getElem?_set_ne (by omega)]
        exact hI2
    · cases h3
  · rintro ⟨b1, p1⟩ ⟨b2, p2⟩ ⟨hl, hI⟩ hb
    simp only [eq_body] at hb
    obtain ⟨b3, h1, h2⟩ := Res.bind_eq_ok hb
    obtain ⟨c, _, h3⟩ := Res.bind_eq_ok h2
    have hw := wr_eq_ok h1
    split at h3
    · cases h3
    · cases h3
      refine ⟨by rw [wr_length h1]; exact hl, ?_⟩
      rcases hI with hI | ⟨hI1, hI2⟩
      · cases hI
        refine ⟨by omega, ?_⟩
        rw [hw.2, List.getElem?_set_self hw.1]
      · refine ⟨by simp only at hI1 ⊢; omega, ?_⟩
        simp only at hI1 hI2 ⊢
        rw [hw.2, List.getElem?_set_ne (by omega)]
        exact hI2

theorem semi_loop_post (f : Nat) (b : List Nat) (p : Nat) (s : List Nat × Nat)
    (h : iterate semi_body f (b, p) = .ok s) :
    s.1.length = b.length ∧ p ≤ s.2 := by
  refine iterate_inv semi_body
    (fun t => t.1.length = b.length ∧ p ≤ t.2)
    (fun t => t.1.length = b.length ∧ p ≤ t.2) ?_ ?_ f (b, p) s
    ⟨rfl, le_refl _⟩ h
  · rintro s1 s2 ⟨hl, hI⟩ hb
    have := semi_body_dec s1 s2 hb
    exact ⟨by omega, by omega⟩
  · rintro ⟨b1, p1⟩ ⟨b2, p2⟩ ⟨hl, hI⟩ hb
    simp only [semi_body] at hb
    obtain ⟨c, _, h2⟩ := Res.bind_eq_ok hb
    split at h2
    · obtain ⟨b3, _, h3⟩ := Res.bind_eq_ok h2
      cases h3
    · cases h2; exact ⟨hl, hI⟩

theorem quote_loop_post (f : Nat) (b : List Nat) (q p : Nat) (s : List Nat × Nat × Nat)
    (h : iterate quote_body f (b, q, p) = .ok s) :
    s.1.length = b.length ∧ p ≤ s.2.2 := by
  refine iterate_inv quote_body
    (fun t => t.1.length = b.length ∧ p ≤ t.2.2)
    (fun t => t.1.length = b.length ∧ p ≤ t.2.2) ?_ ?_ f (b, q, p) s
    ⟨rfl, le_refl _⟩ h
  · rintro s1 s2 ⟨hl, hI⟩ hb
    have := quote_body_dec s1 s2 hb
    exact ⟨by omega, by omega⟩
  · rintro s1 s2 ⟨hl, hI⟩ hb
    have := quote_body_leave s1 s2 hb
    exact ⟨by omega, by omega⟩

/-! ## The three passes make progress and never time out -/

theorem split_body_again (e : Nat) (s s' : List Nat × Nat)
    (h : split_body e s = .ok (.again s')) :
    s'.1.length = s.1.length ∧ s.2 < s'.2 ∧ s.2 < s.1.length := by
  obtain ⟨b, p⟩ := s
  simp only [split_body] at h
  split at h
  · obtain ⟨c, hc, h2⟩ := Res.bind_eq_ok h
    have hp := rd_lt hc
    split at h2
    · obtain ⟨b1, h3, h4⟩ := Res.bind_eq_ok h2
      have hl := wr_length h3
      cases h4; exact ⟨hl, by simp, hp⟩
    · split at h2
      · cases h2; exact ⟨rfl, by simp, hp⟩
      · split at h2
        · obtain ⟨n, hn, h3⟩ := Res.bind_eq_ok h2
          obtain ⟨b1, h4, h5⟩ := Res.bind_eq_ok h3
          have hl := wr_length h4
          have hn1 := strcspn_pos hc (by omega) (by simp; omega) hn
          cases h5; exact ⟨hl, by simp only; omega, hp⟩
        · split at h2
          · obtain ⟨t, ht, h3⟩ := Res.bind_eq_ok h2
            obtain ⟨n, hn, h4⟩ := Res.bind_eq_ok h3
            obtain ⟨b1, h5, h6⟩ := Res.bind_eq_ok h4
            have hpost := eq_loop_post _ _ _ _ ht
            have hl := trim_back_length _ _ _ h5
            cases h6; exact ⟨by simp only; omega, by simp only; omega, hp⟩
          · split at h2
            · obtain ⟨t, ht, h3⟩ := Res.bind_eq_ok h2
              cases h3
              have hb : semi_body (b, p) = .ok (.again (b.set p 0, p + 1)) := by
                simp only [semi_body, hc, Res.bind_ok]
                rw [if_pos (by omega)]
                simp [wr, hp]
              rw [iterate_again hb] at ht
              have hpost := semi_loop_post _ _ _ _ ht
              simp only [List.length_set] at hpost
              exact ⟨hpost.1, by simp only; omega, hp⟩
            · obtain ⟨n, hn, h3⟩ := Res.bind_eq_ok h2
              obtain ⟨b1, h5, h6⟩ := Res.bind_eq_ok h3
              have hl := trim_back_length _ _ _ h5
              have hn1 := strcspn_pos hc (by omega) (by simp; omega) hn
              cases h6; exact ⟨hl, by simp only; omega, hp⟩
  · cases h

theorem split_body_dec (e : Nat) (s s' : List Nat × Nat)
    (h : split_body e s = .ok (.again s')) : left s' < left s := by
  have := split_body_again e s s' h
  simp only [left]; omega

theorem eq_loop_ne_timeout (b : List Nat) (p : Nat) :
    iterate eq_body (b.length + 1) (b, p) ≠ .timeout :=
  iterate_ne_timeout eq_body left (fun s s' h => (eq_body_dec s s' h).1) eq_body_ne_timeout
    _ _ (by simp only [left]; omega)

theorem semi_loop_ne_timeout (b : List Nat) (p : Nat) :
    iterate semi_body (b.length + 1) (b, p) ≠ .timeout :=
  iterate_ne_timeout semi_body left (fun s s' h => (semi_body_dec s s' h).1)
    semi_body_ne_timeout _ _ (by simp only [left]; omega)

theorem quote_loop_ne_timeout (b : List Nat) (q p : Nat) :
    iterate quote_body (b.length + 1) (b, q, p) ≠ .timeout :=
  iterate_ne_timeout quote_body left3 (fun s s' h => (quote_body_dec s s' h).1)
    quote_body_ne_timeout _ _ (by simp only [left3]; omega)

theorem split_body_ne_timeout (e : Nat) (s : List Nat × Nat) : split_body e s ≠ .timeout := by
  obtain ⟨b, p⟩ := s
  simp only [split_body]
  split
  · refine Res.bind_ne_timeout (rd_ne_timeout _ _) (fun c => ?_)
    split
    · exact Res.bind_ne_timeout (wr_ne_timeout _ _ _) (fun b1 => by simp)
    · split
      · simp
      · split
        · refine Res.bind_ne_timeout (strcspn_ne_timeout _ _ _) (fun n => ?_)
          exact Res.bind_ne_timeout (wr_ne_timeout _ _ _) (fun b1 => by simp)
        · split
          · refine Res.bind_ne_timeout (eq_loop_ne_timeout _ _) (fun t => ?_)
            refine Res.bind_ne_timeout (strcspn_ne_timeout _ _ _) (fun n => ?_)
            exact Res.bind_ne_timeout (trim_back_ne_timeout _ _) (fun b1 => by simp)
          · split
            · exact Res.bind_ne_timeout (semi_loop_ne_timeout _ _) (fun t => by simp)
            · refine Res.bind_ne_timeout (strcspn_ne_timeout _ _ _) (fun n => ?_)
              exact Res.bind_ne_timeout (trim_back_ne_timeout _ _) (fun b1 => by simp)
  · simp

/-- The tokenizer always comes to an end. -/
theorem split_data_ne_timeout (ini : ini_t) : split_data ini ≠ .timeout := by
  unfold split_data
  refine Res.bind_ne_timeout ?_ (fun b => by simp)
  exact iterate_ne_timeout _ left (split_body_dec _) (split_body_ne_timeout _) _ _
    (by simp only [left]; omega)

theorem unescape_body_again (e : Nat) (s s' : List Nat × Nat)
    (h : unescape_body e s = .ok (.again s')) :
    s'.1.length = s.1.length ∧ s.2 < s'.2 ∧ s.2 < s.1.length := by
  obtain ⟨b, p⟩ := s
  simp only [unescape_body] at h
  split at h
  · rename_i hpe
    obtain ⟨c, hc, h2⟩ := Res.bind_eq_ok h
    have hp := rd_lt hc
    split at h2
    · obtain ⟨t, ht, h3⟩ := Res.bind_eq_ok h2
      obtain ⟨p1, hp1, h4⟩ := Res.bind_eq_ok h3
      obtain ⟨b1, hb1, h5⟩ := Res.bind_eq_ok h4
      have hpost := quote_loop_post _ _ _ _ _ ht
      have hge := next_ge hp1
      split at hb1
      · cases hb1
      · have hl := memset_length _ _ _ _ _ hb1
        cases h5; exact ⟨by simp only; omega, by simp only; omega, hp⟩
    · obtain ⟨p1, hp1, h4⟩ := Res.bind_eq_ok h2
      have hgt := next_gt hpe hc hp1
      cases h4; exact ⟨rfl, hgt, hp⟩
  · cases h

theorem unescape_body_dec (e : Nat) (s s' : List Nat × Nat)
    (h : unescape_body e s = .ok (.again s')) : left s' < left s := by
  have := unescape_body_again e s s' h
  simp only [left]; omega

theorem unescape_body_ne_timeout (e : Nat) (s : List Nat × Nat) :
    unescape_body e s ≠ .timeout := by
  obtain ⟨b, p⟩ := s
  simp only [unescape_body]
  split
  · refine Res.bind_ne_timeout (rd_ne_timeout _ _) (fun c => ?_)
    split
    · refine Res.bind_ne_timeout (quote_loop_ne_timeout _ _ _) (fun t => ?_)
      refine Res.bind_ne_timeout (next_ne_timeout _ _ _) (fun p1 => ?_)
      refine Res.bind_ne_timeout ?_ (fun b1 => by simp)
      split
      · simp
      · exact memset_ne_timeout _ _ _ _
    · exact Res.bind_ne_timeout (next_ne_timeout _ _ _) (fun p1 => by simp)
  · simp

theorem first_token_ne_timeout (b : List Nat) (e : Nat) : first_token b e ≠ .timeout := by
  unfold first_token
  refine Res.bind_ne_timeout (rd_ne_timeout _ _) (fun c => ?_)
  split
  · exact next_ne_timeout _ _ _
  · simp

/-- The unescape pass always comes to an end. -/
theorem unescape_ne_timeout (ini : ini_t) : unescape_quoted_strings ini ≠ .timeout := by
  unfold unescape_quoted_strings
  refine Res.bind_ne_timeout (first_token_ne_timeout _ _) (fun p => ?_)
  refine Res.bind_ne_timeout ?_ (fun b => by simp)
  exact iterate_ne_timeout _ left (unescape_body_dec _) (unescape_body_ne_timeout _) _ _
    (by simp only [left]; omega)

theorem strcmpci_ne_timeout : ∀ a b, strcmpci a b ≠ .timeout := by
  intro a
  induction a with
  | nil => intro b; simp [strcmpci]
  | cons x a ih =>
    intro b
    cases b with
    | nil => simp [strcmpci]
    | cons y b =>
      simp only [strcmpci]
      split
      · simp
      · exact ih b

theorem get_body_again (b : List Nat) (e : Nat) (sec : Option (List Nat)) (key : List Nat)
    (s s' : Nat × List Nat) (h : get_body b e sec key s = .ok (.again s')) :
    s.1 < s'.1 ∧ s.1 < b.length := by
  obtain ⟨p, cur⟩ := s
  simp only [get_body] at h
  split at h
  · rename_i hpe
    obtain ⟨c, hc, h2⟩ := Res.bind_eq_ok h
    have hp := rd_lt hc
    split at h2
    · obtain ⟨p1, hp1, h4⟩ := Res.bind_eq_ok h2
      have hgt := next_gt hpe hc hp1
      cases h4; exact ⟨hgt, hp⟩
    · obtain ⟨val, hval, h3⟩ := Res.bind_eq_ok h2
      obtain ⟨so, _, h4⟩ := Res.bind_eq_ok h3
      obtain ⟨hit, _, h5⟩ := Res.bind_eq_ok h4
      have hgt := next_gt hpe hc hval
      split at h5
      · cases h5
      · obtain ⟨p1, hp1, h6⟩ := Res.bind_eq_ok h5
        have hge := next_ge hp1
        cases h6; exact ⟨by simp only; omega, hp⟩
  · cases h

theorem get_body_dec (b : List Nat) (e : Nat) (sec : Option (List Nat)) (key : List Nat)
    (s s' : Nat × List Nat) (h : get_body b e sec key s = .ok (.again s')) :
    b.length - s'.1 < b.length - s.1 := by
  have := get_body_again b e sec key s s' h
  omega

theorem section_ok_ne_timeout (sec : Option (List Nat)) (cur : List Nat) :
    section_ok sec cur ≠ .timeout := by
  unfold section_ok
  cases sec with
  | none => simp
  | some s => exact Res.bind_ne_timeout (strcmpci_ne_timeout _ _) (fun d => by simp)

theorem get_body_ne_timeout (b : List Nat) (e : Nat) (sec : Option (List Nat)) (key : List Nat)
    (s : Nat × List Nat) : get_body b e sec key s ≠ .timeout := by
  obtain ⟨p, cur⟩ := s
  simp only [get_body]
  split
  · refine Res.bind_ne_timeout (rd_ne_timeout _ _) (fun c => ?_)
    split
    · exact Res.bind_ne_timeout (next_ne_timeout _ _ _) (fun p1 => by simp)
    · refine Res.bind_ne_timeout (next_ne_timeout _ _ _) (fun val => ?_)
      refine Res.bind_ne_timeout (section_ok_ne_timeout _ _) (fun so => ?_)
      refine Res.bind_ne_timeout ?_ (fun hit => ?_)
      · split
        · exact Res.bind_ne_timeout (strcmpci_ne_timeout _ _) (fun d => by simp)
        · simp
      · split
        · simp
        · exact Res.bind_ne_timeout (next_ne_timeout _ _ _) (fun p1 => by simp)
  · simp

/-- The lookup always comes to an end. -/
theorem ini_get_ne_timeout (ini : ini_t) (sec : Option (List Nat)) (key : List Nat) :
    ini_get ini sec key ≠ .timeout := by
  unfold ini_get
  refine Res.bind_ne_timeout (first_token_ne_timeout _ _) (fun p => ?_)
  exact iterate_ne_timeout _ (fun s => ini.data.length - s.1) (get_body_dec _ _ _ _)
    (get_body_ne_timeout _ _ _ _) _ _ (by show ini.data.length - p < _; omega)

/-! ## Moving the buffer: bytes put in front of it change nothing -/

theorem left_sh2 (Z : List Nat) (s : List Nat × Nat) : left (sh2 Z s) = left s := by
  simp only [left, sh2, List.length_append]; omega

theorem left3_sh3 (Z : List Nat) (s : List Nat × Nat × Nat) : left3 (sh3 Z s) = left3 s := by
  simp only [left3, sh3, List.length_append]; omega

theorem next_body_shift (Z b : List Nat) (e p : Nat) :
    next_body (Z ++ b) (e + Z.length) (p + Z.length) =
      (next_body b e p).map (Ctl.map (· + Z.length) (· + Z.length)) := by
  unfold next_body
  by_cases hp : p < e
  · rw [if_pos hp, if_pos (by omega), rd_shift]
    cases rd b p with
    | ok c =>
      simp only [Res.bind_ok]
      by_cases hc : c = 0
      · rw [if_pos hc, if_pos hc]
        simp only [Res.map_ok, Ctl.map]
        congr 2; omega
      · rw [if_neg hc, if_neg hc]; rfl
    | oob => rfl
    | timeout => rfl
  · rw [if_neg hp, if_neg (by omega)]; rfl

theorem next_loop_shift (Z b : List Nat) (e p : Nat) :
    iterate (next_body (Z ++ b) (e + Z.length)) ((Z ++ b).length + 1) (p + Z.length) =
      (iterate (next_body b e) (b.length + 1) p).map (· + Z.length) := by
  rw [iterate_fuel _ (fun p => (Z ++ b).length - p) (next_body_dec _ _)
    ((Z ++ b).length + 1) (b.length + 1) (p + Z.length)
    (by show (Z ++ b).length - (p + Z.length) < _; omega)
    (by show (Z ++ b).length - (p + Z.length) < _; simp only [List.length_append]; omega)]
  exact iterate_map (next_body b e) (next_body (Z ++ b) (e + Z.length)) (· + Z.length)
    (· + Z.length) (fun s => next_body_shift Z b e s) _ p

theorem next_shift (Z b : List Nat) (e p : Nat) :
    next (Z ++ b) (e + Z.length) (p + Z.length) = (next b e p).map (· + Z.length) := by
  unfold next
  rw [strlen_shift]
  cases strlen b p with
  | ok n =>
    simp only [Res.bind_ok]
    have : p + Z.length + n = (p + n) + Z.length := by omega
    rw [this]
    exact next_loop_shift Z b e (p + n)
  | oob => rfl
  | timeout => rfl

theorem eq_body_shift (Z : List Nat) (s : List Nat × Nat) :
    eq_body (sh2 Z s) = (eq_body s).map (Ctl.map (sh2 Z) (sh2 Z)) := by
  obtain ⟨b, p⟩ := s
  simp only [eq_body, sh2]
  rw [wr_shift]
  cases wr b p 0 with
  | ok b1 =>
    simp only [Res.map_ok, Res.bind_ok]
    have : p + Z.length + 1 = (p + 1) + Z.length := by omega
    rw [this, rd_shift]
    cases rd b1 (p + 1) with
    | ok c =>
      simp only [Res.bind_ok]
      by_cases hc : c = 32 ∨ c = 9
      · rw [if_pos hc, if_pos hc]; rfl
      · rw [if_neg hc, if_neg hc]; rfl
    | oob => rfl
    | timeout => rfl
  | oob => rfl
  | timeout => rfl

theorem eq_loop_shift (Z b : List Nat) (p : Nat) :
    iterate eq_body ((Z ++ b).length + 1) (Z ++ b, p + Z.length) =
      (iterate eq_body (b.length + 1) (b, p)).map (sh2 Z) := by
  have e1 : (Z ++ b, p + Z.length) = sh2 Z (b, p) := rfl
  rw [e1, iterate_fuel eq_body left (fun s s' h => (eq_body_dec s s' h).1)
    ((Z ++ b).length + 1) (b.length + 1) (sh2 Z (b, p))
    (by rw [left_sh2]; simp only [left, List.length_append]; omega)
    (by rw [left_sh2]; simp only [left]; omega)]
  exact iterate_map eq_body eq_body (sh2 Z) (sh2 Z) (eq_body_shift Z) _ _

theorem semi_body_shift (Z : List Nat) (s : List Nat × Nat) :
    semi_body (sh2 Z s) = (semi_body s).map (Ctl.map (sh2 Z) (sh2 Z)) := by
  obtain ⟨b, p⟩ := s
  simp only [semi_body, sh2]
  rw [rd_shift]
  cases rd b p with
  | ok c =>
    simp only [Res.bind_ok]
    by_cases hc : c ≠ 0 ∧ c ≠ 10
    · rw [if_pos hc, if_pos hc, wr_shift]
      cases wr b p 0 with
      | ok b1 =>
        simp only [Res.map_ok, Res.bind_ok, Ctl.map, sh2]
        congr 3; omega
      | oob => rfl
      | timeout => rfl
    · rw [if_neg hc, if_neg hc]; rfl
  | oob => rfl
  | timeout => rfl

theorem semi_loop_shift (Z b : List Nat) (p : Nat) :
    iterate semi_body ((Z ++ b).length + 1) (Z ++ b, p + Z.length) =
      (iterate semi_body (b.length + 1) (b, p)).map (sh2 Z) := by
  have e1 : (Z ++ b, p + Z.length) = sh2 Z (b, p) := rfl
  rw [e1, iterate_fuel semi_body left (fun s s' h => (semi_body_dec s s' h).1)
    ((Z ++ b).length + 1) (b.length + 1) (sh2 Z (b, p))
    (by rw [left_sh2]; simp only [left, List.length_append]; omega)
    (by rw [left_sh2]; simp only [left]; omega)]
  exact iterate_map semi_body semi_body (sh2 Z) (sh2 Z) (semi_body_shift Z) _ _

theorem quote_body_shift (Z : List Nat) (s : List Nat × Nat × Nat) :
    quote_body (sh3 Z s) = (quote_body s).map (Ctl.map (sh3 Z) (sh3 Z)) := by
  obtain ⟨b, q, p⟩ := s
  simp only [quote_body, sh3]
  rw [rd_shift]
  cases rd b q with
  | ok cq =>
    simp only [Res.bind_ok]
    by_cases hq : cq ≠ 0
    · rw [if_pos hq, if_pos hq, rd_shift]
      cases rd b p with
      | ok cp =>
        simp only [Res.bind_ok]
        by_cases h92 : cp = 92
        · rw [if_pos h92, if_pos h92]
          have : p + Z.length + 1 = (p + 1) + Z.length := by omega
          rw [this, rd_shift]
          cases rd b (p + 1) with
          | ok c =>
            simp only [Res.bind_ok]
            rw [wr_shift]
            cases wr b q (if c = 114 then 13 else if c = 110 then 10
                     else if c = 116 then 9 else c) with
            | ok b1 =>
              simp only [Res.map_ok, Res.bind_ok, Ctl.map, sh3]
              congr 4 <;> omega
            | oob => rfl
            | timeout => rfl
          | oob => rfl
          | timeout => rfl
        · rw [if_neg h92, if_neg h92]
          by_cases h34 : cp = 34
          · rw [if_pos h34, if_pos h34, wr_shift]
            cases wr b q 0 with
            | ok b1 => rfl
            | oob => rfl
            | timeout => rfl
          · rw [if_neg h34, if_neg h34, wr_shift]
            cases wr b q cp with
            | ok b1 =>
              simp only [Res.map_ok, Res.bind_ok, Ctl.map, sh3]
              congr 4 <;> omega
            | oob => rfl
            | timeout => rfl
      | oob => rfl
      | timeout => rfl
    · rw [if_neg hq, if_neg hq]; rfl
  | oob => rfl
  | timeout => rfl

theorem quote_loop_shift (Z b : List Nat) (q p : Nat) :
    iterate quote_body ((Z ++ b).length + 1) (Z ++ b, q + Z.length, p + Z.length) =
      (iterate quote_body (b.length + 1) (b, q, p)).map (sh3 Z) := by
  have e1 : (Z ++ b, q + Z.length, p + Z.length) = sh3 Z (b, q, p) := rfl
  rw [e1, iterate_fuel quote_body left3 (fun s s' h => (quote_body_dec s s' h).1)
    ((Z ++ b).length + 1) (b.length + 1) (sh3 Z (b, q, p))
    (by rw [left3_sh3]; simp only [left3, List.length_append]; omega)
    (by rw [left3_sh3]; simp only [left3]; omega)]
  exact iterate_map quote_body quote_body (sh3 Z) (sh3 Z) (quote_body_shift Z) _ _

theorem split_body_shift (Z : List Nat) (e : Nat) (s : List Nat × Nat) :
    split_body (e + Z.length) (sh2 Z s) = (split_body e s).map (Ctl.map (sh2 Z) (Z ++ ·)) := by
  obtain ⟨b, p⟩ := s
  simp only [split_body, sh2]
  by_cases hp : p < e
  · rw [if_pos hp, if_pos (by omega), rd_shift]
    cases hr : rd b p with
    | ok c =>
      simp only [Res.bind_ok]
      by_cases h1 : c = 13 ∨ c = 10 ∨ c = 9 ∨ c = 32
      · rw [if_pos h1, if_pos h1, wr_shift]
        cases wr b p 0 with
        | ok b1 =>
          simp only [Res.map_ok, Res.bind_ok, Ctl.map, sh2]
          congr 3; omega
        | oob => rfl
        | timeout => rfl
      · rw [if_neg h1, if_neg h1]
        by_cases h2 : c = 0
        · rw [if_pos h2, if_pos h2]
          simp only [Res.map_ok, Ctl.map, sh2]
          congr 3; omega
        · rw [if_neg h2, if_neg h2]
          by_cases h3 : c = 91
          · rw [if_pos h3, if_pos h3, strcspn_shift]
            cases strcspn b p [93] with
            | ok n =>
              simp only [Res.bind_ok]
              have : p + Z.length + n = (p + n) + Z.length := by omega
              rw [this, wr_shift]
              cases wr b (p + n) 0 with
              | ok b1 => rfl
              | oob => rfl
              | timeout => rfl
            | oob => rfl
            | timeout => rfl
          · rw [if_neg h3, if_neg h3]
            by_cases h4 : c = 61
            · rw [if_pos h4, if_pos h4, eq_loop_shift]
              cases ht : iterate eq_body (b.length + 1) (b, p) with
              | ok t =>
                obtain ⟨b1, p1⟩ := t
                obtain ⟨_, hlt, hz⟩ := eq_loop_post _ _ _ _ ht
                simp only [Res.map_ok, Res.bind_ok, sh2]
                rw [strcspn_shift]
                cases strcspn b1 p1 [10] with
                | ok n =>
                  simp only [Res.bind_ok]
                  simp only at hlt hz
                  have e1 : p1 + Z.length + n = p + 1 + (p1 + n - p - 1) + Z.length := by omega
                  have e2 : p1 + n = p + 1 + (p1 + n - p - 1) := by omega
                  rw [e1, trim_back_shift Z p 0 (by decide) _ b1 hz, ← e2]
                  cases trim_back (p1 + n) b1 with
                  | ok b2 =>
                    simp only [Res.map_ok, Res.bind_ok, Ctl.map, sh2]
                  | oob => rfl
                  | timeout => rfl
                | oob => rfl
                | timeout => rfl
              | oob => rfl
              | timeout => rfl
            · rw [if_neg h4, if_neg h4]
              by_cases h5 : c = 59
              · rw [if_pos h5, if_pos h5, semi_loop_shift]
                cases iterate semi_body (b.length + 1) (b, p) with
                | ok t => rfl
                | oob => rfl
                | timeout => rfl
              · rw [if_neg h5, if_neg h5, strcspn_shift]
                cases hn : strcspn b p [61] with
                | ok n =>
                  simp only [Res.bind_ok]
                  have hn1 := strcspn_pos hr h2 (by simp; omega) hn
                  have e1 : p + Z.length + n = p + 1 + (n - 1) + Z.length := by omega
                  have e2 : p + n = p + 1 + (n - 1) := by omega
                  rw [e1, trim_back_shift Z p c (by omega) _ b (rd_eq_ok.1 hr), ← e2]
                  cases trim_back (p + n) b with
                  | ok b2 =>
                    simp only [Res.map_ok, Res.bind_ok, Ctl.map, sh2]
                  | oob => rfl
                  | timeout => rfl
                | oob => rfl
                | timeout => rfl
    | oob => rfl
    | timeout => rfl
  · rw [if_neg hp, if_neg (by omega)]; rfl

theorem split_loop_shift (Z b : List Nat) (e p f f' : Nat) (hf : b.length - p < f)
    (hf' : b.length - p < f') :
    iterate (split_body (e + Z.length)) f' (Z ++ b, p + Z.length) =
      (iterate (split_body e) f (b, p)).map (Z ++ ·) := by
  have e1 : (Z ++ b, p + Z.length) = sh2 Z (b, p) := rfl
  rw [e1, iterate_fuel _ left (split_body_dec _) f' f (sh2 Z (b, p))
    (by rw [left_sh2]; exact hf') (by rw [left_sh2]; exact hf)]
  exact iterate_map (split_body e) (split_body (e + Z.length)) (sh2 Z) (Z ++ ·)
    (split_body_shift Z e) _ _

theorem unescape_body_shift (Z : List Nat) (e : Nat) (s : List Nat × Nat) :
    unescape_body (e + Z.length) (sh2 Z s) =
      (unescape_body e s).map (Ctl.map (sh2 Z) (Z ++ ·)) := by
  obtain ⟨b, p⟩ := s
  simp only [unescape_body, sh2]
  by_cases hp : p < e
  · rw [if_pos hp, if_pos (by omega), rd_shift]
    cases hr : rd b p with
    | ok c =>
      simp only [Res.bind_ok]
      by_cases h1 : c = 34
      · rw [if_pos h1, if_pos h1]
        have e1 : p + Z.length + 1 = (p + 1) + Z.length := by omega
        rw [e1, quote_loop_shift]
        cases iterate quote_body (b.length + 1) (b, p, p + 1) with
        | ok t =>
          obtain ⟨b1, q1, p1⟩ := t
          simp only [Res.map_ok, Res.bind_ok, sh3]
          rw [next_shift]
          cases next b1 e p1 with
          | ok p2 =>
            simp only [Res.map_ok, Res.bind_ok]
            by_cases h2 : p2 < q1
            · rw [if_pos h2, if_pos (by omega)]; rfl
            · rw [if_neg h2, if_neg (by omega)]
              have e2 : p2 + Z.length - (q1 + Z.length) = p2 - q1 := by omega
              rw [e2, memset_shift]
              cases memset q1 0 (p2 - q1) b1 with
              | ok b2 => rfl
              | oob => rfl
              | timeout => rfl
          | oob => rfl
          | timeout => rfl
        | oob => rfl
        | timeout => rfl
      · rw [if_neg h1, if_neg h1, next_shift]
        cases next b e p with
        | ok p2 => rfl
        | oob => rfl
        | timeout => rfl
    | oob => rfl
    | timeout => rfl
  · rw [if_neg hp, if_neg (by omega)]; rfl

theorem unescape_loop_shift (Z b : List Nat) (e p f f' : Nat) (hf : b.length - p < f)
    (hf' : b.length - p < f') :
    iterate (unescape_body (e + Z.length)) f' (Z ++ b, p + Z.length) =
      (iterate (unescape_body e) f (b, p)).map (Z ++ ·) := by
  have e1 : (Z ++ b, p + Z.length) = sh2 Z (b, p) := rfl
  rw [e1, iterate_fuel _ left (unescape_body_dec _) f' f (sh2 Z (b, p))
    (by rw [left_sh2]; exact hf') (by rw [left_sh2]; exact hf)]
  exact iterate_map (unescape_body e) (unescape_body (e + Z.length)) (sh2 Z) (Z ++ ·)
    (unescape_body_shift Z e) _ _

theorem get_body_shift (Z b : List Nat) (e : Nat) (sec : Option (List Nat)) (key : List Nat)
    (s : Nat × List Nat) :
    get_body (Z ++ b) (e + Z.length) sec key (shg Z.length s) =
      (get_body b e sec key s).map (Ctl.map (shg Z.length) (Option.map (· + Z.length))) := by
  obtain ⟨p, cur⟩ := s
  simp only [get_body, shg]
  by_cases hp : p < e
  · rw [if_pos hp, if_pos (by omega), rd_shift]
    cases hr : rd b p with
    | ok c =>
      simp only [Res.bind_ok]
      by_cases h1 : c = 91
      · rw [if_pos h1, if_pos h1, next_shift]
        cases next b e p with
        | ok p2 =>
          simp only [Res.map_ok, Res.bind_ok, Ctl.map, shg]
          have e1 : p + Z.length + 1 = (p + 1) + Z.length := by omega
          rw [e1, drop_shift]
        | oob => rfl
        | timeout => rfl
      · rw [if_neg h1, if_neg h1, next_shift, drop_shift]
        cases next b e p with
        | ok val =>
          simp only [Res.map_ok, Res.bind_ok]
          cases section_ok sec cur with
          | ok so =>
            simp only [Res.bind_ok]
            cases (if so = true then
                (strcmpci (List.drop p b) (c_str key)).bind fun d => Res.ok (decide (d = 0))
              else Res.ok false) with
            | ok hit =>
              simp only [Res.bind_ok]
              by_cases h2 : hit = true
              · rw [if_pos h2, if_pos h2]; rfl
              · rw [if_neg h2, if_neg h2, next_shift]
                cases next b e val with
                | ok p2 => rfl
                | oob => rfl
                | timeout => rfl
            | oob => rfl
            | timeout => rfl
          | oob => rfl
          | timeout => rfl
        | oob => rfl
        | timeout => rfl
    | oob => rfl
    | timeout => rfl
  · rw [if_neg hp, if_neg (by omega)]; rfl

theorem get_loop_shift (Z b : List Nat) (e : Nat) (sec : Option (List Nat)) (key : List Nat)
    (p : Nat) (cur : List Nat) (f f' : Nat) (hf : b.length - p < f) (hf' : b.length - p < f') :
    iterate (get_body (Z ++ b) (e + Z.length) sec key) f' (p + Z.length, cur) =
      (iterate (get_body b e sec key) f (p, cur)).map (Option.map (· + Z.length)) := by
  have e1 : (p + Z.length, cur) = shg Z.length (p, cur) := rfl
  rw [e1, iterate_fuel _ (fun s => (Z ++ b).length - s.1) (get_body_dec _ _ _ _) f' f
    (shg Z.length (p, cur))
    (by simp only [shg, List.length_append]; omega)
    (by simp only [shg, List.length_append]; omega)]
  exact iterate_map (get_body b e sec key) (get_body (Z ++ b) (e + Z.length) sec key)
    (shg Z.length) (Option.map (· + Z.length)) (get_body_shift Z b e sec key) _ _

theorem string_at_shift (Z b : List Nat) (p : Nat) :
    string_at (Z ++ b) (p + Z.length) = string_at b p := by
  unfold string_at
  rw [strlen_shift, drop_shift]

/-! ## Lengths are kept -/

theorem split_loop_length (e f : Nat) (b : List Nat) (p : Nat) (b' : List Nat)
    (h : iterate (split_body e) f (b, p) = .ok b') : b'.length = b.length := by
  refine iterate_inv (split_body e) (fun t => t.1.length = b.length)
    (fun r => r.length = b.length) ?_ ?_ f (b, p) b' rfl h
  · intro s s' hI hb
    have := split_body_again e s s' hb
    omega
  · rintro ⟨b1, p1⟩ a hI hb
    simp only [split_body] at hb
    split at hb
    · obtain ⟨c, _, h2⟩ := Res.bind_eq_ok hb
      split at h2
      · obtain ⟨b2, _, h3⟩ := Res.bind_eq_ok h2; cases h3
      · split at h2
        · cases h2
        · split at h2
          · obtain ⟨n, _, h3⟩ := Res.bind_eq_ok h2
            obtain ⟨b2, _, h4⟩ := Res.bind_eq_ok h3; cases h4
          · split at h2
            · obtain ⟨t, _, h3⟩ := Res.bind_eq_ok h2
              obtain ⟨n, _, h4⟩ := Res.bind_eq_ok h3
              obtain ⟨b2, _, h5⟩ := Res.bind_eq_ok h4; cases h5
            · split at h2
              · obtain ⟨t, _, h3⟩ := Res.bind_eq_ok h2; cases h3
              · obtain ⟨n, _, h3⟩ := Res.bind_eq_ok h2
                obtain ⟨b2, _, h4⟩ := Res.bind_eq_ok h3; cases h4
    · cases hb; exact hI

theorem split_data_length {ini ini' : ini_t} (h : split_data ini = .ok ini') :
    ini'.data.length = ini.data.length ∧ ini'.end_ = ini.end_ := by
  unfold split_data at h
  obtain ⟨b, hb, h2⟩ := Res.bind_eq_ok h
  cases h2
  exact ⟨split_loop_length _ _ _ _ _ hb, rfl⟩

theorem unescape_loop_length (e f : Nat) (b : List Nat) (p : Nat) (b' : List Nat)
    (h : iterate (unescape_body e) f (b, p) = .ok b') : b'.length = b.length := by
  refine iterate_inv (unescape_body e) (fun t => t.1.length = b.length)
    (fun r => r.length = b.length) ?_ ?_ f (b, p) b' rfl h
  · intro s s' hI hb
    have := unescape_body_again e s s' hb
    omega
  · rintro ⟨b1, p1⟩ a hI hb
    simp only [unescape_body] at hb
    split at hb
    · obtain ⟨c, _, h2⟩ := Res.bind_eq_ok hb
      split at h2
      · obtain ⟨t, _, h3⟩ := Res.bind_eq_ok h2
        obtain ⟨n, _, h4⟩ := Res.bind_eq_ok h3
        obtain ⟨b2, _, h5⟩ := Res.bind_eq_ok h4; cases h5
      · obtain ⟨n, _, h3⟩ := Res.bind_eq_ok h2; cases h3
    · cases hb; exact hI

theorem unescape_length {ini ini' : ini_t} (h : unescape_quoted_strings ini = .ok ini') :
    ini'.data.length = ini.data.length ∧ ini'.end_ = ini.end_ := by
  unfold unescape_quoted_strings at h
  obtain ⟨p, _, h2⟩ := Res.bind_eq_ok h
  obtain ⟨b, hb, h3⟩ := Res.bind_eq_ok h2
  cases h3
  exact ⟨unescape_loop_length _ _ _ _ _ hb, rfl⟩

/-! ## A comment line in front of a text -/

/-- The loop of the `;` case turns a run without null byte and line feed into
null bytes and stops at the byte behind it. -/
theorem semi_loop_run (stop : Nat) (rest : List Nat) (hstop : stop = 0 ∨ stop = 10) :
    ∀ (run pre : List Nat) (f : Nat), (∀ x ∈ run, x ≠ 0 ∧ x ≠ 10) → run.length < f →
      iterate semi_body f (pre ++ run ++ stop :: rest, pre.length) =
        .ok (pre ++ List.replicate run.length 0 ++ stop :: rest, pre.length + run.length) := by
  intro run
  induction run with
  | nil =>
    intro pre f _ hf
    cases f with
    | zero => simp at hf
    | succ f =>
      apply iterate_leave
      simp only [semi_body, List.append_nil, rd_at, Res.bind_ok]
      rw [if_neg (by omega)]
      simp
  | cons x run ih =>
    intro pre f hrun hf
    cases f with
    | zero => simp at hf
    | succ f =>
      have hx := hrun x (List.mem_cons_self _ _)
      have hb : semi_body (pre ++ (x :: run) ++ stop :: rest, pre.length) =
          .ok (.again ((pre ++ [0]) ++ run ++ stop :: rest, (pre ++ [0]).length)) := by
        simp only [semi_body, List.append_assoc, List.cons_append, rd_at, Res.bind_ok]
        rw [if_pos hx, wr_at]
        simp
      rw [iterate_again hb, ih (pre ++ [0]) f
        (fun y hy => hrun y (List.mem_cons_of_mem _ hy)) (by simpa using hf)]
      simp [List.replicate_succ]
      omega

theorem split_body_semi {e p : Nat} {b : List Nat} (hp : p < e) (hr : rd b p = .ok 59) :
    split_body e (b, p) =
      (iterate semi_body (b.length + 1) (b, p)).bind fun s => .ok (.again s) := by
  simp [split_body, hp, hr]

theorem split_body_ws {e p c : Nat} {b : List Nat} (hp : p < e) (hr : rd b p = .ok c)
    (hc : c = 13 ∨ c = 10 ∨ c = 9 ∨ c = 32) :
    split_body e (b, p) = (wr b p 0).bind fun b' => .ok (.again (b', p + 1)) := by
  simp only [split_body, if_pos hp, hr, Res.bind_ok, if_pos hc]

theorem split_comment (c B : List Nat) (hc : ∀ x ∈ c, x ≠ 0 ∧ x ≠ 10) :
    split_data { data := (59 :: c ++ 10 :: B) ++ [0], end_ := (59 :: c ++ 10 :: B).length } =
      (split_data { data := B ++ [0], end_ := B.length }).map
        (shi (List.replicate (c.length + 2) 0)) := by
  unfold split_data
  simp only
  have hbuf : (59 :: c ++ 10 :: B) ++ [0] = [] ++ (59 :: c) ++ 10 :: (B ++ [0]) := by simp
  have hlen : ([] ++ (59 :: c) ++ 10 :: (B ++ [0])).length = c.length + B.length + 3 := by
    simp; omega
  have hend : (59 :: c ++ 10 :: B).length = c.length + B.length + 2 := by simp; omega
  rw [hbuf, hend]
  -- the loop of the `;` case
  have h1 : split_body (c.length + B.length + 2) ([] ++ (59 :: c) ++ 10 :: (B ++ [0]), 0) =
      .ok (.again (List.replicate (c.length + 1) 0 ++ 10 :: (B ++ [0]), c.length + 1)) := by
    have hs := semi_loop_run 10 (B ++ [0]) (Or.inr rfl) (59 :: c) []
      (([] ++ (59 :: c) ++ 10 :: (B ++ [0])).length + 1) (by
        intro x hx
        rcases List.mem_cons.1 hx with rfl | hx
        · decide
        · exact hc x hx) (by rw [hlen]; simp; omega)
    rw [split_body_semi (by omega) (by simp [rd])]
    simp only [List.length_nil] at hs
    rw [hs]
    simp
  have h2 : split_body (c.length + B.length + 2)
      (List.replicate (c.length + 1) 0 ++ 10 :: (B ++ [0]), c.length + 1) =
      .ok (.again (List.replicate (c.length + 2) 0 ++ (B ++ [0]),
        0 + (List.replicate (c.length + 2) 0).length)) := by
    have hr := rd_at (List.replicate (c.length + 1) 0) 10 (B ++ [0])
    have hw := wr_at (List.replicate (c.length + 1) 0) 10 (B ++ [0]) 0
    simp only [List.length_replicate] at hr hw
    rw [split_body_ws (by omega) hr (by decide), hw]
    simp only [Res.bind_ok, List.length_replicate]
    congr 3
    · rw [List.replicate_succ' (c.length + 1)]; simp
    · omega
  rw [iterate_step _ left (split_body_dec _) h1 _ (c.length + B.length + 4)
    (by simp only [left]; omega)
    (by simp [left]; omega)]
  rw [iterate_step _ left (split_body_dec _) h2 _ (c.length + B.length + 4)
    (by simp [left]; omega)
    (by simp [left]; omega)]
  have e2 : c.length + B.length + 2 = B.length + (List.replicate (c.length + 2) 0).length := by
    simp; omega
  rw [e2, split_loop_shift (List.replicate (c.length + 2) 0) (B ++ [0]) B.length 0
    ((B ++ [0]).length + 1) _ (by omega) (by simp; omega)]
  cases iterate (split_body B.length) ((B ++ [0]).length + 1) (B ++ [0], 0) with
  | ok b => simp [shi]
  | oob => rfl
  | timeout => rfl

theorem first_token_eq (b : List Nat) (e : Nat) (hb : b ≠ []) :
    first_token b e = iterate (next_body b e) (b.length + 1) 0 := by
  cases b with
  | nil => exact absurd rfl hb
  | cons c0 b' =>
    have hr : rd (c0 :: b') 0 = .ok c0 := by simp [rd]
    unfold first_token
    rw [hr]
    simp only [Res.bind_ok]
    by_cases h0 : c0 = 0
    · subst h0
      rw [if_pos rfl]
      unfold next
      rw [strlen_null hr]
      rfl
    · rw [if_neg h0]
      symm
      apply iterate_leave
      unfold next_body
      split
      · rw [hr]; simp [h0]
      · rfl

theorem skip_front (m : Nat) (b : List Nat) (e : Nat) :
    ∀ k, k ≤ m →
      iterate (next_body (List.replicate m 0 ++ b) (e + m))
          ((List.replicate m 0 ++ b).length + 1) 0 =
        iterate (next_body (List.replicate m 0 ++ b) (e + m))
          ((List.replicate m 0 ++ b).length + 1) k := by
  intro k
  induction k with
  | zero => intro _; rfl
  | succ k ih =>
    intro hk
    rw [ih (by omega)]
    have hr : rd (List.replicate m 0 ++ b) k = .ok 0 := by
      rw [rd_eq_ok, List.getElem?_append_left (by simp; omega)]
      rw [List.getElem?_replicate, if_pos (by omega)]
    have hb : next_body (List.replicate m 0 ++ b) (e + m) k = .ok (.again (k + 1)) := by
      unfold next_body
      rw [if_pos (by omega), hr]
      simp
    exact iterate_step _ (fun p => (List.replicate m 0 ++ b).length - p) (next_body_dec _ _) hb
      _ _ (by show _ - k < _; omega) (by show _ - (k + 1) < _; omega)

theorem first_token_shift (m : Nat) (b : List Nat) (e : Nat) (hb : b ≠ []) :
    first_token (List.replicate m 0 ++ b) (e + m) = (first_token b e).map (· + m) := by
  rw [first_token_eq _ _ (by simp [hb]), first_token_eq _ _ hb, skip_front m b e m (le_refl _)]
  have h := next_loop_shift (List.replicate m 0) b e 0
  simp only [List.length_replicate, Nat.zero_add] at h
  exact h

theorem unescape_shift (m : Nat) (ini : ini_t) (hb : ini.data ≠ []) :
    unescape_quoted_strings (shi (List.replicate m 0) ini) =
      (unescape_quoted_strings ini).map (shi (List.replicate m 0)) := by
  unfold unescape_quoted_strings
  simp only [shi, List.length_replicate]
  rw [first_token_shift m _ _ hb, Res.bind_map]
  cases first_token ini.data ini.end_ with
  | ok p =>
    simp only [Res.bind_ok]
    have h := unescape_loop_shift (List.replicate m 0) ini.data ini.end_ p
      (ini.data.length + 1) ((List.replicate m 0 ++ ini.data).length + 1) (by omega)
      (by simp; omega)
    simp only [List.length_replicate] at h
    rw [h]
    cases iterate (unescape_body ini.end_) (ini.data.length + 1) (ini.data, p) with
    | ok b => simp [shi]
    | oob => rfl
    | timeout => rfl
  | oob => rfl
  | timeout => rfl

theorem ini_get_shift (m : Nat) (ini : ini_t) (hb : ini.data ≠ []) (sec : Option (List Nat))
    (key : List Nat) :
    ini_get (shi (List.replicate m 0) ini) sec key =
      (ini_get ini sec key).map (Option.map (· + m)) := by
  unfold ini_get
  simp only [shi, List.length_replicate]
  rw [first_token_shift m _ _ hb, Res.bind_map]
  cases first_token ini.data ini.end_ with
  | ok p =>
    simp only [Res.bind_ok]
    have h := get_loop_shift (List.replicate m 0) ini.data ini.end_ sec key p (c_str [])
      (ini.data.length + 1) ((List.replicate m 0 ++ ini.data).length + 1) (by omega)
      (by simp; omega)
    simp only [List.length_replicate] at h
    exact h
  | oob => rfl
  | timeout => rfl

theorem ini_load_length {content : List Nat} {ini : ini_t} (h : ini_load content = .ok ini) :
    ini.data.length = content.length + 1 ∧ ini.end_ = content.length := by
  unfold ini_load at h
  obtain ⟨i1, h1, h2⟩ := Res.bind_eq_ok h
  have l1 := split_data_length h1
  have l2 := unescape_length h2
  simp only [List.length_append, List.length_cons, List.length_nil] at l1
  exact ⟨by omega, by omega⟩

theorem ini_load_comment (c B : List Nat) (hc : ∀ x ∈ c, x ≠ 0 ∧ x ≠ 10) :
    ini_load (59 :: c ++ 10 :: B) = (ini_load B).map (shi (List.replicate (c.length + 2) 0)) := by
  unfold ini_load
  rw [split_comment c B hc, Res.bind_map]
  cases h : split_data { data := B ++ [0], end_ := B.length } with
  | ok i =>
    simp only [Res.bind_ok]
    apply unescape_shift
    have := (split_data_length h).1
    intro h0
    rw [h0] at this
    simp at this
  | oob => rfl
  | timeout => rfl

theorem lookup_comment (c B : List Nat) (hc : ∀ x ∈ c, x ≠ 0 ∧ x ≠ 10)
    (sec : Option (List Nat)) (key : List Nat) :
    lookup (59 :: c ++ 10 :: B) sec key = lookup B sec key := by
  unfold lookup
  rw [ini_load_comment c B hc, Res.bind_map]
  cases h : ini_load B with
  | ok ini =>
    simp only [Res.bind_ok]
    have hne : ini.data ≠ [] := by
      have := (ini_load_length h).1
      intro h0
      rw [h0] at this
      simp at this
    rw [ini_get_shift _ _ hne, Res.bind_map]
    cases ini_get ini sec key with
    | ok r =>
      simp only [Res.bind_ok]
      cases r with
      | none => rfl
      | some v =>
        simp only [Option.map_some', shi]
        have := string_at_shift (List.replicate (c.length + 2) 0) ini.data v
        simp only [List.length_replicate] at this
        rw [this]
    | oob => rfl
    | timeout => rfl
  | oob => rfl
  | timeout => rfl

/-! ## Comparing strings -/

theorem tolower_eq_zero {x : Nat} : tolower x = 0 ↔ x = 0 := by
  unfold tolower
  split <;> omega

theorem tolower_zero_iff {x x' : Nat} (h : tolower x = tolower x') : x = 0 ↔ x' = 0 := by
  rw [← tolower_eq_zero, h, tolower_eq_zero]

theorem strcmpci_lower_left :
    ∀ (a a' b : List Nat), a.map tolower = a'.map tolower → strcmpci a b = strcmpci a' b := by
  intro a
  induction a with
  | nil =>
    intro a' b h
    cases a' with
    | nil => rfl
    | cons x' a' => simp at h
  | cons x a ih =>
    intro a' b h
    cases a' with
    | nil => simp at h
    | cons x' a' =>
      simp only [List.map_cons, List.cons.injEq] at h
      cases b with
      | nil => simp [strcmpci]
      | cons y b =>
        simp only [strcmpci]
        rw [h.1, ih a' b h.2]
        simp only [tolower_zero_iff h.1]

theorem strcmpci_lower_right :
    ∀ (a b b' : List Nat), b.map tolower = b'.map tolower → strcmpci a b = strcmpci a b' := by
  intro a
  induction a with
  | nil =>
    intro b b' _
    simp [strcmpci]
  | cons x a ih =>
    intro b b' h
    cases b with
    | nil =>
      cases b' with
      | nil => rfl
      | cons y' b' => simp at h
    | cons y b =>
      cases b' with
      | nil => simp at h
      | cons y' b' =>
        simp only [List.map_cons, List.cons.injEq] at h
        simp only [strcmpci]
        rw [h.1, ih b b' h.2]

theorem lower_c_str {s s' : List Nat} (h : s.map tolower = s'.map tolower) :
    (c_str s).map tolower = (c_str s').map tolower := by
  simp [c_str, h]

theorem section_ok_lower (s s' : Option (List Nat)) (cur : List Nat)
    (h : s.map (List.map tolower) = s'.map (List.map tolower)) :
    section_ok s cur = section_ok s' cur := by
  cases s with
  | none =>
    cases s' with
    | none => rfl
    | some t' => simp at h
  | some t =>
    cases s' with
    | none => simp at h
    | some t' =>
      simp only [Option.map_some', Option.some.injEq] at h
      simp only [section_ok]
      rw [strcmpci_lower_left _ _ cur (lower_c_str h)]

theorem get_body_lower (b : List Nat) (e : Nat) (s s' : Option (List Nat)) (k k' : List Nat)
    (hs : s.map (List.map tolower) = s'.map (List.map tolower))
    (hk : k.map tolower = k'.map tolower) :
    get_body b e s k = get_body b e s' k' := by
  funext st
  obtain ⟨p, cur⟩ := st
  simp only [get_body]
  rw [section_ok_lower s s' cur hs, strcmpci_lower_right _ _ _ (lower_c_str hk)]

theorem ini_get_lower (ini : ini_t) (s s' : Option (List Nat)) (k k' : List Nat)
    (hs : s.map (List.map tolower) = s'.map (List.map tolower))
    (hk : k.map tolower = k'.map tolower) :
    ini_get ini s k = ini_get ini s' k' := by
  unfold ini_get
  rw [get_body_lower _ _ s s' k k' hs hk]

/-- The outcome of `strcmpci` on two null-terminated strings: it is zero
exactly when the strings are equal up to the case of ASCII letters. -/
theorem strcmpci_spec :
    ∀ (t u r r' : List Nat), 0 ∉ t → 0 ∉ u →
      ∃ d, strcmpci (t ++ 0 :: r) (u ++ 0 :: r') = .ok d ∧
        (d = 0 ↔ t.map tolower = u.map tolower) := by
  intro t
  induction t with
  | nil =>
    intro u r r' _ hu
    cases u with
    | nil => exact ⟨0, by simp [strcmpci, tolower], by simp⟩
    | cons y u =>
      have hy : y ≠ 0 := fun h => hu (by simp [h])
      have hty : tolower y ≠ 0 := fun h => hy (tolower_eq_zero.1 h)
      refine ⟨(tolower 0 : Int) - (tolower y : Int), ?_, ?_⟩
      · simp [strcmpci]
      · simp [tolower_eq_zero.2 rfl]
        omega
  | cons x t ih =>
    intro u r r' ht hu
    have hx : x ≠ 0 := fun h => ht (by simp [h])
    have htx : tolower x ≠ 0 := fun h => hx (tolower_eq_zero.1 h)
    have ht' : 0 ∉ t := fun h => ht (List.mem_cons_of_mem _ h)
    cases u with
    | nil =>
      refine ⟨(tolower x : Int) - (tolower 0 : Int), ?_, ?_⟩
      · have : (tolower x : Int) - (tolower 0 : Int) ≠ 0 := by
          rw [tolower_eq_zero.2 rfl]; omega
        simp [strcmpci, this]
      · simp [tolower_eq_zero.2 rfl]
        omega
    | cons y u =>
      have hu' : 0 ∉ u := fun h => hu (List.mem_cons_of_mem _ h)
      by_cases hd : tolower x = tolower y
      · obtain ⟨d, h1, h2⟩ := ih u r r' ht' hu'
        refine ⟨d, ?_, ?_⟩
        · simp only [List.cons_append, strcmpci]
          rw [if_neg (by simp [hd, hx])]
          exact h1
        · simp [hd, h2]
      · refine ⟨(tolower x : Int) - (tolower y : Int), ?_, ?_⟩
        · have : (tolower x : Int) - (tolower y : Int) ≠ 0 := by omega
          simp only [List.cons_append, strcmpci]
          rw [if_pos (Or.inl this)]
        · simp [hd]
          omega

/-! ## The null byte at the end stays -/

theorem wr_keep {b b' : List Nat} {p c e x : Nat} (h : wr b p c = .ok b') (he : b[e]? = some x)
    (hpe : p = e → c = x) : b'[e]? = some x := by
  obtain ⟨hp, rfl⟩ := wr_eq_ok h
  by_cases hq : p = e
  · subst hq
    rw [List.getElem?_set_self hp, hpe rfl]
  · rw [List.getElem?_set_ne hq]; exact he

theorem trim_back_keep (e : Nat) :
    ∀ q b b', trim_back q b = .ok b' → b[e]? = some 0 → b'[e]? = some 0 := by
  intro q
  induction q with
  | zero => intro b b' h; simp [trim_back] at h
  | succ q ih =>
    intro b b' h he
    simp only [trim_back] at h
    obtain ⟨c, _, h2⟩ := Res.bind_eq_ok h
    split at h2
    · obtain ⟨b1, h3, h4⟩ := Res.bind_eq_ok h2
      exact ih b1 b' h4 (wr_keep h3 he (fun _ => rfl))
    · cases h2; exact he

theorem eq_loop_keep (e f : Nat) (b : List Nat) (p : Nat) (s : List Nat × Nat)
    (h : iterate eq_body f (b, p) = .ok s) (he : b[e]? = some 0) : s.1[e]? = some 0 := by
  refine iterate_inv eq_body (fun t => t.1[e]? = some 0) (fun t => t.1[e]? = some 0)
    ?_ ?_ f (b, p) s he h
  · rintro ⟨b1, p1⟩ ⟨b2, p2⟩ hI hb
    simp only [eq_body] at hb
    obtain ⟨b3, h1, h2⟩ := Res.bind_eq_ok hb
    obtain ⟨c, _, h3⟩ := Res.bind_eq_ok h2
    split at h3
    · cases h3; exact wr_keep h1 hI (fun _ => rfl)
    · cases h3
  · rintro ⟨b1, p1⟩ ⟨b2, p2⟩ hI hb
    simp only [eq_body] at hb
    obtain ⟨b3, h1, h2⟩ := Res.bind_eq_ok hb
    obtain ⟨c, _, h3⟩ := Res.bind_eq_ok h2
    split at h3
    · cases h3
    · cases h3; exact wr_keep h1 hI (fun _ => rfl)

theorem semi_loop_keep (e f : Nat) (b : List Nat) (p : Nat) (s : List Nat × Nat)
    (h : iterate semi_body f (b, p) = .ok s) (he : b[e]? = some 0) : s.1[e]? = some 0 := by
  refine iterate_inv semi_body (fun t => t.1[e]? = some 0) (fun t => t.1[e]? = some 0)
    ?_ ?_ f (b, p) s he h
  · rintro ⟨b1, p1⟩ ⟨b2, p2⟩ hI hb
    simp only [semi_body] at hb
    obtain ⟨c, _, h2⟩ := Res.bind_eq_ok hb
    split at h2
    · obtain ⟨b3, h1, h3⟩ := Res.bind_eq_ok h2
      cases h3; exact wr_keep h1 hI (fun _ => rfl)
    · cases h2
  · rintro ⟨b1, p1⟩ ⟨b2, p2⟩ hI hb
    simp only [semi_body] at hb
    obtain ⟨c, _, h2⟩ := Res.bind_eq_ok hb
    split at h2
    · obtain ⟨b3, h1, h3⟩ := Res.bind_eq_ok h2
      cases h3
    · cases h2; exact hI

theorem split_body_keep (e0 e : Nat) (s s' : List Nat × Nat)
    (h : split_body e0 s = .ok (.again s')) (he : s.1[e]? = some 0) : s'.1[e]? = some 0 := by
  obtain ⟨b, p⟩ := s
  simp only [split_body] at h
  simp only at he
  split at h
  · obtain ⟨c, hc, h2⟩ := Res.bind_eq_ok h
    split at h2
    · obtain ⟨b1, h3, h4⟩ := Res.bind_eq_ok h2
      cases h4; exact wr_keep h3 he (fun _ => rfl)
    · split at h2
      · cases h2; exact he
      · split at h2
        · obtain ⟨n, hn, h3⟩ := Res.bind_eq_ok h2
          obtain ⟨b1, h4, h5⟩ := Res.bind_eq_ok h3
          cases h5; exact wr_keep h4 he (fun _ => rfl)
        · split at h2
          · obtain ⟨t, ht, h3⟩ := Res.bind_eq_ok h2
            obtain ⟨n, hn, h4⟩ := Res.bind_eq_ok h3
            obtain ⟨b1, h5, h6⟩ := Res.bind_eq_ok h4
            cases h6
            exact trim_back_keep e _ _ _ h5 (eq_loop_keep e _ _ _ _ ht he)
          · split at h2
            · obtain ⟨t, ht, h3⟩ := Res.bind_eq_ok h2
              cases h3
              exact semi_loop_keep e _ _ _ _ ht he
            · obtain ⟨n, hn, h3⟩ := Res.bind_eq_ok h2
              obtain ⟨b1, h5, h6⟩ := Res.bind_eq_ok h3
              cases h6
              exact trim_back_keep e _ _ _ h5 he
  · cases h

theorem split_body_leave (e0 : Nat) (s : List Nat × Nat) (a : List Nat)
    (h : split_body e0 s = .ok (.leave a)) : a = s.1 := by
  obtain ⟨b1, p1⟩ := s
  simp only [split_body] at h
  split at h
  · obtain ⟨c, _, h2⟩ := Res.bind_eq_ok h
    split at h2
    · obtain ⟨b2, _, h3⟩ := Res.bind_eq_ok h2; cases h3
    · split at h2
      · cases h2
      · split at h2
        · obtain ⟨n, _, h3⟩ := Res.bind_eq_ok h2
          obtain ⟨b2, _, h4⟩ := Res.bind_eq_ok h3; cases h4
        · split at h2
          · obtain ⟨t, _, h3⟩ := Res.bind_eq_ok h2
            obtain ⟨n, _, h4⟩ := Res.bind_eq_ok h3
            obtain ⟨b2, _, h5⟩ := Res.bind_eq_ok h4; cases h5
          · split at h2
            · obtain ⟨t, _, h3⟩ := Res.bind_eq_ok h2; cases h3
            · obtain ⟨n, _, h3⟩ := Res.bind_eq_ok h2
              obtain ⟨b2, _, h4⟩ := Res.bind_eq_ok h3; cases h4
  · cases h; rfl

theorem split_data_keep {ini ini' : ini_t} (e : Nat) (h : split_data ini = .ok ini')
    (he : ini.data[e]? = some 0) : ini'.data[e]? = some 0 := by
  unfold split_data at h
  obtain ⟨b, hb, h2⟩ := Res.bind_eq_ok h
  cases h2
  refine iterate_inv (split_body ini.end_) (fun t => t.1[e]? = some 0)
    (fun r => r[e]? = some 0) ?_ ?_ _ _ b he hb
  · intro s s' hI hs
    exact split_body_keep _ e s s' hs hI
  · intro s a hI hs
    rw [split_body_leave _ s a hs]; exact hI

theorem memset_keep (e q : Nat) :
    ∀ n b b', memset q 0 n b = .ok b' → b[e]? = some 0 → b'[e]? = some 0 := by
  intro n
  induction n with
  | zero => intro b b' h he; simp [memset] at h; rw [← h]; exact he
  | succ n ih =>
    intro b b' h he
    simp only [memset] at h
    obtain ⟨b1, h1, h2⟩ := Res.bind_eq_ok h
    exact ih b1 b' h2 (wr_keep h1 he (fun _ => rfl))

theorem quote_body_keep (e : Nat) (s : List Nat × Nat × Nat)
    (c : Ctl (List Nat × Nat × Nat) (List Nat × Nat × Nat))
    (h : quote_body s = .ok c) (he : s.1[e]? = some 0) :
    (match c with | .again t => t.1 | .leave t => t.1)[e]? = some 0 := by
  obtain ⟨b, q, p⟩ := s
  simp only [quote_body] at h
  simp only at he
  obtain ⟨cq, hcq, h2⟩ := Res.bind_eq_ok h
  split at h2
  · rename_i hne
    have hqe : ∀ v : Nat, q = e → v = 0 := by
      intro v hq
      subst hq
      rw [rd_eq_ok, he] at hcq
      cases hcq
      exact absurd rfl hne
    obtain ⟨cp, _, h3⟩ := Res.bind_eq_ok h2
    split at h3
    · obtain ⟨c', _, h4⟩ := Res.bind_eq_ok h3
      obtain ⟨b1, h5, h6⟩ := Res.bind_eq_ok h4
      cases h6; exact wr_keep h5 he (hqe _)
    · split at h3
      · obtain ⟨b1, h5, h6⟩ := Res.bind_eq_ok h3
        cases h6; exact wr_keep h5 he (fun _ => rfl)
      · obtain ⟨b1, h5, h6⟩ := Res.bind_eq_ok h3
        cases h6; exact wr_keep h5 he (hqe _)
  · cases h2; exact he

theorem quote_loop_keep (e f : Nat) (b : List Nat) (q p : Nat) (s : List Nat × Nat × Nat)
    (h : iterate quote_body f (b, q, p) = .ok s) (he : b[e]? = some 0) : s.1[e]? = some 0 := by
  refine iterate_inv quote_body (fun t => t.1[e]? = some 0) (fun t => t.1[e]? = some 0)
    ?_ ?_ f (b, q, p) s he h
  · intro s1 s2 hI hb
    exact quote_body_keep e s1 _ hb hI
  · intro s1 s2 hI hb
    exact quote_body_keep e s1 _ hb hI

theorem unescape_body_keep (e0 e : Nat) (s s' : List Nat × Nat)
    (h : unescape_body e0 s = .ok (.again s')) (he : s.1[e]? = some 0) : s'.1[e]? = some 0 := by
  obtain ⟨b, p⟩ := s
  simp only [unescape_body] at h
  simp only at he
  split at h
  · obtain ⟨c, hc, h2⟩ := Res.bind_eq_ok h
    split at h2
    · obtain ⟨t, ht, h3⟩ := Res.bind_eq_ok h2
      obtain ⟨p1, hp1, h4⟩ := Res.bind_eq_ok h3
      obtain ⟨b1, hb1, h5⟩ := Res.bind_eq_ok h4
      split at hb1
      · cases hb1
      · cases h5
        exact memset_keep e _ _ _ _ hb1 (quote_loop_keep e _ _ _ _ _ ht he)
    · obtain ⟨p1, hp1, h4⟩ := Res.bind_eq_ok h2
      cases h4; exact he
  · cases h

theorem unescape_body_leave (e0 : Nat) (s : List Nat × Nat) (a : List Nat)
    (h : unescape_body e0 s = .ok (.leave a)) : a = s.1 := by
  obtain ⟨b1, p1⟩ := s
  simp only [unescape_body] at h
  split at h
  · obtain ⟨c, _, h2⟩ := Res.bind_eq_ok h
    split at h2
    · obtain ⟨t, _, h3⟩ := Res.bind_eq_ok h2
      obtain ⟨n, _, h4⟩ := Res.bind_eq_ok h3
      obtain ⟨b2, _, h5⟩ := Res.bind_eq_ok h4; cases h5
    · obtain ⟨n, _, h3⟩ := Res.bind_eq_ok h2; cases h3
  · cases h; rfl

theorem unescape_keep {ini ini' : ini_t} (e : Nat) (h : unescape_quoted_strings ini = .ok ini')
    (he : ini.data[e]? = some 0) : ini'.data[e]? = some 0 := by
  unfold unescape_quoted_strings at h
  obtain ⟨p, _, h2⟩ := Res.bind_eq_ok h
  obtain ⟨b, hb, h3⟩ := Res.bind_eq_ok h2
  cases h3
  refine iterate_inv (unescape_body ini.end_) (fun t => t.1[e]? = some 0)
    (fun r => r[e]? = some 0) ?_ ?_ _ _ b he hb
  · intro s s' hI hs
    exact unescape_body_keep _ e s s' hs hI
  · intro s a hI hs
    rw [unescape_body_leave _ s a hs]; exact hI

/-- What `ini_load` hands over is a buffer with its null byte at the end. -/
theorem ini_load_terminated {content : List Nat} {ini : ini_t}
    (h : ini_load content = .ok ini) : Terminated ini.data ini.end_ := by
  have hl := ini_load_length h
  unfold ini_load at h
  obtain ⟨i1, h1, h2⟩ := Res.bind_eq_ok h
  refine ⟨by omega, ?_⟩
  rw [hl.2]
  apply unescape_keep _ h2
  apply split_data_keep _ h1
  simp

/-! ## Tokens and the forward skip -/

theorem split_at_null : ∀ m : List Nat, 0 ∈ m →
    ∃ r, m = m.takeWhile (fun c => c != 0) ++ 0 :: r := by
  intro m
  induction m with
  | nil => intro h; simp at h
  | cons x m ih =>
    intro h
    by_cases hx : x = 0
    · subst hx
      exact ⟨m, by simp [List.takeWhile]⟩
    · have hm : 0 ∈ m := by
        rcases List.mem_cons.1 h with h | h
        · exact absurd h.symm hx
        · exact h
      obtain ⟨r, hr⟩ := ih hm
      refine ⟨r, ?_⟩
      have : (x != 0) = true := by simp [hx]
      rw [List.takeWhile_cons, this]
      simp only [if_true, List.cons_append]
      rw [← hr]

theorem takeWhile_no_null (m : List Nat) : 0 ∉ m.takeWhile (fun c => c != 0) := by
  intro h
  have := List.mem_takeWhile_imp h
  simp at this

theorem takeWhile_c_str {s : List Nat} (h : 0 ∉ s) :
    (c_str s).takeWhile (fun c => c != 0) = s := by
  induction s with
  | nil => simp [c_str, List.takeWhile]
  | cons x s ih =>
    have hx : x ≠ 0 := fun h0 => h (by simp [h0])
    have hs : 0 ∉ s := fun h0 => h (List.mem_cons_of_mem _ h0)
    have : (x != 0) = true := by simp [hx]
    simp only [c_str, List.cons_append, List.takeWhile_cons, this, if_true]
    congr 1
    exact ih hs

theorem takeWhile_append_null {t r : List Nat} (h : 0 ∉ t) :
    (t ++ 0 :: r).takeWhile (fun c => c != 0) = t := by
  induction t with
  | nil => simp [List.takeWhile]
  | cons x t ih =>
    have hx : x ≠ 0 := fun h0 => h (by simp [h0])
    have hs : 0 ∉ t := fun h0 => h (List.mem_cons_of_mem _ h0)
    have : (x != 0) = true := by simp [hx]
    simp only [List.cons_append, List.takeWhile_cons, this, if_true]
    congr 1
    exact ih hs

/-- The outcome of `strcmpci` on memory that holds a null byte on both sides. -/
theorem strcmpci_terminated (a b : List Nat) (ha : 0 ∈ a) (hb : 0 ∈ b) :
    ∃ d, strcmpci a b = .ok d ∧
      (d = 0 ↔ (a.takeWhile (fun c => c != 0)).map tolower =
        (b.takeWhile (fun c => c != 0)).map tolower) := by
  obtain ⟨r, hr⟩ := split_at_null a ha
  obtain ⟨r', hr'⟩ := split_at_null b hb
  have := strcmpci_spec _ _ r r' (takeWhile_no_null a) (takeWhile_no_null b)
  rw [← hr, ← hr'] at this
  exact this

theorem strlen_from_append : ∀ (t r : List Nat), 0 ∉ t → strlen_from (t ++ 0 :: r) = .ok t.length := by
  intro t
  induction t with
  | nil => intro r _; simp [strlen_from]
  | cons x t ih =>
    intro r h
    have hx : x ≠ 0 := fun h0 => h (by simp [h0])
    have hs : 0 ∉ t := fun h0 => h (List.mem_cons_of_mem _ h0)
    rw [List.cons_append]
    simp only [strlen_from, if_neg hx]
    rw [ih r hs]
    rfl

theorem null_mem_drop {b : List Nat} {e p : Nat} (hT : Terminated b e) (hp : p ≤ e) :
    0 ∈ b.drop p := by
  rw [List.mem_iff_getElem?]
  refine ⟨e - p, ?_⟩
  rw [List.getElem?_drop]
  have : p + (e - p) = e := by omega
  rw [this]
  exact hT.2

theorem strlen_token {b : List Nat} {e p : Nat} (hT : Terminated b e) (hp : p ≤ e) :
    strlen b p = .ok (token_at b p).length := by
  obtain ⟨r, hr⟩ := split_at_null _ (null_mem_drop hT hp)
  unfold strlen
  rw [hr]
  exact strlen_from_append _ r (takeWhile_no_null _)

theorem rd_of_terminated {b : List Nat} {e p : Nat} (hT : Terminated b e) (hp : p ≤ e) :
    ∃ c, rd b p = .ok c := by
  have hlt : p < b.length := by rw [hT.1]; omega
  exact ⟨b[p], by rw [rd_eq_ok]; exact List.getElem?_eq_getElem hlt⟩

/-- What the forward skip returns on a buffer with its null byte at the end:
an offset behind the token at `p`, at most the end, and where a token starts
unless it is the end. -/
theorem next_spec {b : List Nat} {e p : Nat} (hT : Terminated b e) (hp : p ≤ e) :
    ∃ j, next b e p = .ok j ∧ p + (token_at b p).length ≤ j ∧ j ≤ e ∧
      (j < e → token_start b j = true) := by
  have hn := strlen_token hT hp
  have hlt := strlen_lt hn
  have h0 : rd b (p + (token_at b p).length) = .ok 0 := by
    obtain ⟨r, hr⟩ := split_at_null _ (null_mem_drop hT hp)
    rw [rd_eq_ok]
    have h1 : (b.drop p)[(token_at b p).length]? = some 0 := by
      have h2 : (token_at b p ++ 0 :: r)[(token_at b p).length]? = some 0 := by
        rw [List.getElem?_append_right (le_refl _)]
        simp
      unfold token_at at h2 ⊢
      rw [← hr] at h2
      exact h2
    rw [List.getElem?_drop] at h1
    exact h1
  unfold next
  rw [hn]
  simp only [Res.bind_ok]
  generalize p + (token_at b p).length = i0 at hlt h0 ⊢
  have hi0 : i0 ≤ e := by rw [hT.1] at hlt; omega
  refine iterate_total (next_body b e)
    (fun i => i0 ≤ i ∧ i ≤ e ∧ (i = i0 ∨ b[i - 1]? = some 0))
    (fun j => i0 ≤ j ∧ j ≤ e ∧ (j < e → token_start b j = true))
    (fun i => e - i) ?_ _ i0 ⟨le_refl _, hi0, Or.inl rfl⟩
    (by show e - i0 < b.length + 1; rw [hT.1]; omega)
  rintro i ⟨h1, h2, h3⟩
  by_cases hie : i < e
  · obtain ⟨c, hc⟩ := rd_of_terminated hT h2
    by_cases hc0 : c = 0
    · left
      refine ⟨i + 1, ?_, ⟨by omega, by omega, Or.inr ?_⟩, by show e - (i + 1) < e - i; omega⟩
      · simp [next_body, hie, hc, hc0]
      · rw [Nat.add_sub_cancel, ← rd_eq_ok, hc, hc0]
    · right
      refine ⟨i, ?_, h1, h2, fun _ => ?_⟩
      · simp [next_body, hie, hc, hc0]
      · have hne : i ≠ i0 := by
          intro h; subst h; rw [hc] at h0; cases h0; exact hc0 rfl
        have h4 : b[i - 1]? = some 0 := by
          rcases h3 with h3 | h3
          · exact absurd h3 hne
          · exact h3
        rw [rd_eq_ok] at hc
        simp [token_start, hc, hc0, h4]
  · right
    exact ⟨i, by simp [next_body, hie], h1, h2, fun h => absurd h hie⟩

theorem first_token_spec {b : List Nat} {e : Nat} (hT : Terminated b e) :
    ∃ p, first_token b e = .ok p ∧ p ≤ e ∧ (p < e → token_start b p = true) := by
  obtain ⟨c, hc⟩ := rd_of_terminated hT (Nat.zero_le e)
  unfold first_token
  rw [hc]
  simp only [Res.bind_ok]
  by_cases hc0 : c = 0
  · rw [if_pos hc0]
    obtain ⟨j, hj, _, h2, h3⟩ := next_spec hT (Nat.zero_le e)
    exact ⟨j, hj, h2, h3⟩
  · rw [if_neg hc0]
    refine ⟨0, rfl, Nat.zero_le _, fun _ => ?_⟩
    rw [rd_eq_ok] at hc
    simp [token_start, hc, hc0]

theorem token_start_rd {b : List Nat} {p : Nat} (h : token_start b p = true) :
    ∃ c, rd b p = .ok c ∧ c ≠ 0 := by
  unfold token_start at h
  cases hb : b[p]? with
  | none => simp [hb] at h
  | some c =>
    refine ⟨c, rd_eq_ok.2 hb, ?_⟩
    simp [hb] at h
    exact h.1

/-! ## A lookup that finds nothing -/

theorem section_ok_total (sec : Option (List Nat)) (cur : List Nat) (hcur : 0 ∈ cur) :
    ∃ so, section_ok sec cur = .ok so := by
  cases sec with
  | none => exact ⟨true, rfl⟩
  | some s =>
    obtain ⟨d, hd, _⟩ := strcmpci_terminated (c_str s) cur (by simp [c_str]) hcur
    exact ⟨decide (d = 0), by simp [section_ok, hd]⟩

/-- The loop of `ini_get` runs to the end of the buffer and returns `NULL`
when no key token passes both tests. -/
theorem get_miss (b : List Nat) (e : Nat) (sec : Option (List Nat)) (key : List Nat)
    (hT : Terminated b e) (C : List Nat → Prop) (hC0 : C (c_str []))
    (hC1 : ∀ p, p < e → token_start b p = true → rd b p = .ok 91 → C (b.drop (p + 1)))
    (hH : ∀ p cur, p < e → token_start b p = true → rd b p ≠ .ok 91 → C cur →
      ∃ so, section_ok sec cur = .ok so ∧
        (if so = true then (strcmpci (b.drop p) (c_str key)).bind fun d => .ok (decide (d = 0))
         else .ok false) = .ok false) :
    ini_get { data := b, end_ := e } sec key = .ok none := by
  unfold ini_get
  simp only
  obtain ⟨p0, hp0, hle0, hst0⟩ := first_token_spec hT
  rw [hp0]
  simp only [Res.bind_ok]
  have key_step := iterate_total (get_body b e sec key)
    (fun s => s.1 ≤ e ∧ (s.1 < e → token_start b s.1 = true) ∧ C s.2)
    (fun a => a = none) (fun s => e - s.1) ?_ (b.length + 1) (p0, c_str [])
    ⟨hle0, hst0, hC0⟩ (by show e - p0 < b.length + 1; rw [hT.1]; omega)
  · obtain ⟨a, ha, rfl⟩ := key_step
    exact ha
  · rintro ⟨p, cur⟩ ⟨hle, hst, hC⟩
    simp only at hle hst hC
    by_cases hpe : p < e
    · obtain ⟨c, hc, hc0⟩ := token_start_rd (hst hpe)
      obtain ⟨val, hval, _, hvle, _⟩ := next_spec hT hle
      have hgt := next_gt hpe hc hval
      left
      by_cases h91 : c = 91
      · subst h91
        refine ⟨(val, b.drop (p + 1)), ?_, ⟨hvle, ?_, hC1 p hpe (hst hpe) hc⟩, ?_⟩
        · simp [get_body, hpe, hc, hval]
        · obtain ⟨val', hval', _, _, h4⟩ := next_spec hT hle
          rw [hval] at hval'
          cases hval'
          exact h4
        · show e - val < e - p
          omega
      · obtain ⟨p', hp', hge, hple, hpst⟩ := next_spec hT hvle
        have hne : rd b p ≠ .ok 91 := by
          rw [hc]; intro h; cases h; exact h91 rfl
        obtain ⟨so, hso, hhit⟩ := hH p cur hpe (hst hpe) hne hC
        refine ⟨(p', cur), ?_, ⟨hple, hpst, hC⟩, ?_⟩
        · simp only [get_body, if_pos hpe, hc, Res.bind_ok, if_neg h91, hval, hso, hhit]
          simp [hp']
        · show e - p' < e - p
          omega
    · right
      exact ⟨none, by simp [get_body, hpe], rfl⟩

theorem ini_get_no_key (b : List Nat) (e : Nat) (sec : Option (List Nat)) (key : List Nat)
    (hT : Terminated b e) (hk : 0 ∉ key)
    (hno : ∀ i, i < b.length → token_start b i = true →
      (token_at b i).map tolower ≠ key.map tolower) :
    ini_get { data := b, end_ := e } sec key = .ok none := by
  refine get_miss b e sec key hT (fun cur => 0 ∈ cur) (by simp [c_str]) ?_ ?_
  · intro p hp _ _
    exact null_mem_drop hT (by omega)
  · intro p cur hp hst _ hcur
    obtain ⟨so, hso⟩ := section_ok_total sec cur hcur
    refine ⟨so, hso, ?_⟩
    split
    · obtain ⟨d, hd, hd0⟩ := strcmpci_terminated (b.drop p) (c_str key)
        (null_mem_drop hT (by omega)) (by simp [c_str])
      rw [takeWhile_c_str hk] at hd0
      have := hno p (by rw [hT.1]; omega) hst
      rw [hd]
      simp only [Res.bind_ok, Res.ok.injEq, decide_eq_false_iff_not]
      intro h0
      exact this (hd0.1 h0)
    · rfl

theorem ini_get_no_section (b : List Nat) (e : Nat) (s key : List Nat)
    (hT : Terminated b e) (hs : s ≠ []) (hs0 : 0 ∉ s)
    (hno : ∀ i, i < b.length → token_start b i = true → b[i]? = some 91 →
      (token_at b (i + 1)).map tolower ≠ s.map tolower) :
    ini_get { data := b, end_ := e } (some s) key = .ok none := by
  refine get_miss b e (some s) key hT
    (fun cur => 0 ∈ cur ∧ (cur.takeWhile (fun c => c != 0)).map tolower ≠ s.map tolower)
    ?_ ?_ ?_
  · refine ⟨by simp [c_str], ?_⟩
    simp [c_str, List.takeWhile]
    intro h
    exact hs h
  · intro p hp hst hc
    exact ⟨null_mem_drop hT (by omega), hno p (by rw [hT.1]; omega) hst (rd_eq_ok.1 hc)⟩
  · rintro p cur hp hst _ ⟨hcur, hne⟩
    obtain ⟨d, hd, hd0⟩ := strcmpci_terminated (c_str s) cur (by simp [c_str]) hcur
    rw [takeWhile_c_str hs0] at hd0
    have hdne : d ≠ 0 := fun h0 => hne (hd0.1 h0).symm
    refine ⟨false, ?_, rfl⟩
    simp [section_ok, hd, hdne]

theorem token_at_ne_nil {b : List Nat} {i : Nat} (h : token_start b i = true) :
    token_at b i ≠ [] := by
  obtain ⟨c, hc, hc0⟩ := token_start_rd h
  unfold token_at
  rw [drop_of_rd hc]
  have : (c != 0) = true := by simp [hc0]
  simp [List.takeWhile_cons, this]

theorem ini_get_empty_key (b : List Nat) (e : Nat) (sec : Option (List Nat))
    (hT : Terminated b e) :
    ini_get { data := b, end_ := e } sec [] = .ok none := by
  refine ini_get_no_key b e sec [] hT (by simp) ?_
  intro i _ hst h
  simp only [List.map_nil, List.map_eq_nil_iff] at h
  exact token_at_ne_nil hst h

/-! ## Runs of bytes -/

theorem rd_at2 (pre mid : List Nat) (c : Nat) (suf : List Nat) :
    rd (pre ++ (mid ++ c :: suf)) (pre.length + mid.length) = .ok c := by
  have := rd_at (pre ++ mid) c suf
  simp only [List.length_append, List.append_assoc] at this
  exact this

theorem wr_at2 (pre mid : List Nat) (c : Nat) (suf : List Nat) (v : Nat) :
    wr (pre ++ (mid ++ c :: suf)) (pre.length + mid.length) v = .ok (pre ++ (mid ++ v :: suf)) := by
  have := wr_at (pre ++ mid) c suf v
  simp only [List.length_append, List.append_assoc] at this
  exact this

theorem strcspn_from_run (rej : List Nat) (stop : Nat) (rest : List Nat)
    (hstop : stop = 0 ∨ stop ∈ rej) :
    ∀ run : List Nat, (∀ x ∈ run, x ≠ 0 ∧ x ∉ rej) →
      strcspn_from rej (run ++ stop :: rest) = .ok run.length := by
  intro run
  induction run with
  | nil => intro _; simp [strcspn_from, hstop]
  | cons x run ih =>
    intro h
    have hx := h x (List.mem_cons_self _ _)
    rw [List.cons_append]
    simp only [strcspn_from]
    rw [if_neg (by simp [hx.1, hx.2]), ih (fun y hy => h y (List.mem_cons_of_mem _ hy))]
    rfl

theorem strcspn_run (rej : List Nat) (pre run : List Nat) (stop : Nat) (rest : List Nat)
    (hstop : stop = 0 ∨ stop ∈ rej) (hrun : ∀ x ∈ run, x ≠ 0 ∧ x ∉ rej) :
    strcspn (pre ++ (run ++ stop :: rest)) pre.length rej = .ok run.length := by
  unfold strcspn
  rw [List.drop_left]
  exact strcspn_from_run rej stop rest hstop run hrun

/-- The backward trim turns the spaces, tabs and carriage returns behind a
byte that is none of them into null bytes. -/
theorem trim_back_run (pre : List Nat) (c : Nat) (hc : ¬ (c = 32 ∨ c = 9 ∨ c = 13)) :
    ∀ (n : Nat) (ws rest : List Nat), ws.length = n → (∀ x ∈ ws, x = 32 ∨ x = 9 ∨ x = 13) →
      trim_back (pre.length + 1 + ws.length) (pre ++ (c :: (ws ++ rest))) =
        .ok (pre ++ (c :: (List.replicate ws.length 0 ++ rest))) := by
  intro n
  induction n with
  | zero =>
    intro ws rest hn _
    have : ws = [] := List.length_eq_zero.1 hn
    subst this
    simp only [List.length_nil, Nat.add_zero, List.nil_append, List.replicate_zero]
    simp only [trim_back, rd_at, Res.bind_ok]
    rw [if_neg hc]
  | succ n ih =>
    intro ws rest hn hws
    obtain ⟨ws', x, rfl⟩ : ∃ ws' x, ws = ws' ++ [x] := by
      have hne : ws ≠ [] := by intro h; rw [h] at hn; simp at hn
      exact ⟨ws.dropLast, ws.getLast hne, (List.dropLast_append_getLast hne).symm⟩
    have hx := hws x (by simp)
    have hlen : ws'.length = n := by simpa using hn
    have e1 : pre.length + 1 + (ws' ++ [x]).length = (pre ++ c :: ws').length + 1 := by
      simp; omega
    have e2 : pre ++ (c :: ((ws' ++ [x]) ++ rest)) = (pre ++ c :: ws') ++ x :: rest := by simp
    rw [e1, e2]
    simp only [trim_back, rd_at, Res.bind_ok]
    rw [if_pos hx, wr_at]
    simp only [Res.bind_ok]
    have e3 : (pre ++ c :: ws').length = pre.length + 1 + ws'.length := by simp; omega
    have e4 : (pre ++ c :: ws') ++ 0 :: rest = pre ++ (c :: (ws' ++ 0 :: rest)) := by simp
    rw [e3, e4, ih ws' (0 :: rest) hlen (fun y hy => hws y (by simp [hy]))]
    simp [List.replicate_succ']

/-- The loop after `=` turns the `=` and the spaces and tabs behind it into
null bytes and stops at the first byte that is neither. -/
theorem eq_loop_run (c : Nat) (rest : List Nat) (hc : ¬ (c = 32 ∨ c = 9)) :
    ∀ (ws pre : List Nat) (x f : Nat), (∀ y ∈ ws, y = 32 ∨ y = 9) → ws.length < f →
      iterate eq_body f (pre ++ (x :: (ws ++ c :: rest)), pre.length) =
        .ok (pre ++ (0 :: (List.replicate ws.length 0 ++ c :: rest)),
          pre.length + 1 + ws.length) := by
  intro ws
  induction ws with
  | nil =>
    intro pre x f _ hf
    cases f with
    | zero => simp at hf
    | succ f =>
      apply iterate_leave
      simp only [eq_body, List.nil_append, wr_at, Res.bind_ok]
      have := rd_at (pre ++ [0]) c rest
      simp only [List.length_append, List.length_singleton, List.append_assoc,
        List.singleton_append] at this
      rw [this]
      simp only [Res.bind_ok]
      rw [if_neg hc]
      simp
  | cons y ws ih =>
    intro pre x f hws hf
    cases f with
    | zero => simp at hf
    | succ f =>
      have hy := hws y (List.mem_cons_self _ _)
      have hb : eq_body (pre ++ (x :: ((y :: ws) ++ c :: rest)), pre.length) =
          .ok (.again ((pre ++ [0]) ++ (y :: (ws ++ c :: rest)), (pre ++ [0]).length)) := by
        simp only [eq_body, wr_at, Res.bind_ok, List.cons_append]
        have := rd_at (pre ++ [0]) y (ws ++ c :: rest)
        simp only [List.length_append, List.length_singleton, List.append_assoc,
          List.singleton_append] at this
        rw [this]
        simp only [Res.bind_ok]
        rw [if_pos hy]
        simp
      rw [iterate_again hb, ih (pre ++ [0]) y f
        (fun z hz => hws z (List.mem_cons_of_mem _ hz)) (by simpa using hf)]
      simp [List.replicate_succ]
      omega

/-- The loop of `next` runs over a run of null bytes that ends before `e`. -/
theorem skip_zeros (pre rest : List Nat) (k e : Nat) (hk : pre.length + k ≤ e) :
    ∀ j, j ≤ k →
      iterate (next_body (pre ++ (List.replicate k 0 ++ rest)) e)
          ((pre ++ (List.replicate k 0 ++ rest)).length + 1) pre.length =
        iterate (next_body (pre ++ (List.replicate k 0 ++ rest)) e)
          ((pre ++ (List.replicate k 0 ++ rest)).length + 1) (pre.length + j) := by
  intro j
  induction j with
  | zero => intro _; rfl
  | succ j ih =>
    intro hj
    rw [ih (by omega)]
    have hr : rd (pre ++ (List.replicate k 0 ++ rest)) (pre.length + j) = .ok 0 := by
      rw [rd_eq_ok, List.getElem?_append_right (by omega),
        List.getElem?_append_left (by simp; omega), List.getElem?_replicate,
        if_pos (by omega)]
    have hb : next_body (pre ++ (List.replicate k 0 ++ rest)) e (pre.length + j) =
        .ok (.again (pre.length + j + 1)) := by
      unfold next_body
      rw [if_pos (by omega), hr]
      simp
    exact iterate_step _ (fun p => (pre ++ (List.replicate k 0 ++ rest)).length - p)
      (next_body_dec _ _) hb _ _ (by show _ - (pre.length + j) < _; omega)
      (by show _ - (pre.length + j + 1) < _; omega)

theorem strlen_run (pre t rest : List Nat) (ht : 0 ∉ t) :
    strlen (pre ++ (t ++ 0 :: rest)) pre.length = .ok t.length := by
  unfold strlen
  rw [List.drop_left]
  exact strlen_from_append t rest ht

/-- The forward skip from a token that has more tokens behind it. -/
theorem next_mid (pre t : List Nat) (k c : Nat) (r : List Nat) (e : Nat) (ht : 0 ∉ t)
    (hc : c ≠ 0) (he : pre.length + t.length + 1 + k ≤ e) :
    next (pre ++ (t ++ 0 :: (List.replicate k 0 ++ c :: r))) e pre.length =
      .ok (pre.length + t.length + 1 + k) := by
  unfold next
  rw [strlen_run pre t _ ht]
  simp only [Res.bind_ok]
  have e1 : pre ++ (t ++ 0 :: (List.replicate k 0 ++ c :: r)) =
      (pre ++ t) ++ (List.replicate (k + 1) 0 ++ c :: r) := by
    simp [List.replicate_succ]
  have e2 : pre.length + t.length = (pre ++ t).length := by simp
  rw [e1, e2, skip_zeros (pre ++ t) (c :: r) (k + 1) e (by simp; omega) (k + 1) (le_refl _)]
  have hr : rd ((pre ++ t) ++ (List.replicate (k + 1) 0 ++ c :: r)) ((pre ++ t).length + (k + 1))
      = .ok c := by
    have := rd_at2 (pre ++ t) (List.replicate (k + 1) 0) c r
    simp only [List.length_replicate] at this
    exact this
  rw [iterate_leave (a := (pre ++ t).length + (k + 1))]
  · simp; omega
  · unfold next_body
    split
    · rw [hr]; simp [hc]
    · rfl

/-- The forward skip from the last token. -/
theorem next_end (pre t : List Nat) (k : Nat) (e : Nat) (ht : 0 ∉ t)
    (he : e = pre.length + t.length + k) :
    next (pre ++ (t ++ (List.replicate k 0 ++ [0]))) e pre.length = .ok e := by
  unfold next
  have e0 : pre ++ (t ++ (List.replicate k 0 ++ [0])) =
      pre ++ (t ++ 0 :: (List.replicate k 0 ++ [])) := by
    simp only [List.append_nil]
    congr 2
    rw [← List.replicate_succ, List.replicate_succ']
  rw [e0, strlen_run pre t _ ht]
  simp only [Res.bind_ok]
  have e1 : pre ++ (t ++ 0 :: (List.replicate k 0 ++ [])) =
      (pre ++ t) ++ (List.replicate k 0 ++ [0]) := by
    rw [← e0]; simp
  have e2 : pre.length + t.length = (pre ++ t).length := by simp
  rw [e1, e2, skip_zeros (pre ++ t) [0] k e (by simp; omega) k (le_refl _)]
  rw [iterate_leave (a := (pre ++ t).length + k)]
  · simp; omega
  · unfold next_body
    rw [if_neg (by simp; omega)]

/-! ## Buffers as rows of tokens -/

theorem get_lay_cons (sec : Option (List Nat)) (key : List Nat) (off : Nat) (cur t : List Nat)
    (k : Nat) (L : List (List Nat × Nat)) :
    get_lay sec key off cur ((t, k) :: L) =
      if t.head? = some 91 then get_lay sec key (off + t.length + k) t.tail L
      else if (sec_matches sec cur && key_matches t key) = true then some (off + t.length + k)
      else
        match L with
        | [] => none
        | (t', k') :: L' => get_lay sec key (off + t.length + k + t'.length + k') cur L' := by
  rw [get_lay.eq_def]

theorem get_lay_nil (sec : Option (List Nat)) (key : List Nat) (off : Nat) (cur : List Nat) :
    get_lay sec key off cur [] = none := by
  rw [get_lay.eq_def]

theorem flat_head {t : List Nat} {k : Nat} {L : List (List Nat × Nat)} (h : Lay ((t, k) :: L)) :
    ∃ c t', t = c :: t' ∧ c ≠ 0 ∧ 0 ∉ t' := by
  obtain ⟨hne, h0, _, _⟩ := h
  cases t with
  | nil => exact absurd rfl hne
  | cons c t' =>
    exact ⟨c, t', rfl, fun hc => h0 (by simp [hc]), fun hc => h0 (List.mem_cons_of_mem _ hc)⟩

/-- What follows a token in a buffer that ends with the null byte begins
with a null byte. -/
theorem flat_tail_null {t : List Nat} {k : Nat} {L : List (List Nat × Nat)}
    (h : Lay ((t, k) :: L)) : ∃ r, List.replicate k 0 ++ flat L ++ [0] = 0 :: r := by
  obtain ⟨_, _, hk, _⟩ := h
  cases k with
  | zero =>
    cases L with
    | nil => exact ⟨[], rfl⟩
    | cons x L => exact absurd (hk (by simp)) (by omega)
  | succ k => exact ⟨List.replicate k 0 ++ flat L ++ [0], by simp [List.replicate_succ]⟩

theorem next_lay (pre t : List Nat) (k : Nat) (L : List (List Nat × Nat)) (e : Nat)
    (h : Lay ((t, k) :: L)) (he : e + 1 = (pre ++ (flat ((t, k) :: L) ++ [0])).length) :
    next (pre ++ (flat ((t, k) :: L) ++ [0])) e pre.length = .ok (pre.length + t.length + k) := by
  have ht := h.2.1
  cases L with
  | nil =>
    have e0 : pre ++ (flat [(t, k)] ++ [0]) = pre ++ (t ++ (List.replicate k 0 ++ [0])) := by
      simp [flat]
    have he' : e = pre.length + t.length + k := by
      rw [e0] at he; simp at he; omega
    rw [e0, next_end pre t k e ht he', he']
  | cons x L =>
    obtain ⟨t', k'⟩ := x
    obtain ⟨c, t'', rfl, hc, _⟩ := flat_head h.2.2.2
    have hk := h.2.2.1 (by simp)
    obtain ⟨k0, rfl⟩ : ∃ k0, k = k0 + 1 := ⟨k - 1, by omega⟩
    have e0 : pre ++ (flat ((t, k0 + 1) :: (c :: t'', k') :: L) ++ [0]) =
        pre ++ (t ++ 0 :: (List.replicate k0 0 ++
          c :: (t'' ++ (List.replicate k' 0 ++ flat L) ++ [0]))) := by
      simp [flat, List.replicate_succ]
    rw [e0] at he ⊢
    rw [next_mid pre t k0 c _ e ht hc (by simp at he; omega)]
    congr 1
    omega

theorem section_ok_spec (sec : Option (List Nat)) (name r : List Nat) (hn : 0 ∉ name)
    (hs : ∀ s, sec = some s → 0 ∉ s) :
    section_ok sec (name ++ 0 :: r) = .ok (sec_matches sec name) := by
  cases sec with
  | none => rfl
  | some s =>
    obtain ⟨d, hd, hd0⟩ := strcmpci_spec s name [] r (hs s rfl) hn
    simp only [section_ok, c_str, sec_matches]
    rw [hd]
    simp only [Res.bind_ok, Res.ok.injEq]
    rw [decide_eq_decide]
    exact hd0

theorem get_body_sec {b : List Nat} {e p p' : Nat} (sec : Option (List Nat)) (key cur : List Nat)
    (hp : p < e) (hr : rd b p = .ok 91) (hn : next b e p = .ok p') :
    get_body b e sec key (p, cur) = .ok (.again (p', b.drop (p + 1))) := by
  simp [get_body, hp, hr, hn]

theorem get_body_key {b : List Nat} {e p c val : Nat} (sec : Option (List Nat))
    (key name r t rest : List Nat) (hp : p < e) (hr : rd b p = .ok c) (hc : c ≠ 91)
    (hn : next b e p = .ok val) (hd : b.drop p = t ++ 0 :: rest) (ht : 0 ∉ t)
    (hname : 0 ∉ name) (hk : 0 ∉ key) (hs : ∀ s, sec = some s → 0 ∉ s) :
    get_body b e sec key (p, name ++ 0 :: r) =
      if (sec_matches sec name && key_matches t key) = true then .ok (.leave (some val))
      else (next b e val).bind fun p' => .ok (.again (p', name ++ 0 :: r)) := by
  obtain ⟨d, hd1, hd0⟩ := strcmpci_spec t key rest [] ht hk
  simp only [get_body, if_pos hp, hr, Res.bind_ok, if_neg hc, hn,
    section_ok_spec sec name r hname hs, hd, c_str, hd1]
  have hkm : decide (d = 0) = key_matches t key := by
    unfold key_matches
    rw [decide_eq_decide]
    exact hd0
  rw [hkm]
  cases sec_matches sec name <;> cases key_matches t key <;> simp

/-- One round of the loop of `ini_get`, whatever the numbers of rounds. -/
theorem get_run_step {b : List Nat} {e : Nat} {sec : Option (List Nat)} {key : List Nat}
    {s s' : Nat × List Nat} (h : get_body b e sec key s = .ok (.again s')) :
    iterate (get_body b e sec key) (b.length + 1) s =
      iterate (get_body b e sec key) (b.length + 1) s' :=
  iterate_step _ (fun s => b.length - s.1) (get_body_dec b e sec key) h _ _
    (by show b.length - s.1 < _; omega) (by show b.length - s'.1 < _; omega)

theorem get_run_end {b : List Nat} {e : Nat} {sec : Option (List Nat)} {key : List Nat}
    {p : Nat} {cur : List Nat} (h : ¬ p < e) :
    iterate (get_body b e sec key) (b.length + 1) (p, cur) = .ok none := by
  apply iterate_leave
  simp [get_body, h]

theorem terminated_append (pre : List Nat) (e : Nat) (he : e + 1 = (pre ++ [0]).length) :
    Terminated (pre ++ [0]) e := by
  refine ⟨he.symm, ?_⟩
  have : e = pre.length := by simp at he; omega
  rw [this, List.getElem?_append_right (le_refl _)]
  simp

theorem next_at_end (b : List Nat) (e : Nat) (hT : Terminated b e) : next b e e = .ok e := by
  obtain ⟨j, hj, h1, h2, _⟩ := next_spec hT (le_refl e)
  have : j = e := by omega
  rw [hj, this]

/-- The loop of `ini_get` on a row of tokens does what `get_lay` says. -/
theorem get_lay_correct (sec : Option (List Nat)) (key : List Nat) (hk : 0 ∉ key)
    (hs : ∀ s, sec = some s → 0 ∉ s) :
    ∀ (n : Nat) (L : List (List Nat × Nat)) (pre name r : List Nat) (e : Nat),
      L.length ≤ n → Lay L → 0 ∉ name → e + 1 = (pre ++ (flat L ++ [0])).length →
      iterate (get_body (pre ++ (flat L ++ [0])) e sec key)
          ((pre ++ (flat L ++ [0])).length + 1) (pre.length, name ++ 0 :: r) =
        .ok (get_lay sec key pre.length name L) := by
  intro n
  induction n with
  | zero =>
    intro L pre name r e hL _ _ he
    have : L = [] := List.length_eq_zero.1 (by omega)
    subst this
    rw [get_lay_nil]
    simp only [flat, List.nil_append] at he ⊢
    exact get_run_end (by simp at he; omega)
  | succ n ih =>
    intro L pre name r e hL hlay hname he
    cases L with
    | nil =>
      rw [get_lay_nil]
      simp only [flat, List.nil_append] at he ⊢
      exact get_run_end (by simp at he; omega)
    | cons x L' =>
      obtain ⟨t, k⟩ := x
      obtain ⟨c, t', rfl, hc0, ht'⟩ := flat_head hlay
      obtain ⟨r', hr'⟩ := flat_tail_null hlay
      have ht : 0 ∉ c :: t' := hlay.2.1
      have hn := next_lay pre (c :: t') k L' e hlay he
      -- the buffer, seen from the token and from behind it
      have eB1 : pre ++ (flat ((c :: t', k) :: L') ++ [0]) = pre ++ c :: (t' ++ 0 :: r') := by
        simp only [flat, List.append_assoc, List.cons_append] at hr' ⊢
        rw [hr']
      have eB2 : pre ++ (flat ((c :: t', k) :: L') ++ [0]) =
          (pre ++ ((c :: t') ++ List.replicate k 0)) ++ (flat L' ++ [0]) := by
        simp [flat]
      have elen : (pre ++ ((c :: t') ++ List.replicate k 0)).length =
          pre.length + (c :: t').length + k := by
        simp; omega
      have hp : pre.length < e := by
        rw [eB1] at he; simp at he; omega
      have hrd : rd (pre ++ (flat ((c :: t', k) :: L') ++ [0])) pre.length = .ok c := by
        rw [eB1]; exact rd_at pre c _
      have hdrop : (pre ++ (flat ((c :: t', k) :: L') ++ [0])).drop pre.length =
          (c :: t') ++ 0 :: r' := by
        rw [eB1, List.drop_left]; rfl
      have hdrop1 : (pre ++ (flat ((c :: t', k) :: L') ++ [0])).drop (pre.length + 1) =
          t' ++ 0 :: r' := by
        rw [← List.drop_drop, hdrop]
        rfl
      by_cases h91 : c = 91
      · subst h91
        rw [get_run_step (get_body_sec sec key _ hp hrd hn), hdrop1]
        have := ih L' (pre ++ ((91 :: t') ++ List.replicate k 0)) t' r' e
          (by simp at hL; omega) hlay.2.2.2 ht' (by rw [← eB2]; exact he)
        rw [← eB2, elen] at this
        rw [this]
        rw [get_lay_cons]
        simp only [List.head?_cons, if_true, List.tail_cons]
      · have hbody := get_body_key sec key name r (c :: t') r' hp hrd h91 hn hdrop ht hname hk hs
        by_cases hit : (sec_matches sec name && key_matches (c :: t') key) = true
        · rw [if_pos hit] at hbody
          rw [iterate_leave hbody]
          rw [get_lay_cons]
          simp only [List.head?_cons, Option.some.injEq, if_neg h91, if_pos hit]
        · rw [if_neg hit] at hbody
          cases L' with
          | nil =>
            have hT : Terminated (pre ++ (flat [(c :: t', k)] ++ [0])) e := by
              rw [← List.append_assoc] at he ⊢
              exact terminated_append _ e he
            have hval : pre.length + (c :: t').length + k = e := by
              rw [eB2] at he; simp [flat] at he ⊢; omega
            rw [hval, next_at_end _ e hT] at hbody
            simp only [Res.bind_ok] at hbody
            rw [get_run_step hbody, get_run_end (Nat.lt_irrefl e)]
            rw [get_lay_cons]
            simp only [List.head?_cons, Option.some.injEq, if_neg h91, if_neg hit]
          | cons y L'' =>
            obtain ⟨t2, k2⟩ := y
            have hn2 := next_lay (pre ++ ((c :: t') ++ List.replicate k 0)) t2 k2 L'' e
              hlay.2.2.2 (by rw [← eB2]; exact he)
            rw [← eB2, elen] at hn2
            rw [hn2] at hbody
            simp only [Res.bind_ok] at hbody
            rw [get_run_step hbody]
            have eB3 : pre ++ (flat ((c :: t', k) :: (t2, k2) :: L'') ++ [0]) =
                (pre ++ ((c :: t') ++ (List.replicate k 0 ++ (t2 ++ List.replicate k2 0)))) ++
                  (flat L'' ++ [0]) := by
              simp [flat]
            have elen3 : (pre ++ ((c :: t') ++ (List.replicate k 0 ++
                (t2 ++ List.replicate k2 0)))).length =
                pre.length + (c :: t').length + k + t2.length + k2 := by
              simp; omega
            have := ih L'' (pre ++ ((c :: t') ++ (List.replicate k 0 ++
                (t2 ++ List.replicate k2 0)))) name r e
              (by simp at hL; omega) hlay.2.2.2.2.2.2 hname (by rw [← eB3]; exact he)
            rw [← eB3, elen3] at this
            rw [this]
            rw [get_lay_cons]
            simp only [List.head?_cons, Option.some.injEq, if_neg h91, if_neg hit]

/-- The first token of a row of tokens behind `k0` null bytes starts at `k0`. -/
theorem first_token_lay (k0 : Nat) (L : List (List Nat × Nat)) (e : Nat) (h : Lay L)
    (he : e + 1 = (List.replicate k0 0 ++ (flat L ++ [0])).length) :
    first_token (List.replicate k0 0 ++ (flat L ++ [0])) e = .ok k0 := by
  rw [first_token_eq _ _ (by simp)]
  have hs := skip_zeros [] (flat L ++ [0]) k0 e (by simp at he ⊢; omega) k0 (le_refl _)
  simp only [List.nil_append, List.length_nil, Nat.zero_add] at hs
  rw [hs]
  apply iterate_leave
  unfold next_body
  split
  · rename_i hlt
    cases L with
    | nil => simp [flat] at he; omega
    | cons x L' =>
      obtain ⟨t, k⟩ := x
      obtain ⟨c, t', rfl, hc0, _⟩ := flat_head h
      have hr : rd (List.replicate k0 0 ++ (flat ((c :: t', k) :: L') ++ [0])) k0 = .ok c := by
        have := rd_at (List.replicate k0 0) c (t' ++ (List.replicate k 0 ++ flat L') ++ [0])
        simp only [List.length_replicate] at this
        simp only [flat, List.cons_append, List.append_assoc] at this ⊢
        exact this
      rw [hr]
      simp [hc0]
  · rfl

/-- The lookup on a buffer that is a row of tokens. -/
theorem ini_get_lay (k0 : Nat) (L : List (List Nat × Nat)) (e : Nat) (h : Lay L)
    (he : e + 1 = (List.replicate k0 0 ++ (flat L ++ [0])).length)
    (sec : Option (List Nat)) (key : List Nat) (hk : 0 ∉ key)
    (hs : ∀ s, sec = some s → 0 ∉ s) :
    ini_get { data := List.replicate k0 0 ++ (flat L ++ [0]), end_ := e } sec key =
      .ok (get_lay sec key k0 [] L) := by
  unfold ini_get
  simp only
  rw [first_token_lay k0 L e h he]
  simp only [Res.bind_ok]
  have := get_lay_correct sec key hk hs L.length L (List.replicate k0 0) [] [] e (le_refl _) h
    (by simp) he
  simp only [List.length_replicate, List.nil_append] at this
  exact this

theorem unescape_run_step {e : Nat} {s s' : List Nat × Nat}
    (h : unescape_body e s = .ok (.again s')) :
    iterate (unescape_body e) (s.1.length + 1) s =
      iterate (unescape_body e) (s'.1.length + 1) s' :=
  iterate_step _ left (unescape_body_dec e) h _ _
    (by simp only [left]; omega) (by simp only [left]; omega)

/-- The unescape pass leaves a row of tokens as it is when no token starts
with a double quote. -/
theorem unescape_loop_lay :
    ∀ (L : List (List Nat × Nat)) (pre : List Nat) (e : Nat), Lay L →
      (∀ x ∈ L, x.1.head? ≠ some 34) → e + 1 = (pre ++ (flat L ++ [0])).length →
      iterate (unescape_body e) ((pre ++ (flat L ++ [0])).length + 1)
          (pre ++ (flat L ++ [0]), pre.length) = .ok (pre ++ (flat L ++ [0])) := by
  intro L
  induction L with
  | nil =>
    intro pre e _ _ he
    apply iterate_leave
    simp only [unescape_body]
    rw [if_neg (by simp [flat] at he; omega)]
  | cons x L' ih =>
    intro pre e hlay hq he
    obtain ⟨t, k⟩ := x
    obtain ⟨c, t', rfl, hc0, ht'⟩ := flat_head hlay
    have hn := next_lay pre (c :: t') k L' e hlay he
    have hc34 : c ≠ 34 := by
      have := hq (c :: t', k) (List.mem_cons_self _ _)
      simpa using this
    have eB2 : pre ++ (flat ((c :: t', k) :: L') ++ [0]) =
        (pre ++ ((c :: t') ++ List.replicate k 0)) ++ (flat L' ++ [0]) := by
      simp [flat]
    have elen : (pre ++ ((c :: t') ++ List.replicate k 0)).length =
        pre.length + (c :: t').length + k := by
      simp; omega
    have hrd : rd (pre ++ (flat ((c :: t', k) :: L') ++ [0])) pre.length = .ok c := by
      have := rd_at pre c (t' ++ (List.replicate k 0 ++ flat L') ++ [0])
      simp only [flat, List.cons_append, List.append_assoc] at this ⊢
      exact this
    have hp : pre.length < e := by
      rw [eB2] at he; simp at he; omega
    have hbody : unescape_body e (pre ++ (flat ((c :: t', k) :: L') ++ [0]), pre.length) =
        .ok (.again (pre ++ (flat ((c :: t', k) :: L') ++ [0]),
          pre.length + (c :: t').length + k)) := by
      simp only [unescape_body, if_pos hp, hrd, Res.bind_ok, if_neg hc34, hn]
    have := unescape_run_step hbody
    simp only at this
    rw [this]
    have h2 := ih (pre ++ ((c :: t') ++ List.replicate k 0)) e hlay.2.2.2
      (fun y hy => hq y (List.mem_cons_of_mem _ hy)) (by rw [← eB2]; exact he)
    rw [← eB2, elen] at h2
    exact h2

theorem unescape_lay (k0 : Nat) (L : List (List Nat × Nat)) (e : Nat) (h : Lay L)
    (hq : ∀ x ∈ L, x.1.head? ≠ some 34)
    (he : e + 1 = (List.replicate k0 0 ++ (flat L ++ [0])).length) :
    unescape_quoted_strings { data := List.replicate k0 0 ++ (flat L ++ [0]), end_ := e } =
      .ok { data := List.replicate k0 0 ++ (flat L ++ [0]), end_ := e } := by
  unfold unescape_quoted_strings
  simp only
  rw [first_token_lay k0 L e h he]
  simp only [Res.bind_ok]
  have := unescape_loop_lay L (List.replicate k0 0) e h hq he
  simp only [List.length_replicate] at this
  rw [this]
  rfl

theorem split_data_eq (ini : ini_t) :
    split_data ini = (split_run ini.end_ (ini.data, 0)).bind fun b =>
      .ok { ini with data := b } := rfl

theorem split_run_step {e : Nat} {s s' : List Nat × Nat}
    (h : split_body e s = .ok (.again s')) : split_run e s = split_run e s' :=
  iterate_step _ left (split_body_dec e) h _ _
    (by simp only [left]; omega) (by simp only [left]; omega)

theorem split_run_end {e : Nat} {b : List Nat} {p : Nat} (h : ¬ p < e) :
    split_run e (b, p) = .ok b := by
  apply iterate_leave
  simp [split_body, h]

theorem string_at_run (pre t rest : List Nat) (ht : 0 ∉ t) :
    string_at (pre ++ (t ++ 0 :: rest)) pre.length = .ok t := by
  unfold string_at
  rw [strlen_run pre t rest ht]
  simp only [Res.bind_ok, List.drop_left]
  simp

/-! ## The tokenizer, case by case -/

theorem split_ws (e : Nat) (pre : List Nat) (c : Nat) (rest : List Nat)
    (hc : c = 13 ∨ c = 10 ∨ c = 9 ∨ c = 32) (hp : pre.length < e) :
    split_body e (pre ++ c :: rest, pre.length) =
      .ok (.again (pre ++ 0 :: rest, pre.length + 1)) := by
  rw [split_body_ws hp (rd_at pre c rest) hc, wr_at]
  rfl

theorem split_null (e : Nat) (pre : List Nat) (rest : List Nat) (hp : pre.length < e) :
    split_body e (pre ++ 0 :: rest, pre.length) =
      .ok (.again (pre ++ 0 :: rest, pre.length + 1)) := by
  simp [split_body, hp, rd_at]

theorem split_header (e : Nat) (pre name : List Nat) (rest : List Nat)
    (hn : ∀ x ∈ name, x ≠ 0 ∧ x ≠ 93) (hp : pre.length < e) :
    split_body e (pre ++ 91 :: (name ++ 93 :: rest), pre.length) =
      .ok (.again (pre ++ 91 :: (name ++ 0 :: rest), pre.length + 1 + name.length)) := by
  have hs : strcspn (pre ++ ((91 :: name) ++ 93 :: rest)) pre.length [93] =
      .ok (91 :: name).length :=
    strcspn_run [93] pre (91 :: name) 93 rest (Or.inr (by simp)) (by
      intro x hx
      rcases List.mem_cons.1 hx with rfl | hx
      · simp
      · have := hn x hx
        simp [this.1, this.2])
  have hw := wr_at2 pre (91 :: name) 93 rest 0
  simp only [List.cons_append, List.length_cons] at hs hw
  simp only [split_body, if_pos hp, rd_at, Res.bind_ok]
  simp only [if_true, hs, Res.bind_ok, hw]
  rw [if_neg (by decide), if_neg (by decide)]
  congr 3
  omega

/-- The case of a key: the scan runs to the `=` and the trim takes the
spaces, tabs and carriage returns before the `=` away. -/
theorem split_key (e : Nat) (pre kinit : List Nat) (klast : Nat) (ws rest : List Nat)
    (hhead : ∀ c, (kinit ++ [klast]).head? = some c →
      ¬ (c = 13 ∨ c = 10 ∨ c = 9 ∨ c = 32) ∧ c ≠ 91 ∧ c ≠ 59)
    (hk : ∀ x ∈ kinit ++ [klast], x ≠ 0 ∧ x ≠ 61)
    (hlast : ¬ (klast = 32 ∨ klast = 9 ∨ klast = 13))
    (hws : ∀ x ∈ ws, x = 32 ∨ x = 9 ∨ x = 13) (hp : pre.length < e) :
    split_body e (pre ++ (kinit ++ klast :: (ws ++ 61 :: rest)), pre.length) =
      .ok (.again (pre ++ (kinit ++ klast :: (List.replicate ws.length 0 ++ 61 :: rest)),
        pre.length + kinit.length + 1 + ws.length)) := by
  obtain ⟨c, t, hct⟩ : ∃ c t, kinit ++ [klast] = c :: t := by
    cases kinit with
    | nil => exact ⟨klast, [], rfl⟩
    | cons c t => exact ⟨c, t ++ [klast], rfl⟩
  have hc := hhead c (by rw [hct]; rfl)
  have hc2 := hk c (by rw [hct]; simp)
  have eB : pre ++ (kinit ++ klast :: (ws ++ 61 :: rest)) = pre ++ c :: (t ++ (ws ++ 61 :: rest)) := by
    have : kinit ++ klast :: (ws ++ 61 :: rest) = (kinit ++ [klast]) ++ (ws ++ 61 :: rest) := by
      simp
    rw [this, hct]; rfl
  have hr : rd (pre ++ (kinit ++ klast :: (ws ++ 61 :: rest))) pre.length = .ok c := by
    rw [eB]; exact rd_at pre c _
  have hs : strcspn (pre ++ (kinit ++ klast :: (ws ++ 61 :: rest))) pre.length [61] =
      .ok (kinit.length + (ws.length + 1)) := by
    have := strcspn_run [61] pre ((kinit ++ [klast]) ++ ws) 61 rest (Or.inr (by simp)) (by
      intro x hx
      rcases List.mem_append.1 hx with hx | hx
      · have := hk x hx
        simp [this.1, this.2]
      · have := hws x hx
        simp; omega)
    simp only [List.append_assoc, List.singleton_append, List.length_append,
      List.length_singleton, List.cons_append, List.length_cons, List.nil_append,
      List.length_nil, Nat.zero_add] at this
    exact this
  have ht := trim_back_run (pre ++ kinit) klast hlast ws.length ws (61 :: rest) rfl hws
  simp only [List.length_append, List.append_assoc] at ht
  simp only [split_body, if_pos hp, hr, Res.bind_ok]
  rw [if_neg hc.1, if_neg hc2.1, if_neg hc.2.1, if_neg hc2.2, if_neg hc.2.2, hs]
  simp only [Res.bind_ok]
  have e1 : pre.length + (kinit.length + (ws.length + 1)) =
      pre.length + kinit.length + 1 + ws.length := by omega
  rw [e1, ht]
  rfl

/-- The case of `=`: the `=` and the spaces and tabs behind it become null
bytes, the scan runs to the end of the line and the trim takes the spaces,
tabs and carriage returns at the end of the line away. -/
theorem split_eq (e : Nat) (pre ws3 vinit : List Nat) (vlast : Nat) (ws4 : List Nat)
    (stop : Nat) (rest : List Nat)
    (hws3 : ∀ x ∈ ws3, x = 32 ∨ x = 9)
    (hhead : ∀ c, (vinit ++ [vlast]).head? = some c → ¬ (c = 32 ∨ c = 9))
    (hv : ∀ x ∈ vinit ++ [vlast], x ≠ 0 ∧ x ≠ 10)
    (hlast : ¬ (vlast = 32 ∨ vlast = 9 ∨ vlast = 13))
    (hws4 : ∀ x ∈ ws4, x = 32 ∨ x = 9 ∨ x = 13)
    (hstop : stop = 0 ∨ stop = 10) (hp : pre.length < e) :
    split_body e (pre ++ 61 :: (ws3 ++ (vinit ++ vlast :: (ws4 ++ stop :: rest))), pre.length) =
      .ok (.again (pre ++ 0 :: (List.replicate ws3.length 0 ++
          (vinit ++ vlast :: (List.replicate ws4.length 0 ++ stop :: rest))),
        pre.length + 1 + ws3.length + vinit.length + 1 + ws4.length)) := by
  obtain ⟨c, t, hct⟩ : ∃ c t, vinit ++ [vlast] = c :: t := by
    cases vinit with
    | nil => exact ⟨vlast, [], rfl⟩
    | cons c t => exact ⟨c, t ++ [vlast], rfl⟩
  have hc := hhead c (by rw [hct]; rfl)
  have eV : ∀ tl : List Nat, vinit ++ vlast :: tl = c :: (t ++ tl) := by
    intro tl
    have : vinit ++ vlast :: tl = (vinit ++ [vlast]) ++ tl := by simp
    rw [this, hct]; rfl
  -- the loop behind `=`
  have hl := eq_loop_run c (t ++ (ws4 ++ stop :: rest)) hc ws3 pre 61
    ((pre ++ 61 :: (ws3 ++ (vinit ++ vlast :: (ws4 ++ stop :: rest)))).length + 1) hws3
    (by simp; omega)
  rw [← eV] at hl
  -- the scan to the end of the line
  have hs : strcspn (pre ++ 0 :: (List.replicate ws3.length 0 ++
      (vinit ++ vlast :: (ws4 ++ stop :: rest)))) (pre.length + 1 + ws3.length) [10] =
      .ok (vinit.length + (ws4.length + 1)) := by
    have := strcspn_run [10] (pre ++ 0 :: List.replicate ws3.length 0)
      ((vinit ++ [vlast]) ++ ws4) stop rest (by simpa using hstop) (by
        intro x hx
        rcases List.mem_append.1 hx with hx | hx
        · have := hv x hx
          simp [this.1, this.2]
        · have := hws4 x hx
          simp; omega)
    simp only [List.append_assoc, List.singleton_append, List.length_append,
      List.length_singleton, List.length_cons, List.length_replicate, List.cons_append,
      List.nil_append, List.length_nil, Nat.zero_add] at this
    have e1 : pre.length + (ws3.length + 1) = pre.length + 1 + ws3.length := by omega
    rw [e1] at this
    exact this
  -- the trim
  have ht := trim_back_run (pre ++ 0 :: (List.replicate ws3.length 0 ++ vinit)) vlast hlast
    ws4.length ws4 (stop :: rest) rfl hws4
  simp only [List.length_append, List.append_assoc, List.length_cons, List.length_replicate,
    List.cons_append] at ht
  have e2 : pre.length + (ws3.length + vinit.length + 1) + 1 + ws4.length =
      pre.length + 1 + ws3.length + (vinit.length + (ws4.length + 1)) := by omega
  rw [e2] at ht
  simp only [split_body, if_pos hp, rd_at, Res.bind_ok]
  simp only [if_true, hl, Res.bind_ok, hs, ht]
  rw [if_neg (by decide), if_neg (by decide), if_neg (by decide)]
  congr 3
  omega

/-! ## One assignment line -/

theorem split_ws_run (e : Nat) :
    ∀ (ws pre rest : List Nat), (∀ x ∈ ws, x = 13 ∨ x = 10 ∨ x = 9 ∨ x = 32) →
      pre.length + ws.length ≤ e →
      split_run e (pre ++ (ws ++ rest), pre.length) =
        split_run e (pre ++ (List.replicate ws.length 0 ++ rest), pre.length + ws.length) := by
  intro ws
  induction ws with
  | nil => intro pre rest _ _; rfl
  | cons x ws ih =>
    intro pre rest hws he
    have hx := hws x (List.mem_cons_self _ _)
    have hstep := split_run_step (split_ws e pre x (ws ++ rest) hx (by simp at he; omega))
    rw [List.cons_append, hstep]
    have e1 : pre ++ 0 :: (ws ++ rest) = (pre ++ [0]) ++ (ws ++ rest) := by simp
    have e2 : pre.length + 1 = (pre ++ [0]).length := by simp
    rw [e1, e2, ih (pre ++ [0]) rest (fun y hy => hws y (List.mem_cons_of_mem _ hy))
      (by simp at he ⊢; omega)]
    have e3 : (pre ++ [0]) ++ (List.replicate ws.length 0 ++ rest) =
        pre ++ (List.replicate (x :: ws).length 0 ++ rest) := by
      simp [List.replicate_succ]
    have e4 : (pre ++ [0]).length + ws.length = pre.length + (x :: ws).length := by
      simp; omega
    rw [e3, e4]

/-- The tokenizer on one assignment line, with white space around the key
and the value and with or without a line feed at the end. -/
theorem split_line (ws1 kinit : List Nat) (klast : Nat) (ws2 ws3 vinit : List Nat) (vlast : Nat)
    (ws4 tail : List Nat)
    (hws1 : ∀ x ∈ ws1, x = 13 ∨ x = 10 ∨ x = 9 ∨ x = 32)
    (hkhead : ∀ c, (kinit ++ [klast]).head? = some c →
      ¬ (c = 13 ∨ c = 10 ∨ c = 9 ∨ c = 32) ∧ c ≠ 91 ∧ c ≠ 59)
    (hk : ∀ x ∈ kinit ++ [klast], x ≠ 0 ∧ x ≠ 61)
    (hklast : ¬ (klast = 32 ∨ klast = 9 ∨ klast = 13))
    (hws2 : ∀ x ∈ ws2, x = 32 ∨ x = 9 ∨ x = 13)
    (hws3 : ∀ x ∈ ws3, x = 32 ∨ x = 9)
    (hvhead : ∀ c, (vinit ++ [vlast]).head? = some c → ¬ (c = 32 ∨ c = 9))
    (hv : ∀ x ∈ vinit ++ [vlast], x ≠ 0 ∧ x ≠ 10)
    (hvlast : ¬ (vlast = 32 ∨ vlast = 9 ∨ vlast = 13))
    (hws4 : ∀ x ∈ ws4, x = 32 ∨ x = 9 ∨ x = 13)
    (htail : tail = [] ∨ tail = [10]) (e : Nat)
    (he : e = (ws1 ++ (kinit ++ klast :: (ws2 ++ 61 :: (ws3 ++
      (vinit ++ vlast :: (ws4 ++ tail)))))).length) :
    split_data { data := ws1 ++ (kinit ++ klast :: (ws2 ++ 61 :: (ws3 ++
        (vinit ++ vlast :: (ws4 ++ (tail ++ [0])))))), end_ := e } =
      .ok { data := List.replicate ws1.length 0 ++ (kinit ++ klast ::
        (List.replicate ws2.length 0 ++ 0 :: (List.replicate ws3.length 0 ++
        (vinit ++ vlast :: (List.replicate ws4.length 0 ++
          (List.replicate tail.length 0 ++ [0])))))), end_ := e } := by
  rw [split_data_eq]
  simp only
  have he' : e = ws1.length + kinit.length + 1 + ws2.length + 1 + ws3.length + vinit.length + 1
      + ws4.length + tail.length := by
    rw [he]; simp; omega
  -- the white space in front
  have s1 := split_ws_run e ws1 [] (kinit ++ klast :: (ws2 ++ 61 :: (ws3 ++
    (vinit ++ vlast :: (ws4 ++ (tail ++ [0])))))) hws1 (by simp; omega)
  simp only [List.nil_append, List.length_nil, Nat.zero_add] at s1
  rw [s1]
  -- the key
  have s2 := split_run_step (split_key e (List.replicate ws1.length 0) kinit klast ws2
    (ws3 ++ (vinit ++ vlast :: (ws4 ++ (tail ++ [0])))) hkhead hk hklast hws2
    (by simp; omega))
  simp only [List.length_replicate] at s2
  rw [s2]
  -- the `=` and the value
  obtain ⟨stop, rest, hsr, hstop, hrest⟩ : ∃ stop rest, tail ++ [0] = stop :: rest ∧
      (stop = 0 ∨ stop = 10) ∧ rest.length = tail.length := by
    rcases htail with h | h
    · exact ⟨0, [], by simp [h], Or.inl rfl, by simp [h]⟩
    · exact ⟨10, [0], by simp [h], Or.inr rfl, by simp [h]⟩
  rw [hsr]
  have s3 := split_run_step (split_eq e
    (List.replicate ws1.length 0 ++ (kinit ++ klast :: List.replicate ws2.length 0))
    ws3 vinit vlast ws4 stop rest hws3 hvhead hv hvlast hws4 hstop (by simp; omega))
  simp only [List.length_append, List.length_replicate, List.length_cons,
    List.append_assoc, List.cons_append] at s3
  have e1 : ws1.length + kinit.length + 1 + ws2.length =
      ws1.length + (kinit.length + (ws2.length + 1)) := by omega
  rw [e1, s3]
  rcases htail with h | h
  · subst h
    simp only [List.nil_append, List.cons.injEq] at hsr
    obtain ⟨rfl, rfl⟩ := hsr
    rw [split_run_end (by simp at he' ⊢; omega)]
    simp
  · subst h
    simp only [List.singleton_append, List.cons.injEq] at hsr
    obtain ⟨rfl, rfl⟩ := hsr
    have s4 := split_run_step (split_ws e
      (List.replicate ws1.length 0 ++ (kinit ++ klast :: (List.replicate ws2.length 0 ++
        0 :: (List.replicate ws3.length 0 ++ (vinit ++ vlast :: List.replicate ws4.length 0)))))
      10 [0] (by decide) (by simp at he' ⊢; omega))
    simp only [List.length_append, List.length_replicate, List.length_cons,
      List.append_assoc, List.cons_append] at s4
    have e2 : ws1.length + (kinit.length + (ws2.length + 1)) + 1 + ws3.length + vinit.length + 1 +
        ws4.length = ws1.length + (kinit.length + (ws2.length + (ws3.length +
          (vinit.length + (ws4.length + 1)) + 1) + 1)) := by omega
    rw [e2, s4, split_run_end (by simp at he' ⊢; omega)]
    simp

theorem init_last {l : List Nat} (h : l ≠ []) :
    ∃ i x, l = i ++ [x] ∧ l.getLast? = some x :=
  ⟨l.dropLast, l.getLast h, (List.dropLast_append_getLast h).symm,
    List.getLast?_eq_getLast _ h⟩

theorem replicate_split (a b : Nat) (rest : List Nat) :
    List.replicate (a + 1 + b) 0 ++ rest =
      List.replicate a 0 ++ 0 :: (List.replicate b 0 ++ rest) := by
  rw [Nat.add_assoc, List.replicate_add, Nat.add_comm 1 b, List.replicate_succ]
  simp

/-- What `ini_load` makes of one assignment line: the key, null bytes, the
value with the white space around it taken away, null bytes. -/
theorem ini_load_line (ws1 k ws2 ws3 v ws4 tail : List Nat)
    (hws1 : ∀ x ∈ ws1, x = 13 ∨ x = 10 ∨ x = 9 ∨ x = 32)
    (hkne : k ≠ [])
    (hkhead : ∀ c, k.head? = some c →
      ¬ (c = 13 ∨ c = 10 ∨ c = 9 ∨ c = 32) ∧ c ≠ 91 ∧ c ≠ 59 ∧ c ≠ 34)
    (hk : ∀ x ∈ k, x ≠ 0 ∧ x ≠ 61)
    (hklast : ∀ c, k.getLast? = some c → ¬ (c = 32 ∨ c = 9 ∨ c = 13))
    (hws2 : ∀ x ∈ ws2, x = 32 ∨ x = 9 ∨ x = 13)
    (hws3 : ∀ x ∈ ws3, x = 32 ∨ x = 9)
    (hvne : v ≠ [])
    (hvhead : ∀ c, v.head? = some c → ¬ (c = 32 ∨ c = 9) ∧ c ≠ 34)
    (hv : ∀ x ∈ v, x ≠ 0 ∧ x ≠ 10)
    (hvlast : ∀ c, v.getLast? = some c → ¬ (c = 32 ∨ c = 9 ∨ c = 13))
    (hws4 : ∀ x ∈ ws4, x = 32 ∨ x = 9 ∨ x = 13)
    (htail : tail = [] ∨ tail = [10]) :
    ini_load (ws1 ++ k ++ ws2 ++ [61] ++ ws3 ++ v ++ ws4 ++ tail) =
      .ok { data := List.replicate ws1.length 0 ++
              (flat [(k, ws2.length + 1 + ws3.length), (v, ws4.length + tail.length)] ++ [0]),
            end_ := (ws1 ++ k ++ ws2 ++ [61] ++ ws3 ++ v ++ ws4 ++ tail).length } := by
  obtain ⟨kinit, klast, rfl, hkl⟩ := init_last hkne
  obtain ⟨vinit, vlast, rfl, hvl⟩ := init_last hvne
  have hsplit := split_line ws1 kinit klast ws2 ws3 vinit vlast ws4 tail hws1
    (fun c hc => ⟨(hkhead c hc).1, (hkhead c hc).2.1, (hkhead c hc).2.2.1⟩) hk
    (hklast klast hkl) hws2 hws3 (fun c hc => (hvhead c hc).1) hv (hvlast vlast hvl) hws4 htail
    (ws1 ++ (kinit ++ [klast]) ++ ws2 ++ [61] ++ ws3 ++ (vinit ++ [vlast]) ++ ws4 ++ tail).length
    (by simp)
  have e1 : (ws1 ++ (kinit ++ [klast]) ++ ws2 ++ [61] ++ ws3 ++ (vinit ++ [vlast]) ++ ws4 ++ tail)
      ++ [0] = ws1 ++ (kinit ++ klast :: (ws2 ++ 61 :: (ws3 ++
        (vinit ++ vlast :: (ws4 ++ (tail ++ [0])))))) := by simp
  have e2 : List.replicate ws1.length 0 ++ (kinit ++ klast ::
        (List.replicate ws2.length 0 ++ 0 :: (List.replicate ws3.length 0 ++
        (vinit ++ vlast :: (List.replicate ws4.length 0 ++
          (List.replicate tail.length 0 ++ [0])))))) =
      List.replicate ws1.length 0 ++
        (flat [(kinit ++ [klast], ws2.length + 1 + ws3.length),
          (vinit ++ [vlast], ws4.length + tail.length)] ++ [0]) := by
    have r1 : List.replicate 1 0 = [0] := rfl
    simp only [flat, List.append_assoc, List.singleton_append, List.append_nil,
      List.cons_append, List.nil_append, List.replicate_add, r1]
  unfold ini_load
  rw [e1, hsplit]
  simp only [Res.bind_ok]
  rw [e2]
  apply unescape_lay
  · refine ⟨hkne, fun h => (hk 0 h).1 rfl, fun _ => by omega, hvne, fun h => (hv 0 h).1 rfl,
      fun h => absurd rfl h, trivial⟩
  · intro x hx
    simp only [List.mem_cons, List.mem_singleton, List.not_mem_nil, or_false] at hx
    rcases hx with rfl | rfl
    · intro h
      exact (hkhead 34 h).2.2.2 rfl
    · intro h
      exact (hvhead 34 h).2 rfl
  · rw [← e2]; simp; omega

/-- The lookup of the key of one assignment line returns its value. -/
theorem lookup_line (ws1 k ws2 ws3 v ws4 tail : List Nat) (sec : Option (List Nat))
    (hws1 : ∀ x ∈ ws1, x = 13 ∨ x = 10 ∨ x = 9 ∨ x = 32)
    (hkne : k ≠ [])
    (hkhead : ∀ c, k.head? = some c →
      ¬ (c = 13 ∨ c = 10 ∨ c = 9 ∨ c = 32) ∧ c ≠ 91 ∧ c ≠ 59 ∧ c ≠ 34)
    (hk : ∀ x ∈ k, x ≠ 0 ∧ x ≠ 61)
    (hklast : ∀ c, k.getLast? = some c → ¬ (c = 32 ∨ c = 9 ∨ c = 13))
    (hws2 : ∀ x ∈ ws2, x = 32 ∨ x = 9 ∨ x = 13)
    (hws3 : ∀ x ∈ ws3, x = 32 ∨ x = 9)
    (hvne : v ≠ [])
    (hvhead : ∀ c, v.head? = some c → ¬ (c = 32 ∨ c = 9) ∧ c ≠ 34)
    (hv : ∀ x ∈ v, x ≠ 0 ∧ x ≠ 10)
    (hvlast : ∀ c, v.getLast? = some c → ¬ (c = 32 ∨ c = 9 ∨ c = 13))
    (hws4 : ∀ x ∈ ws4, x = 32 ∨ x = 9 ∨ x = 13)
    (htail : tail = [] ∨ tail = [10])
    (hsec : sec = none ∨ sec = some []) :
    lookup (ws1 ++ k ++ ws2 ++ [61] ++ ws3 ++ v ++ ws4 ++ tail) sec k = .ok (some v) := by
  have hk0 : 0 ∉ k := fun h => (hk 0 h).1 rfl
  have hv0 : 0 ∉ v := fun h => (hv 0 h).1 rfl
  have hlay : Lay [(k, ws2.length + 1 + ws3.length), (v, ws4.length + tail.length)] :=
    ⟨hkne, hk0, fun _ => by omega, hvne, hv0, fun h => absurd rfl h, trivial⟩
  unfold lookup
  rw [ini_load_line ws1 k ws2 ws3 v ws4 tail hws1 hkne hkhead hk hklast hws2 hws3 hvne hvhead hv
    hvlast hws4 htail]
  simp only [Res.bind_ok]
  rw [ini_get_lay ws1.length _ _ hlay (by simp [flat]; omega) sec k hk0 (by
    intro s hs
    rcases hsec with h | h
    · rw [h] at hs; cases hs
    · rw [h] at hs; cases hs; simp)]
  have hsm : sec_matches sec [] = true := by
    rcases hsec with h | h <;> subst h <;> simp [sec_matches]
  have h91 : ¬ k.head? = some 91 := fun h => (hkhead 91 h).2.1 rfl
  rw [get_lay_cons, if_neg h91, if_pos (by simp [hsm, key_matches])]
  simp only [Res.bind_ok]
  have e3 : List.replicate ws1.length 0 ++
      (flat [(k, ws2.length + 1 + ws3.length), (v, ws4.length + tail.length)] ++ [0]) =
      (List.replicate ws1.length 0 ++ (k ++ List.replicate (ws2.length + 1 + ws3.length) 0)) ++
        (v ++ 0 :: List.replicate (ws4.length + tail.length) 0) := by
    simp only [flat, List.append_assoc, List.append_nil]
    congr 4
    rw [← List.replicate_succ, List.replicate_succ']
  have e4 : ws1.length + k.length + (ws2.length + 1 + ws3.length) =
      (List.replicate ws1.length 0 ++ (k ++ List.replicate (ws2.length + 1 + ws3.length) 0)).length
      := by simp; omega
  rw [e3, e4, string_at_run _ v _ hv0]
  rfl

/-! ## Texts made of section headers and assignments -/

theorem render_nil : render [] = [] := rfl

theorem render_one (l : Line) : render [l] = l.text := by
  simp [render, List.intercalate]

theorem render_cons (l l' : Line) (ls : List Line) :
    render (l :: l' :: ls) = l.text ++ 10 :: render (l' :: ls) := by
  simp [render, List.intercalate]

theorem alnum_ne {c : Nat} (h : alnum c = true) :
    c ≠ 0 ∧ c ≠ 9 ∧ c ≠ 10 ∧ c ≠ 13 ∧ c ≠ 32 ∧ c ≠ 34 ∧ c ≠ 59 ∧ c ≠ 61 ∧ c ≠ 91 ∧ c ≠ 92 ∧
      c ≠ 93 := by
  simp only [alnum, Bool.or_eq_true, Bool.and_eq_true, decide_eq_true_eq] at h
  omega

theorem word_head {w : List Nat} (h : word w) : ∃ c t, w = c :: t ∧ alnum c = true := by
  obtain ⟨hne, hall⟩ := h
  cases w with
  | nil => exact absurd rfl hne
  | cons c t => exact ⟨c, t, rfl, hall c (List.mem_cons_self _ _)⟩

theorem word_head? {w : List Nat} (h : word w) {c : Nat} (hc : w.head? = some c) :
    alnum c = true := by
  obtain ⟨c', t, rfl, hc'⟩ := word_head h
  simp at hc
  rw [← hc]; exact hc'

theorem word_last? {w : List Nat} (h : word w) {c : Nat} (hc : w.getLast? = some c) :
    alnum c = true := h.2 c (List.mem_of_getLast?_eq_some hc)

theorem split_lines_header (e : Nat) (pre n rest : List Nat) (hn : word n)
    (hp : pre.length + n.length + 2 ≤ e) :
    split_run e (pre ++ (91 :: n ++ [93]) ++ rest, pre.length) =
      split_run e ((pre ++ (91 :: n ++ [0])) ++ rest, (pre ++ (91 :: n ++ [0])).length) := by
  have s1 := split_run_step (split_header e pre n rest (fun x hx => by
    have := alnum_ne (hn.2 x hx)
    exact ⟨this.1, this.2.2.2.2.2.2.2.2.2.2⟩) (by omega))
  have s2 := split_run_step (split_null e (pre ++ 91 :: n) rest (by simp; omega))
  simp only [List.append_assoc, List.cons_append, List.length_append, List.length_cons,
    List.nil_append, List.length_nil] at s1 s2 ⊢
  rw [s1]
  have e1 : pre.length + 1 + n.length = pre.length + (n.length + 1) := by omega
  rw [e1, s2]
  congr 2

theorem split_lines_assign (e : Nat) (pre k v : List Nat) (stop : Nat) (rest : List Nat)
    (hk : word k) (hv : word v) (hstop : stop = 0 ∨ stop = 10)
    (hp : pre.length + k.length < e) :
    split_run e (pre ++ (k ++ 61 :: v) ++ stop :: rest, pre.length) =
      split_run e ((pre ++ (k ++ 0 :: v)) ++ stop :: rest, (pre ++ (k ++ 0 :: v)).length) := by
  obtain ⟨kinit, klast, rfl, hkl⟩ := init_last hk.1
  obtain ⟨vinit, vlast, rfl, hvl⟩ := init_last hv.1
  have hklast := alnum_ne (word_last? hk hkl)
  have hvlast := alnum_ne (word_last? hv hvl)
  have s1 := split_run_step (split_key e pre kinit klast []
    (vinit ++ vlast :: stop :: rest) (fun c hc => by
      have := alnum_ne (word_head? hk hc)
      omega) (fun x hx => by
      have := alnum_ne (hk.2 x hx)
      omega) (by omega) (by simp) (by simp at hp; omega))
  have s2 := split_run_step (split_eq e (pre ++ (kinit ++ [klast])) [] vinit vlast [] stop rest
    (by simp) (fun c hc => by
      have := alnum_ne (word_head? hv hc)
      omega) (fun x hx => by
      have := alnum_ne (hv.2 x hx)
      omega) (by omega) (by simp) hstop (by simp at hp ⊢; omega))
  simp only [List.append_assoc, List.cons_append, List.length_append, List.length_cons,
    List.nil_append, List.length_nil, List.replicate_zero, List.singleton_append,
    Nat.add_zero] at s1 s2 ⊢
  rw [s1]
  have e1 : pre.length + kinit.length + 1 = pre.length + (kinit.length + 1) := by omega
  rw [e1, s2]
  congr 2
  omega

theorem replicate_one_zero : List.replicate 1 0 = [0] := rfl

theorem replicate_two_zero : List.replicate 2 0 = [0, 0] := rfl

/-- The tokenizer on a well-formed text: every `]`, `=` and line feed
becomes a null byte, nothing else changes. -/
theorem split_lines :
    ∀ (m : Nat) (ls : List Line) (pre : List Nat) (e : Nat), ls.length = m →
      (∀ l ∈ ls, l.wf) → e = pre.length + (render ls).length →
      split_run e (pre ++ (render ls ++ [0]), pre.length) =
        .ok (pre ++ (flat (lay ls) ++ [0])) := by
  intro m
  induction m with
  | zero =>
    intro ls pre e hm _ he
    have : ls = [] := List.length_eq_zero.1 hm
    subst this
    rw [render_nil] at he ⊢
    rw [split_run_end (by simp at he; omega)]
    simp [lay, flat]
  | succ m ih =>
    intro ls pre e hm hwf he
    cases ls with
    | nil => simp at hm
    | cons l ls =>
      have hl := hwf l (List.mem_cons_self _ _)
      cases ls with
      | nil =>
        rw [render_one] at he ⊢
        cases l with
        | header n =>
          simp only [Line.text, Line.wf] at he hl ⊢
          have s1 := split_lines_header e pre n [0] hl (by simp at he; omega)
          rw [← List.append_assoc, s1, split_run_end (by simp at he ⊢; omega)]
          simp [lay, flat, replicate_one_zero]
        | assign k v =>
          simp only [Line.text, Line.wf] at he hl ⊢
          have s1 := split_lines_assign e pre k v 0 [] hl.1 hl.2 (Or.inl rfl)
            (by simp at he; omega)
          rw [← List.append_assoc, s1, split_run_end (by simp at he ⊢; omega)]
          simp [lay, flat, replicate_one_zero]
      | cons l' ls' =>
        rw [render_cons] at he ⊢
        have hwf' : ∀ x ∈ l' :: ls', x.wf := fun x hx => hwf x (List.mem_cons_of_mem _ hx)
        have hm' : (l' :: ls').length = m := by simpa using hm
        cases l with
        | header n =>
          simp only [Line.text, Line.wf] at he hl ⊢
          have s1 := split_lines_header e pre n (10 :: (render (l' :: ls') ++ [0])) hl
            (by simp at he; omega)
          have s2 := split_run_step (split_ws e (pre ++ (91 :: n ++ [0])) 10
            (render (l' :: ls') ++ [0]) (by decide) (by simp at he ⊢; omega))
          have e1 : pre ++ ((91 :: n ++ [93]) ++ 10 :: render (l' :: ls') ++ [0]) =
              pre ++ (91 :: n ++ [93]) ++ 10 :: (render (l' :: ls') ++ [0]) := by simp
          have e2 : pre ++ (91 :: n ++ [0]) ++ 0 :: (render (l' :: ls') ++ [0]) =
              (pre ++ (91 :: n ++ [0, 0])) ++ (render (l' :: ls') ++ [0]) := by simp
          have e3 : (pre ++ (91 :: n ++ [0])).length + 1 = (pre ++ (91 :: n ++ [0, 0])).length := by
            simp; omega
          rw [e1, s1, s2, e2, e3, ih (l' :: ls') (pre ++ (91 :: n ++ [0, 0])) e hm' hwf'
            (by simp at he ⊢; omega)]
          simp [lay, flat, replicate_two_zero]
        | assign k v =>
          simp only [Line.text, Line.wf] at he hl ⊢
          have s1 := split_lines_assign e pre k v 10 (render (l' :: ls') ++ [0]) hl.1 hl.2
            (Or.inr rfl) (by simp at he; omega)
          have s2 := split_run_step (split_ws e (pre ++ (k ++ 0 :: v)) 10
            (render (l' :: ls') ++ [0]) (by decide) (by simp at he ⊢; omega))
          have e1 : pre ++ ((k ++ 61 :: v) ++ 10 :: render (l' :: ls') ++ [0]) =
              pre ++ (k ++ 61 :: v) ++ 10 :: (render (l' :: ls') ++ [0]) := by simp
          have e2 : pre ++ (k ++ 0 :: v) ++ 0 :: (render (l' :: ls') ++ [0]) =
              (pre ++ (k ++ 0 :: (v ++ [0]))) ++ (render (l' :: ls') ++ [0]) := by simp
          have e3 : (pre ++ (k ++ 0 :: v)).length + 1 = (pre ++ (k ++ 0 :: (v ++ [0]))).length := by
            simp; omega
          rw [e1, s1, s2, e2, e3, ih (l' :: ls') (pre ++ (k ++ 0 :: (v ++ [0]))) e hm' hwf'
            (by simp at he ⊢; omega)]
          simp [lay, flat, replicate_one_zero]

theorem lay_wf : ∀ (m : Nat) (ls : List Line), ls.length = m → (∀ l ∈ ls, l.wf) →
    Lay (lay ls) ∧ ∀ x ∈ lay ls, x.1.head? ≠ some 34 := by
  intro m
  induction m with
  | zero =>
    intro ls hm _
    have : ls = [] := List.length_eq_zero.1 hm
    subst this
    simp [lay, Lay]
  | succ m ih =>
    intro ls hm hwf
    cases ls with
    | nil => simp at hm
    | cons l ls =>
      have hl := hwf l (List.mem_cons_self _ _)
      have w0 : ∀ w, word w → 0 ∉ w := fun w hw h0 => (alnum_ne (hw.2 0 h0)).1 rfl
      have w34 : ∀ w, word w → w.head? ≠ some 34 := fun w hw h =>
        (alnum_ne (word_head? hw h)).2.2.2.2.2.1 rfl
      cases ls with
      | nil =>
        cases l with
        | header n =>
          simp only [Line.wf] at hl
          refine ⟨⟨by simp, ?_, by simp, trivial⟩, by simp [lay]⟩
          intro h
          rcases List.mem_cons.1 h with h | h
          · cases h
          · exact w0 n hl h
        | assign k v =>
          simp only [Line.wf] at hl
          refine ⟨⟨hl.1.1, w0 k hl.1, by simp, hl.2.1, w0 v hl.2, by simp, trivial⟩, ?_⟩
          intro x hx
          simp only [lay, List.mem_cons, List.mem_singleton, List.not_mem_nil, or_false] at hx
          rcases hx with rfl | rfl
          · exact w34 k hl.1
          · exact w34 v hl.2
      | cons l' ls' =>
        have hwf' : ∀ x ∈ l' :: ls', x.wf := fun x hx => hwf x (List.mem_cons_of_mem _ hx)
        have hm' : (l' :: ls').length = m := by simpa using hm
        obtain ⟨h1, h2⟩ := ih (l' :: ls') hm' hwf'
        cases l with
        | header n =>
          simp only [Line.wf] at hl
          refine ⟨⟨by simp, ?_, by simp, h1⟩, ?_⟩
          · intro h
            rcases List.mem_cons.1 h with h | h
            · cases h
            · exact w0 n hl h
          · intro x hx
            simp only [lay, List.mem_cons] at hx
            rcases hx with rfl | hx
            · simp
            · exact h2 x hx
        | assign k v =>
          simp only [Line.wf] at hl
          refine ⟨⟨hl.1.1, w0 k hl.1, by simp, hl.2.1, w0 v hl.2, by simp, h1⟩, ?_⟩
          intro x hx
          simp only [lay, List.mem_cons] at hx
          rcases hx with rfl | rfl | hx
          · exact w34 k hl.1
          · exact w34 v hl.2
          · exact h2 x hx

/-- What `ini_load` makes of a well-formed text. -/
theorem ini_load_lines (ls : List Line) (hwf : ∀ l ∈ ls, l.wf) :
    ini_load (render ls) =
      .ok { data := flat (lay ls) ++ [0], end_ := (render ls).length } := by
  unfold ini_load
  rw [split_data_eq]
  simp only
  have := split_lines ls.length ls [] (render ls).length rfl hwf (by simp)
  simp only [List.nil_append, List.length_nil] at this
  rw [this]
  simp only [Res.bind_ok]
  obtain ⟨h1, h2⟩ := lay_wf ls.length ls rfl hwf
  have hu := unescape_lay 0 (lay ls) (render ls).length h1 h2 (by
    have hlen := split_loop_length _ _ _ _ _ this
    simp only [List.replicate_zero, List.nil_append]
    rw [hlen]; simp)
  simp only [List.replicate_zero, List.nil_append] at hu
  exact hu

theorem get_lay_lines (sec : Option (List Nat)) (key : List Nat) :
    ∀ (m : Nat) (ls : List Line) (off : Nat) (cur : List Nat), ls.length = m →
      (∀ l ∈ ls, l.wf) →
      get_lay sec key off cur (lay ls) =
        (first_match sec key (entries off cur ls)).map (·.offset) := by
  intro m
  induction m with
  | zero =>
    intro ls off cur hm _
    have : ls = [] := List.length_eq_zero.1 hm
    subst this
    simp [lay, get_lay_nil, entries, first_match]
  | succ m ih =>
    intro ls off cur hm hwf
    cases ls with
    | nil => simp at hm
    | cons l ls =>
      have hl := hwf l (List.mem_cons_self _ _)
      have w91 : ∀ w, word w → ¬ w.head? = some 91 := fun w hw h =>
        (alnum_ne (word_head? hw h)).2.2.2.2.2.2.2.2.1 rfl
      cases ls with
      | nil =>
        cases l with
        | header n =>
          simp [lay, get_lay_cons, get_lay_nil, entries, first_match]
        | assign k v =>
          simp only [Line.wf] at hl
          simp only [lay, entries, first_match, List.find?_cons, List.find?_nil]
          rw [get_lay_cons, if_neg (w91 k hl.1)]
          by_cases hit : (sec_matches sec cur && key_matches k key) = true
          · rw [if_pos hit]; simp [hit]
          · rw [if_neg hit]
            simp only [Bool.not_eq_true] at hit
            simp [get_lay_nil, hit]
      | cons l' ls' =>
        have hwf' : ∀ x ∈ l' :: ls', x.wf := fun x hx => hwf x (List.mem_cons_of_mem _ hx)
        have hm' : (l' :: ls').length = m := by simpa using hm
        cases l with
        | header n =>
          simp only [lay, entries]
          have e1 : off + (91 :: n).length + 2 = off + n.length + 3 := by simp; omega
          rw [get_lay_cons, if_pos (show (91 :: n).head? = some 91 from rfl), List.tail_cons, e1,
            ih (l' :: ls') _ n hm' hwf']
        | assign k v =>
          simp only [Line.wf] at hl
          simp only [lay, entries, first_match, List.find?_cons]
          rw [get_lay_cons, if_neg (w91 k hl.1)]
          by_cases hit : (sec_matches sec cur && key_matches k key) = true
          · rw [if_pos hit]; simp [hit]
          · rw [if_neg hit]
            simp only [Bool.not_eq_true] at hit
            have e1 : off + k.length + 1 + v.length + 1 = off + k.length + v.length + 2 := by
              omega
            simp only [hit]
            rw [e1, ih (l' :: ls') _ cur hm' hwf']
            simp [first_match]

theorem string_at_entries :
    ∀ (m : Nat) (ls : List Line) (pre cur : List Nat) (en : Entry), ls.length = m →
      (∀ l ∈ ls, l.wf) → en ∈ entries pre.length cur ls →
      string_at (pre ++ (flat (lay ls) ++ [0])) en.offset = .ok en.value := by
  intro m
  induction m with
  | zero =>
    intro ls pre cur en hm _ hen
    have : ls = [] := List.length_eq_zero.1 hm
    subst this
    simp [entries] at hen
  | succ m ih =>
    intro ls pre cur en hm hwf hen
    cases ls with
    | nil => simp at hm
    | cons l ls =>
      have hl := hwf l (List.mem_cons_self _ _)
      have w0 : ∀ w, word w → 0 ∉ w := fun w hw h0 => (alnum_ne (hw.2 0 h0)).1 rfl
      cases ls with
      | nil =>
        cases l with
        | header n => simp [entries] at hen
        | assign k v =>
          simp only [Line.wf] at hl
          simp only [entries, List.mem_singleton] at hen
          subst hen
          have e1 : pre ++ (flat (lay [Line.assign k v]) ++ [0]) =
              (pre ++ (k ++ [0])) ++ (v ++ 0 :: []) := by
            simp [lay, flat, replicate_one_zero]
          have e2 : pre.length + k.length + 1 = (pre ++ (k ++ [0])).length := by simp; omega
          simp only
          rw [e1, e2, string_at_run _ v [] (w0 v hl.2)]
      | cons l' ls' =>
        have hwf' : ∀ x ∈ l' :: ls', x.wf := fun x hx => hwf x (List.mem_cons_of_mem _ hx)
        have hm' : (l' :: ls').length = m := by simpa using hm
        cases l with
        | header n =>
          simp only [entries] at hen
          have e1 : pre ++ (flat (lay (Line.header n :: l' :: ls')) ++ [0]) =
              (pre ++ (91 :: n ++ [0, 0])) ++ (flat (lay (l' :: ls')) ++ [0]) := by
            simp [lay, flat, replicate_two_zero]
          have e2 : pre.length + n.length + 3 = (pre ++ (91 :: n ++ [0, 0])).length := by
            simp; omega
          rw [e2] at hen
          rw [e1]
          exact ih (l' :: ls') _ n en hm' hwf' hen
        | assign k v =>
          simp only [Line.wf] at hl
          simp only [entries, List.mem_cons] at hen
          rcases hen with rfl | hen
          · have e1 : pre ++ (flat (lay (Line.assign k v :: l' :: ls')) ++ [0]) =
                (pre ++ (k ++ [0])) ++ (v ++ 0 :: (flat (lay (l' :: ls')) ++ [0])) := by
              simp [lay, flat, replicate_one_zero]
            have e2 : pre.length + k.length + 1 = (pre ++ (k ++ [0])).length := by simp; omega
            simp only
            rw [e1, e2, string_at_run _ v _ (w0 v hl.2)]
          · have e1 : pre ++ (flat (lay (Line.assign k v :: l' :: ls')) ++ [0]) =
                (pre ++ (k ++ 0 :: (v ++ [0]))) ++ (flat (lay (l' :: ls')) ++ [0]) := by
              simp [lay, flat, replicate_one_zero]
            have e2 : pre.length + k.length + v.length + 2 =
                (pre ++ (k ++ 0 :: (v ++ [0]))).length := by
              simp; omega
            rw [e2] at hen
            rw [e1]
            exact ih (l' :: ls') _ cur en hm' hwf' hen

/-- The pointer `ini_get` returns on a well-formed text: the offset of the
value of the first matching assignment. -/
theorem ini_get_lines (ls : List Line) (hwf : ∀ l ∈ ls, l.wf) (sec : Option (List Nat))
    (key : List Nat) (hk : 0 ∉ key) (hs : ∀ s, sec = some s → 0 ∉ s) :
    ini_get { data := flat (lay ls) ++ [0], end_ := (render ls).length } sec key =
      .ok ((first_match sec key (entries 0 [] ls)).map (·.offset)) := by
  obtain ⟨h1, _⟩ := lay_wf ls.length ls rfl hwf
  have hload := ini_load_lines ls hwf
  have hlen := (ini_load_length hload).1
  simp only at hlen
  have := ini_get_lay 0 (lay ls) (render ls).length h1
    (by simp only [List.replicate_zero, List.nil_append]; omega) sec key hk hs
  simp only [List.replicate_zero, List.nil_append] at this
  rw [this, get_lay_lines sec key ls.length ls 0 [] rfl hwf]

/-- The string the lookup returns on a well-formed text: the value of the
first matching assignment. -/
theorem lookup_lines (ls : List Line) (hwf : ∀ l ∈ ls, l.wf) (sec : Option (List Nat))
    (key : List Nat) (hk : 0 ∉ key) (hs : ∀ s, sec = some s → 0 ∉ s) :
    lookup (render ls) sec key =
      .ok ((first_match sec key (entries 0 [] ls)).map (·.value)) := by
  unfold lookup
  rw [ini_load_lines ls hwf]
  simp only [Res.bind_ok]
  rw [ini_get_lines ls hwf sec key hk hs]
  simp only [Res.bind_ok]
  cases hfm : first_match sec key (entries 0 [] ls) with
  | none => rfl
  | some en =>
    have hmem : en ∈ entries 0 [] ls := List.mem_of_find?_eq_some hfm
    have := string_at_entries ls.length ls [] [] en rfl hwf (by simpa using hmem)
    simp only [List.nil_append] at this
    simp only [Option.map_some']
    rw [this]
    rfl

/-! ## Quoted values -/

theorem esc_ne_zero {c : Nat} (h : c ≠ 0) : esc c ≠ 0 := by
  unfold esc
  split
  · omega
  · split
    · omega
    · split
      · omega
      · exact h

theorem memset_run (pre : List Nat) :
    ∀ (n : Nat) (J rest : List Nat), J.length = n →
      memset pre.length 0 n (pre ++ (J ++ rest)) = .ok (pre ++ (List.replicate n 0 ++ rest)) := by
  intro n
  induction n with
  | zero =>
    intro J rest hJ
    have : J = [] := List.length_eq_zero.1 hJ
    subst this
    simp [memset]
  | succ n ih =>
    intro J rest hJ
    obtain ⟨J', x, rfl⟩ : ∃ J' x, J = J' ++ [x] := by
      have hne : J ≠ [] := by intro h; rw [h] at hJ; simp at hJ
      exact ⟨J.dropLast, J.getLast hne, (List.dropLast_append_getLast hne).symm⟩
    have hlen : J'.length = n := by simpa using hJ
    have hw := wr_at2 pre J' x rest 0
    rw [hlen] at hw
    simp only [memset]
    have e1 : pre ++ ((J' ++ [x]) ++ rest) = pre ++ (J' ++ x :: rest) := by simp
    rw [e1, hw]
    simp only [Res.bind_ok]
    rw [ih J' (0 :: rest) hlen]
    congr 2
    rw [List.replicate_succ']
    simp

theorem quote_normal (pre : List Nat) (g c : Nat) (G rem : List Nat) (hg : g ≠ 0)
    (hc92 : c ≠ 92) (hc34 : c ≠ 34) :
    quote_body (pre ++ (g :: G ++ c :: rem), pre.length, pre.length + (g :: G).length) =
      .ok (.again ((pre ++ [c]) ++ ((G ++ [c]) ++ rem), (pre ++ [c]).length,
        (pre ++ [c]).length + (G ++ [c]).length)) := by
  have hq : rd (pre ++ (g :: G ++ c :: rem)) pre.length = .ok g := by
    have := rd_at pre g (G ++ c :: rem)
    simpa using this
  have hp : rd (pre ++ (g :: G ++ c :: rem)) (pre.length + (g :: G).length) = .ok c :=
    rd_at2 pre (g :: G) c rem
  have hw : wr (pre ++ (g :: G ++ c :: rem)) pre.length c = .ok (pre ++ c :: (G ++ c :: rem)) := by
    have := wr_at pre g (G ++ c :: rem) c
    simpa using this
  simp only [quote_body, hq, Res.bind_ok, if_pos hg, hp, if_neg hc92, if_neg hc34, hw]
  congr 3
  · simp
  · congr 1
    · simp
    · simp; omega

theorem quote_escape (pre : List Nat) (g c : Nat) (G rem : List Nat) (hg : g ≠ 0) :
    quote_body (pre ++ (g :: G ++ 92 :: c :: rem), pre.length, pre.length + (g :: G).length) =
      .ok (.again ((pre ++ [esc c]) ++ ((G ++ [92, c]) ++ rem), (pre ++ [esc c]).length,
        (pre ++ [esc c]).length + (G ++ [92, c]).length)) := by
  have hq : rd (pre ++ (g :: G ++ 92 :: c :: rem)) pre.length = .ok g := by
    have := rd_at pre g (G ++ 92 :: c :: rem)
    simpa using this
  have hp : rd (pre ++ (g :: G ++ 92 :: c :: rem)) (pre.length + (g :: G).length) = .ok 92 :=
    rd_at2 pre (g :: G) 92 (c :: rem)
  have hp1 : rd (pre ++ (g :: G ++ 92 :: c :: rem)) (pre.length + (g :: G).length + 1) = .ok c := by
    have := rd_at2 pre (g :: G ++ [92]) c rem
    simp only [List.append_assoc, List.singleton_append, List.length_append,
      List.length_singleton, List.cons_append, List.length_cons] at this ⊢
    rw [← this]
    congr 1
  have hw : wr (pre ++ (g :: G ++ 92 :: c :: rem)) pre.length (esc c) =
      .ok (pre ++ esc c :: (G ++ 92 :: c :: rem)) := by
    have := wr_at pre g (G ++ 92 :: c :: rem) (esc c)
    simpa using this
  have hesc : (if c = 114 then 13 else if c = 110 then 10 else if c = 116 then 9 else c) = esc c :=
    rfl
  simp only [quote_body, hq, Res.bind_ok, if_pos hg, hp, if_true, hp1, hesc, hw]
  congr 3
  · simp
  · congr 1
    · simp
    · simp; omega

theorem quote_close (pre : List Nat) (g : Nat) (G tl : List Nat) (hg : g ≠ 0) :
    quote_body (pre ++ (g :: G ++ 34 :: tl), pre.length, pre.length + (g :: G).length) =
      .ok (.leave (pre ++ (0 :: G ++ 34 :: tl), pre.length, pre.length + (g :: G).length)) := by
  have hq : rd (pre ++ (g :: G ++ 34 :: tl)) pre.length = .ok g := by
    have := rd_at pre g (G ++ 34 :: tl)
    simpa using this
  have hp : rd (pre ++ (g :: G ++ 34 :: tl)) (pre.length + (g :: G).length) = .ok 34 :=
    rd_at2 pre (g :: G) 34 tl
  have hw : wr (pre ++ (g :: G ++ 34 :: tl)) pre.length 0 = .ok (pre ++ 0 :: (G ++ 34 :: tl)) := by
    have := wr_at pre g (G ++ 34 :: tl) 0
    simpa using this
  simp only [quote_body, hq, Res.bind_ok, if_pos hg, hp, hw, if_true]
  rfl

theorem decode_normal {c : Nat} (h : c ≠ 92) (r : List Nat) : decode (c :: r) = c :: decode r := by
  cases r with
  | nil => simp [decode]
  | cons d r => simp [decode, h]

theorem escaped_normal {c : Nat} (h : c ≠ 92) (r : List Nat) :
    escaped (c :: r) = (c != 34 && escaped r) := by
  cases r with
  | nil => simp [escaped, h]
  | cons d r => simp [escaped, h]

theorem decode_escape (d : Nat) (r : List Nat) : decode (92 :: d :: r) = esc d :: decode r := by
  simp [decode]

theorem escaped_escape (d : Nat) (r : List Nat) : escaped (92 :: d :: r) = escaped r := by
  simp [escaped]

/-- The loop over a quoted string: the decoded body is written over the
opening quote and the body, and the loop stops at the closing quote. -/
theorem quote_loop_run (tl : List Nat) :
    ∀ (n : Nat) (rem pre G : List Nat), rem.length ≤ n → escaped rem = true → 0 ∉ rem →
      G ≠ [] → 0 ∉ G → ∀ f, rem.length < f →
      ∃ J, J.length + (decode rem).length = G.length + rem.length ∧
        iterate quote_body f (pre ++ (G ++ (rem ++ 34 :: tl)), pre.length, pre.length + G.length) =
          .ok (pre ++ (decode rem ++ (J ++ 34 :: tl)), pre.length + (decode rem).length,
            pre.length + G.length + rem.length) := by
  intro n
  induction n using Nat.strong_induction_on with
  | _ n ih =>
    intro rem pre G hn hesc h0 hG hG0 f hf
    obtain ⟨g, G', rfl⟩ : ∃ g G', G = g :: G' := by
      cases G with
      | nil => exact absurd rfl hG
      | cons g G' => exact ⟨g, G', rfl⟩
    have hg : g ≠ 0 := fun h => hG0 (by simp [h])
    have hG'0 : 0 ∉ G' := fun h => hG0 (List.mem_cons_of_mem _ h)
    cases f with
    | zero => omega
    | succ f =>
      cases rem with
      | nil =>
        refine ⟨0 :: G', by simp [decode], ?_⟩
        have := quote_close pre g G' tl hg
        simp only [List.nil_append, decode, List.length_nil, Nat.add_zero]
        rw [iterate_leave this]
      | cons c rem' =>
        have hc0 : c ≠ 0 := fun h => h0 (by simp [h])
        have hrem0 : 0 ∉ rem' := fun h => h0 (List.mem_cons_of_mem _ h)
        by_cases h92 : c = 92
        · subst h92
          cases rem' with
          | nil => simp [escaped] at hesc
          | cons d rest =>
            have hd0 : d ≠ 0 := fun h => hrem0 (by simp [h])
            have hrest0 : 0 ∉ rest := fun h => hrem0 (List.mem_cons_of_mem _ h)
            rw [escaped_escape] at hesc
            obtain ⟨J, hJ, hrun⟩ := ih (n - 1) (by simp at hn; omega) rest (pre ++ [esc d])
              (G' ++ [92, d]) (by simp at hn; omega) hesc hrest0 (by simp)
              (by
                intro h
                rcases List.mem_append.1 h with h | h
                · exact hG'0 h
                · simp at h; omega) f (by simp at hf; omega)
            refine ⟨J, ?_, ?_⟩
            · rw [decode_escape]
              simp at hJ ⊢
              omega
            · have hb := quote_escape pre g d G' (rest ++ 34 :: tl) hg
              have e1 : pre ++ (g :: G' ++ (92 :: d :: rest ++ 34 :: tl)) =
                  pre ++ (g :: G' ++ 92 :: d :: (rest ++ 34 :: tl)) := by simp
              have e2 : pre ++ [esc d] ++ (G' ++ [92, d] ++ (rest ++ 34 :: tl)) =
                  pre ++ [esc d] ++ (G' ++ [92, d] ++ (rest ++ 34 :: tl)) := rfl
              rw [e1, iterate_again hb, hrun, decode_escape]
              simp
              omega
        · have h34 : c ≠ 34 := by
            rw [escaped_normal h92] at hesc
            simp at hesc
            exact hesc.1
          have hesc' : escaped rem' = true := by
            rw [escaped_normal h92] at hesc
            simp at hesc
            exact hesc.2
          obtain ⟨J, hJ, hrun⟩ := ih (n - 1) (by simp at hn; omega) rem' (pre ++ [c])
            (G' ++ [c]) (by simp at hn; omega) hesc' hrem0 (by simp)
            (by
              intro h
              rcases List.mem_append.1 h with h | h
              · exact hG'0 h
              · simp at h; omega) f (by simp at hf; omega)
          refine ⟨J, ?_, ?_⟩
          · rw [decode_normal h92]
            simp at hJ ⊢
            omega
          · have hb := quote_normal pre g c G' (rem' ++ 34 :: tl) hg h92 h34
            have e1 : pre ++ (g :: G' ++ (c :: rem' ++ 34 :: tl)) =
                pre ++ (g :: G' ++ c :: (rem' ++ 34 :: tl)) := by simp
            rw [e1, iterate_again hb, hrun, decode_normal h92]
            simp
            omega

theorem decode_no_null : ∀ (n : Nat) (l : List Nat), l.length ≤ n → 0 ∉ l → 0 ∉ decode l := by
  intro n
  induction n using Nat.strong_induction_on with
  | _ n ih =>
    intro l hn h0
    cases l with
    | nil => simp [decode]
    | cons c r =>
      have hc0 : c ≠ 0 := fun h => h0 (by simp [h])
      have hr0 : 0 ∉ r := fun h => h0 (List.mem_cons_of_mem _ h)
      by_cases h92 : c = 92
      · subst h92
        cases r with
        | nil => simp [decode]
        | cons d rest =>
          have hd0 : d ≠ 0 := fun h => hr0 (by simp [h])
          have hrest0 : 0 ∉ rest := fun h => hr0 (List.mem_cons_of_mem _ h)
          rw [decode_escape]
          intro h
          rcases List.mem_cons.1 h with h | h
          · exact esc_ne_zero hd0 h.symm
          · exact ih (n - 2) (by simp at hn; omega) rest (by simp at hn; omega) hrest0 h
      · rw [decode_normal h92]
        intro h
        rcases List.mem_cons.1 h with h | h
        · exact hc0 h.symm
        · exact ih (n - 1) (by simp at hn; omega) r (by simp at hn; omega) hr0 h

theorem unescape_eq (ini : ini_t) :
    unescape_quoted_strings ini = (first_token ini.data ini.end_).bind fun p =>
      (unescape_run ini.end_ (ini.data, p)).bind fun b => .ok { ini with data := b } := rfl

theorem unescape_run_step' {e : Nat} {s s' : List Nat × Nat}
    (h : unescape_body e s = .ok (.again s')) : unescape_run e s = unescape_run e s' :=
  unescape_run_step h

theorem unescape_run_end {e : Nat} {b : List Nat} {p : Nat} (h : ¬ p < e) :
    unescape_run e (b, p) = .ok b := by
  apply iterate_leave
  simp [unescape_body, h]

/-- The unescape pass on a key and a quoted value behind it. -/
theorem unescape_quoted (k body : List Nat) (hk : word k) (hb0 : 0 ∉ body)
    (hesc : escaped body = true) (e : Nat) (he : e = k.length + body.length + 3) :
    ∃ j, j + (decode body).length = body.length + 2 ∧
      unescape_quoted_strings { data := k ++ 0 :: 34 :: (body ++ [34, 0]), end_ := e } =
        .ok { data := k ++ 0 :: (decode body ++ (List.replicate j 0 ++ [0])), end_ := e } := by
  have hk0 : 0 ∉ k := fun h0 => (alnum_ne (hk.2 0 h0)).1 rfl
  have hlay : Lay [(k, 1), (34 :: body ++ [34], 0)] := by
    refine ⟨hk.1, hk0, fun _ => by omega, by simp, ?_, fun h => absurd rfl h, trivial⟩
    intro h
    simp at h
    exact hb0 h
  have eB : k ++ 0 :: 34 :: (body ++ [34, 0]) =
      List.replicate 0 0 ++ (flat [(k, 1), (34 :: body ++ [34], 0)] ++ [0]) := by
    simp [flat, replicate_one_zero]
  have helen : e + 1 = (List.replicate 0 0 ++
      (flat [(k, 1), (34 :: body ++ [34], 0)] ++ [0])).length := by
    rw [← eB]; simp; omega
  have hft : first_token (k ++ 0 :: 34 :: (body ++ [34, 0])) e = .ok 0 := by
    rw [eB]; exact first_token_lay 0 _ e hlay helen
  -- the key is skipped
  obtain ⟨c, t, hct, hc⟩ := word_head hk
  have hc34 : c ≠ 34 := (alnum_ne hc).2.2.2.2.2.1
  have hn1 : next (k ++ 0 :: 34 :: (body ++ [34, 0])) e 0 = .ok (k.length + 1) := by
    have := next_mid [] k 0 34 (body ++ [34, 0]) e hk0 (by decide) (by simp; omega)
    simpa using this
  have hr1 : rd (k ++ 0 :: 34 :: (body ++ [34, 0])) 0 = .ok c := by
    rw [hct]; simp [rd]
  have s1 : unescape_body e (k ++ 0 :: 34 :: (body ++ [34, 0]), 0) =
      .ok (.again (k ++ 0 :: 34 :: (body ++ [34, 0]), k.length + 1)) := by
    simp only [unescape_body, hr1, Res.bind_ok, if_neg hc34, hn1]
    rw [if_pos (by omega)]
  -- the quoted string
  obtain ⟨J, hJ, hrun⟩ := quote_loop_run [0] body.length body (k ++ [0]) [34] (le_refl _) hesc
    hb0 (by simp) (by simp) ((k ++ 0 :: 34 :: (body ++ [34, 0])).length + 1) (by simp; omega)
  have eB2 : (k ++ [0]) ++ ([34] ++ (body ++ 34 :: [0])) = k ++ 0 :: 34 :: (body ++ [34, 0]) := by
    simp
  have el : (k ++ [0]).length = k.length + 1 := by simp
  rw [eB2, el] at hrun
  simp only [List.length_singleton] at hrun hJ
  have hr2 : rd (k ++ 0 :: 34 :: (body ++ [34, 0])) (k.length + 1) = .ok 34 := by
    have := rd_at (k ++ [0]) 34 (body ++ [34, 0])
    rw [el] at this
    simpa using this
  have hn2 : next ((k ++ [0]) ++ (decode body ++ (J ++ 34 :: [0]))) e
      (k.length + 1 + 1 + body.length) = .ok e := by
    have := next_end ((k ++ [0]) ++ (decode body ++ J)) [34] 0 e (by simp)
      (by simp; omega)
    have e3 : ((k ++ [0]) ++ (decode body ++ J)).length = k.length + 1 + 1 + body.length := by
      simp; omega
    rw [e3] at this
    simpa using this
  have hms : memset (k.length + 1 + (decode body).length) 0 (e - (k.length + 1 + (decode body).length))
      ((k ++ [0]) ++ (decode body ++ (J ++ 34 :: [0]))) =
      .ok (k ++ 0 :: (decode body ++ (List.replicate (J.length + 1) 0 ++ [0]))) := by
    have := memset_run ((k ++ [0]) ++ decode body) (J.length + 1) (J ++ [34]) [0] (by simp)
    have e4 : ((k ++ [0]) ++ decode body).length = k.length + 1 + (decode body).length := by
      simp; omega
    have e5 : e - (k.length + 1 + (decode body).length) = J.length + 1 := by omega
    rw [e4] at this
    rw [e5]
    simpa using this
  have s2 : unescape_body e (k ++ 0 :: 34 :: (body ++ [34, 0]), k.length + 1) =
      .ok (.again (k ++ 0 :: (decode body ++ (List.replicate (J.length + 1) 0 ++ [0])), e)) := by
    simp only [unescape_body, hr2, Res.bind_ok, if_true, hrun, hn2]
    rw [if_pos (by omega), if_neg (by omega), hms]
    rfl
  refine ⟨J.length + 1, by omega, ?_⟩
  rw [unescape_eq]
  simp only [hft, Res.bind_ok]
  rw [unescape_run_step' s1, unescape_run_step' s2, unescape_run_end (Nat.lt_irrefl e)]
  rfl

/-- The claim on quoted values: the lookup of the key of `k="body"` returns
the decoded body. -/
theorem lookup_quoted (k body : List Nat) (sec : Option (List Nat)) (hk : word k)
    (hb0 : 0 ∉ body) (hb10 : 10 ∉ body) (hesc : escaped body = true) (hne : decode body ≠ [])
    (hsec : sec = none ∨ sec = some []) :
    lookup (k ++ [61, 34] ++ body ++ [34]) sec k = .ok (some (decode body)) := by
  have hk0 : 0 ∉ k := fun h0 => (alnum_ne (hk.2 0 h0)).1 rfl
  obtain ⟨kinit, klast, hkeq, hkl⟩ := init_last hk.1
  have hsplit := split_line [] kinit klast [] [] (34 :: body) 34 [] [] (by simp)
    (fun c hc => by
      have := alnum_ne (word_head? hk (hkeq ▸ hc))
      omega)
    (fun x hx => by
      have := alnum_ne (hk.2 x (hkeq ▸ hx))
      omega)
    (by
      have := alnum_ne (word_last? hk hkl)
      omega)
    (by simp) (by simp) (by simp)
    (by
      intro x hx
      simp only [List.cons_append, List.mem_cons, List.mem_append, List.mem_singleton,
        List.not_mem_nil, or_false] at hx
      rcases hx with rfl | hx | rfl
      · simp
      · exact ⟨fun h => hb0 (h ▸ hx), fun h => hb10 (h ▸ hx)⟩
      · simp)
    (by decide) (by simp) (Or.inl rfl) (k.length + body.length + 3)
    (by rw [hkeq]; simp; omega)
  have e1 : (k ++ [61, 34] ++ body ++ [34]) ++ [0] =
      [] ++ (kinit ++ klast :: ([] ++ 61 :: ([] ++ (34 :: body ++ 34 :: ([] ++ ([] ++ [0])))))) := by
    rw [hkeq]; simp
  have e2 : List.replicate ([] : List Nat).length 0 ++ (kinit ++ klast ::
      (List.replicate ([] : List Nat).length 0 ++ 0 :: (List.replicate ([] : List Nat).length 0 ++
        (34 :: body ++ 34 :: (List.replicate ([] : List Nat).length 0 ++
          (List.replicate ([] : List Nat).length 0 ++ [0])))))) =
      k ++ 0 :: 34 :: (body ++ [34, 0]) := by
    rw [hkeq]; simp
  have e3 : (k ++ [61, 34] ++ body ++ [34]).length = k.length + body.length + 3 := by
    simp; omega
  obtain ⟨j, hj, hun⟩ := unescape_quoted k body hk hb0 hesc (k.length + body.length + 3) rfl
  have hlay : Lay [(k, 1), (decode body, j)] :=
    ⟨hk.1, hk0, fun _ => by omega, hne, decode_no_null _ _ (le_refl _) hb0,
      fun h => absurd rfl h, trivial⟩
  have e4 : k ++ 0 :: (decode body ++ (List.replicate j 0 ++ [0])) =
      List.replicate 0 0 ++ (flat [(k, 1), (decode body, j)] ++ [0]) := by
    simp [flat, replicate_one_zero]
  have hget := ini_get_lay 0 _ (k.length + body.length + 3) hlay
    (by rw [← e4]; simp; omega) sec k hk0 (by
      intro s hs
      rcases hsec with h | h
      · rw [h] at hs; cases hs
      · rw [h] at hs; cases hs; simp)
  have hsm : sec_matches sec [] = true := by
    rcases hsec with h | h <;> subst h <;> simp [sec_matches]
  have h91 : ¬ k.head? = some 91 := fun h =>
    (alnum_ne (word_head? hk h)).2.2.2.2.2.2.2.2.1 rfl
  rw [get_lay_cons, if_neg h91, if_pos (by simp [hsm, key_matches])] at hget
  unfold lookup ini_load
  rw [e1, e3, hsplit, e2]
  simp only [Res.bind_ok]
  rw [hun]
  simp only [Res.bind_ok]
  rw [e4, hget]
  simp only [Res.bind_ok]
  have e5 : List.replicate 0 0 ++ (flat [(k, 1), (decode body, j)] ++ [0]) =
      (k ++ [0]) ++ (decode body ++ 0 :: List.replicate j 0) := by
    simp [flat, replicate_one_zero]
    rw [← List.replicate_succ, List.replicate_succ']
  have e6 : 0 + k.length + 1 = (k ++ [0]).length := by simp
  rw [e5, e6, string_at_run _ _ _ (decode_no_null _ _ (le_refl _) hb0)]
  rfl

/-! ## Values as the tokenizer cuts them -/

theorem head_dropWhile (p : Nat → Bool) :
    ∀ (l : List Nat) (c : Nat), (l.dropWhile p).head? = some c → p c = false := by
  intro l
  induction l with
  | nil => intro c h; simp at h
  | cons x l ih =>
    intro c h
    rw [List.dropWhile_cons] at h
    split at h
    · exact ih c h
    · simp at h
      rw [← h]
      simpa using ‹¬ p x = true›

theorem head_append_ne {a b : List Nat} (ha : a ≠ []) : (a ++ b).head? = a.head? := by
  cases a with
  | nil => exact absurd rfl ha
  | cons x a => rfl

/-- The text behind `=` is spaces and tabs, the value, and spaces, tabs and
carriage returns. -/
theorem value_split (v : List Nat) (h59 : 59 ∈ v) :
    ∃ ws3 ws4, v = ws3 ++ value_of v ++ ws4 ∧ (∀ x ∈ ws3, x = 32 ∨ x = 9) ∧
      (∀ x ∈ ws4, x = 32 ∨ x = 9 ∨ x = 13) ∧ value_of v ≠ [] ∧
      (value_of v).head? = (v.dropWhile is_blank).head? ∧
      (∀ c, (value_of v).head? = some c → ¬ (c = 32 ∨ c = 9)) ∧
      (∀ c, (value_of v).getLast? = some c → ¬ (c = 32 ∨ c = 9 ∨ c = 13)) := by
  have hrest : v.dropWhile is_blank =
      value_of v ++ ((v.dropWhile is_blank).reverse.takeWhile is_trail).reverse := by
    unfold value_of
    rw [← List.reverse_append, List.takeWhile_append_dropWhile, List.reverse_reverse]
  have hws3 : ∀ x ∈ v.takeWhile is_blank, x = 32 ∨ x = 9 := by
    intro x hx
    have := List.mem_takeWhile_imp hx
    simpa [is_blank] using this
  have hws4 : ∀ x ∈ ((v.dropWhile is_blank).reverse.takeWhile is_trail).reverse,
      x = 32 ∨ x = 9 ∨ x = 13 := by
    intro x hx
    have := List.mem_takeWhile_imp (List.mem_reverse.1 hx)
    simp [is_trail] at this
    omega
  have hv : v = v.takeWhile is_blank ++ value_of v ++
      ((v.dropWhile is_blank).reverse.takeWhile is_trail).reverse := by
    rw [List.append_assoc, ← hrest, List.takeWhile_append_dropWhile]
  have hne : value_of v ≠ [] := by
    intro h0
    rw [hv, h0] at h59
    simp only [List.append_nil, List.mem_append] at h59
    rcases h59 with h | h
    · have := hws3 59 h; omega
    · have := hws4 59 h; omega
  have hhead : (value_of v).head? = (v.dropWhile is_blank).head? := by
    have := head_append_ne (b := ((v.dropWhile is_blank).reverse.takeWhile is_trail).reverse) hne
    rw [← hrest] at this
    exact this.symm
  refine ⟨_, _, hv, hws3, hws4, hne, hhead, ?_, ?_⟩
  · intro c hc
    rw [hhead] at hc
    have := head_dropWhile is_blank v c hc
    simpa [is_blank] using this
  · intro c hc
    have h1 : (value_of v).reverse.head? = some c := by
      rw [List.head?_reverse]; exact hc
    unfold value_of at h1
    rw [List.reverse_reverse] at h1
    have := head_dropWhile is_trail _ c h1
    simp [is_trail] at this
    omega

/-! ## Assignments before the first section header -/

theorem entries_offset_gt :
    ∀ (ls : List Line) (off : Nat) (cur : List Nat) (en : Entry),
      en ∈ entries off cur ls → off < en.offset := by
  intro ls
  induction ls with
  | nil => intro off cur en h; simp [entries] at h
  | cons l ls ih =>
    intro off cur en h
    cases l with
    | header n =>
      simp only [entries] at h
      have := ih _ _ en h
      omega
    | assign k v =>
      simp only [entries, List.mem_cons] at h
      rcases h with rfl | h
      · simp only; omega
      · have := ih _ _ en h
        omega

theorem first_match_top_hit (sec : Option (List Nat)) (key cur : List Nat) (rest : List Line)
    (hsec : sec_matches sec cur = true) :
    ∀ (top : List (List Nat × List Nat)) (off : Nat) (kv : List Nat × List Nat),
      top.find? (fun p => key_matches p.1 key) = some kv →
      (first_match sec key
        (entries off cur (top.map (fun p => Line.assign p.1 p.2) ++ rest))).map (·.value) =
        some kv.2 := by
  intro top
  induction top with
  | nil => intro off kv h; simp at h
  | cons p top ih =>
    intro off kv h
    simp only [List.map_cons, List.cons_append, entries, first_match, List.find?_cons] at h ⊢
    by_cases hm : key_matches p.1 key = true
    · simp only [hm] at h
      cases h
      simp [hsec, hm]
    · simp only [Bool.not_eq_true] at hm
      simp only [hm] at h
      simp only [hsec, hm, Bool.and_false]
      exact ih _ kv h

theorem first_match_top_skip (sec : Option (List Nat)) (key cur : List Nat) (rest : List Line)
    (hsec : sec_matches sec cur = false) :
    ∀ (top : List (List Nat × List Nat)) (off : Nat),
      first_match sec key (entries off cur (top.map (fun p => Line.assign p.1 p.2) ++ rest)) =
        first_match sec key
          (entries (off + (top.map (fun p => p.1.length + p.2.length + 2)).sum) cur rest) := by
  intro top
  induction top with
  | nil => intro off; simp
  | cons p top ih =>
    intro off
    have := ih (off + p.1.length + p.2.length + 2)
    have e1 : off + p.1.length + p.2.length + 2 +
        (top.map (fun p => p.1.length + p.2.length + 2)).sum =
        off + ((p :: top).map (fun p => p.1.length + p.2.length + 2)).sum := by
      simp only [List.map_cons, List.sum_cons]; omega
    rw [e1] at this
    rw [← this]
    simp only [List.map_cons, List.cons_append, entries, first_match, List.find?_cons, hsec,
      Bool.false_and]
    rfl

theorem render_top_length :
    ∀ (top : List (List Nat × List Nat)),
      (render (top.map (fun p => Line.assign p.1 p.2))).length ≤
        (top.map (fun p => p.1.length + p.2.length + 2)).sum := by
  intro top
  induction top with
  | nil => simp [render_nil]
  | cons p top ih =>
    cases top with
    | nil => simp [render_one, Line.text]; omega
    | cons p' top' =>
      simp only [List.map_cons] at ih ⊢
      rw [render_cons]
      simp only [Line.text, List.length_append, List.length_cons, List.sum_cons] at ih ⊢
      omega

/-! ## The state in which a loop is left -/

theorem iterate_exit_of_ok {σ α : Type} (body : σ → Res (Ctl σ α)) :
    ∀ f s a, iterate body f s = .ok a →
      ∃ s', iterate_exit body f s = .ok s' ∧ body s' = .ok (.leave a) := by
  intro f
  induction f with
  | zero => intro s a h; simp [iterate] at h
  | succ f ih =>
    intro s a h
    simp only [iterate] at h
    simp only [iterate_exit]
    cases hb : body s with
    | ok c =>
      rw [hb] at h
      cases c with
      | again s1 => exact ih s1 a h
      | leave a1 =>
        simp only at h
        cases h
        exact ⟨s, rfl, hb⟩
    | oob => rw [hb] at h; cases h
    | timeout => rw [hb] at h; cases h

theorem iterate_exit_inv {σ α : Type} (body : σ → Res (Ctl σ α)) (I : σ → Prop)
    (h1 : ∀ s s', I s → body s = .ok (.again s') → I s') :
    ∀ f s s', I s → iterate_exit body f s = .ok s' → I s' := by
  intro f
  induction f with
  | zero => intro s s' _ h; simp [iterate_exit] at h
  | succ f ih =>
    intro s s' hI h
    simp only [iterate_exit] at h
    cases hb : body s with
    | ok c =>
      rw [hb] at h
      cases c with
      | again s1 => exact ih s1 s' (h1 s s1 hI hb) h
      | leave a1 =>
        simp only at h
        cases h
        exact hI
    | oob => rw [hb] at h; cases h
    | timeout => rw [hb] at h; cases h

theorem iterate_trace_inv {σ α : Type} (body : σ → Res (Ctl σ α)) (I : σ → Prop)
    (h1 : ∀ s s', I s → body s = .ok (.again s') → I s') :
    ∀ f s, I s → ∀ t ∈ iterate_trace body f s, I t := by
  intro f
  induction f with
  | zero => intro s _ t ht; simp [iterate_trace] at ht
  | succ f ih =>
    intro s hI t ht
    simp only [iterate_trace, List.mem_cons] at ht
    rcases ht with ht | ht
    · rw [ht]; exact hI
    · cases hb : body s with
      | ok c =>
        rw [hb] at ht
        cases c with
        | again s1 => exact ih s1 (h1 s s1 hI hb) t ht
        | leave a1 => simp at ht
      | oob => rw [hb] at ht; simp at ht
      | timeout => rw [hb] at ht; simp at ht

/-! ## The tokenizer comes to its end inside the buffer -/

theorem strcspn_from_total (rej : List Nat) :
    ∀ m : List Nat, 0 ∈ m → ∃ n, strcspn_from rej m = .ok n := by
  intro m
  induction m with
  | nil => intro h; simp at h
  | cons c m ih =>
    intro h
    by_cases hc : c = 0 ∨ c ∈ rej
    · exact ⟨0, by simp only [strcspn_from, if_pos hc]⟩
    · have hm : 0 ∈ m := by
        rcases List.mem_cons.1 h with h | h
        · exact absurd h.symm (fun h0 => hc (Or.inl h0))
        · exact h
      obtain ⟨n, hn⟩ := ih hm
      exact ⟨n + 1, by simp only [strcspn_from, if_neg hc, hn, Res.bind_ok]⟩

theorem strcspn_total {b : List Nat} {e p : Nat} (hT : Terminated b e) (hp : p ≤ e)
    (rej : List Nat) : ∃ n, strcspn b p rej = .ok n ∧ p + n ≤ e := by
  obtain ⟨n, hn⟩ := strcspn_from_total rej _ (null_mem_drop hT hp)
  have hlt : p + n < b.length := strcspn_lt hn
  rw [hT.1] at hlt
  exact ⟨n, hn, by omega⟩

theorem wr_total {b : List Nat} {p : Nat} (c : Nat) (h : p < b.length) :
    wr b p c = .ok (b.set p c) := by
  simp [wr, h]

theorem terminated_wr {b b' : List Nat} {e p : Nat} (hT : Terminated b e)
    (h : wr b p 0 = .ok b') : Terminated b' e :=
  ⟨by rw [wr_length h]; exact hT.1, wr_keep h hT.2 (fun _ => rfl)⟩

theorem trim_back_total (p c : Nat) (hc : ¬ (c = 32 ∨ c = 9 ∨ c = 13)) :
    ∀ d b, b[p]? = some c → p + d < b.length → ∃ b', trim_back (p + 1 + d) b = .ok b' := by
  intro d
  induction d with
  | zero =>
    intro b hb _
    have h1 : rd b p = .ok c := rd_eq_ok.2 hb
    exact ⟨b, by simp only [Nat.add_zero, trim_back, h1, Res.bind_ok, if_neg hc]⟩
  | succ d ih =>
    intro b hb hlt
    have e2 : p + 1 + (d + 1) = (p + 1 + d) + 1 := by omega
    rw [e2]
    simp only [trim_back]
    have hlt' : p + 1 + d < b.length := by omega
    have hr : rd b (p + 1 + d) = .ok b[p + 1 + d] := by
      rw [rd_eq_ok]; exact List.getElem?_eq_getElem hlt'
    rw [hr]
    simp only [Res.bind_ok]
    by_cases hx : b[p + 1 + d] = 32 ∨ b[p + 1 + d] = 9 ∨ b[p + 1 + d] = 13
    · rw [if_pos hx, wr_total 0 hlt']
      simp only [Res.bind_ok]
      apply ih
      · rw [List.getElem?_set_ne (by omega)]; exact hb
      · rw [List.length_set]; omega
    · rw [if_neg hx]
      exact ⟨b, rfl⟩

theorem eq_loop_total {b : List Nat} {e p : Nat} (hT : Terminated b e) (hp : p < e) :
    ∃ s, iterate eq_body (b.length + 1) (b, p) = .ok s ∧ s.2 ≤ e := by
  refine iterate_total eq_body (fun s => Terminated s.1 e ∧ s.2 < e) (fun s => s.2 ≤ e) left
    ?_ _ (b, p) ⟨hT, hp⟩ (by show b.length - p < b.length + 1; omega)
  rintro ⟨b1, p1⟩ ⟨hT1, hp1⟩
  simp only at hT1 hp1
  have hl : p1 < b1.length := by rw [hT1.1]; omega
  have hw := wr_total 0 hl
  have hT2 := terminated_wr hT1 hw
  obtain ⟨c, hc⟩ := rd_of_terminated hT2 (show p1 + 1 ≤ e by omega)
  by_cases hws : c = 32 ∨ c = 9
  · left
    refine ⟨(b1.set p1 0, p1 + 1), ?_, ⟨hT2, ?_⟩, ?_⟩
    · simp only [eq_body, hw, Res.bind_ok, hc, if_pos hws]
    · show p1 + 1 < e
      by_contra hne
      have : p1 + 1 = e := by omega
      rw [this, rd_eq_ok, hT2.2] at hc
      cases hc
      omega
    · show (b1.set p1 0).length - (p1 + 1) < b1.length - p1
      rw [List.length_set]; omega
  · right
    exact ⟨(b1.set p1 0, p1 + 1), by simp only [eq_body, hw, Res.bind_ok, hc, if_neg hws],
      by show p1 + 1 ≤ e; omega⟩

theorem semi_loop_total {b : List Nat} {e p : Nat} (hT : Terminated b e) (hp : p ≤ e) :
    ∃ s, iterate semi_body (b.length + 1) (b, p) = .ok s ∧ s.2 ≤ e := by
  refine iterate_total semi_body (fun s => Terminated s.1 e ∧ s.2 ≤ e) (fun s => s.2 ≤ e) left
    ?_ _ (b, p) ⟨hT, hp⟩ (by show b.length - p < b.length + 1; omega)
  rintro ⟨b1, p1⟩ ⟨hT1, hp1⟩
  simp only at hT1 hp1
  have hl : p1 < b1.length := by rw [hT1.1]; omega
  obtain ⟨c, hc⟩ := rd_of_terminated hT1 hp1
  by_cases hgo : c ≠ 0 ∧ c ≠ 10
  · left
    have hw := wr_total 0 hl
    refine ⟨(b1.set p1 0, p1 + 1), ?_, ⟨terminated_wr hT1 hw, ?_⟩, ?_⟩
    · simp only [semi_body, hc, Res.bind_ok, if_pos hgo, hw]
    · show p1 + 1 ≤ e
      by_contra hne
      have : p1 = e := by omega
      rw [this, rd_eq_ok, hT1.2] at hc
      cases hc
      exact hgo.1 rfl
    · show (b1.set p1 0).length - (p1 + 1) < b1.length - p1
      rw [List.length_set]; omega
  · right
    exact ⟨(b1, p1), by simp only [semi_body, hc, Res.bind_ok, if_neg hgo], hp1⟩

theorem split_body_total {b : List Nat} {e p : Nat} (hT : Terminated b e) (hp : p < e) :
    ∃ s', split_body e (b, p) = .ok (.again s') ∧ s'.2 ≤ e := by
  obtain ⟨c, hc⟩ := rd_of_terminated hT (show p ≤ e by omega)
  have hl : p < b.length := by rw [hT.1]; omega
  simp only [split_body, if_pos hp, hc, Res.bind_ok]
  by_cases h1 : c = 13 ∨ c = 10 ∨ c = 9 ∨ c = 32
  · rw [if_pos h1, wr_total 0 hl]
    exact ⟨(b.set p 0, p + 1), rfl, by show p + 1 ≤ e; omega⟩
  · rw [if_neg h1]
    by_cases h2 : c = 0
    · rw [if_pos h2]
      exact ⟨(b, p + 1), rfl, by show p + 1 ≤ e; omega⟩
    · rw [if_neg h2]
      by_cases h3 : c = 91
      · rw [if_pos h3]
        obtain ⟨n, hn, hle⟩ := strcspn_total hT (show p ≤ e by omega) [93]
        rw [hn]
        simp only [Res.bind_ok]
        rw [wr_total 0 (show p + n < b.length by rw [hT.1]; omega)]
        exact ⟨(b.set (p + n) 0, p + n), rfl, hle⟩
      · rw [if_neg h3]
        by_cases h4 : c = 61
        · rw [if_pos h4]
          obtain ⟨⟨b1, p1⟩, ht, hp1⟩ := eq_loop_total hT hp
          obtain ⟨hlen, hlt, hz⟩ := eq_loop_post _ _ _ _ ht
          have hT1 : Terminated b1 e := ⟨by rw [hlen]; exact hT.1, eq_loop_keep e _ _ _ _ ht hT.2⟩
          simp only at hp1 hlen hlt hz
          rw [ht]
          simp only [Res.bind_ok]
          obtain ⟨n, hn, hle⟩ := strcspn_total hT1 hp1 [10]
          rw [hn]
          simp only [Res.bind_ok]
          have e2 : p1 + n = p + 1 + (p1 + n - p - 1) := by omega
          obtain ⟨b2, hb2⟩ := trim_back_total p 0 (by decide) (p1 + n - p - 1) b1 hz
            (by rw [hT1.1]; omega)
          rw [← e2] at hb2
          rw [hb2]
          exact ⟨(b2, p1 + n), rfl, hle⟩
        · rw [if_neg h4]
          by_cases h5 : c = 59
          · rw [if_pos h5]
            obtain ⟨s, hs, hle⟩ := semi_loop_total hT (show p ≤ e by omega)
            rw [hs]
            exact ⟨s, rfl, hle⟩
          · rw [if_neg h5]
            obtain ⟨n, hn, hle⟩ := strcspn_total hT (show p ≤ e by omega) [61]
            have hn1 := strcspn_pos hc h2 (by simp; omega) hn
            rw [hn]
            simp only [Res.bind_ok]
            have e2 : p + n = p + 1 + (n - 1) := by omega
            obtain ⟨b2, hb2⟩ := trim_back_total p c (by omega) (n - 1) b (rd_eq_ok.1 hc)
              (by rw [hT.1]; omega)
            rw [← e2] at hb2
            rw [hb2]
            exact ⟨(b2, p + n), rfl, hle⟩

theorem split_body_inv {e : Nat} {s s' : List Nat × Nat}
    (hI : Terminated s.1 e ∧ s.2 ≤ e) (h : split_body e s = .ok (.again s')) :
    Terminated s'.1 e ∧ s'.2 ≤ e := by
  obtain ⟨b, p⟩ := s
  have hlen := (split_body_again e _ _ h).1
  have hkeep := split_body_keep e e _ _ h hI.1.2
  refine ⟨⟨by rw [hlen]; exact hI.1.1, hkeep⟩, ?_⟩
  by_cases hp : p < e
  · obtain ⟨s'', h1, h2⟩ := split_body_total hI.1 hp
    rw [h] at h1
    cases h1
    exact h2
  · simp [split_body, hp] at h

theorem split_body_exit {e : Nat} {s : List Nat × Nat} {a : List Nat}
    (hI : Terminated s.1 e ∧ s.2 ≤ e) (h : split_body e s = .ok (.leave a)) :
    s.2 = e ∧ a = s.1 := by
  obtain ⟨b, p⟩ := s
  refine ⟨?_, split_body_leave e _ a h⟩
  by_cases hp : p < e
  · obtain ⟨s'', h1, _⟩ := split_body_total hI.1 hp
    rw [h] at h1
    cases h1
  · have := hI.2
    simp only at this ⊢
    omega

/-- On a buffer with its null byte at `e` the loop of `split_data` comes to an
end without an access outside the buffer, and is left with the cursor at `e`. -/
theorem split_loop_total {b : List Nat} {e : Nat} (hT : Terminated b e) :
    ∃ b', iterate (split_body e) (b.length + 1) (b, 0) = .ok b' ∧
      iterate_exit (split_body e) (b.length + 1) (b, 0) = .ok (b', e) ∧ Terminated b' e := by
  have hI0 : Terminated (b, 0).1 e ∧ (b, 0).2 ≤ e := ⟨hT, Nat.zero_le e⟩
  obtain ⟨b', hb', hT'⟩ := iterate_total (split_body e)
    (fun s => Terminated s.1 e ∧ s.2 ≤ e) (fun a => Terminated a e) left (by
      rintro ⟨b1, p1⟩ hI
      by_cases hp : p1 < e
      · left
        obtain ⟨s', h1, _⟩ := split_body_total hI.1 hp
        exact ⟨s', h1, split_body_inv hI h1, split_body_dec e _ _ h1⟩
      · right
        exact ⟨b1, by simp [split_body, hp], hI.1⟩)
    (b.length + 1) (b, 0) hI0 (by show b.length - 0 < b.length + 1; omega)
  obtain ⟨s', hs', hleave⟩ := iterate_exit_of_ok (split_body e) _ _ _ hb'
  have hI' := iterate_exit_inv (split_body e) (fun s => Terminated s.1 e ∧ s.2 ≤ e)
    (fun s s1 hI h => split_body_inv hI h) _ _ _ hI0 hs'
  obtain ⟨h1, h2⟩ := split_body_exit hI' hleave
  refine ⟨b', hb', ?_, hT'⟩
  rw [hs']
  obtain ⟨b2, p2⟩ := s'
  simp only at h1 h2
  rw [h1, h2]

/-! ## The tokenizer writes null bytes only -/

theorem trim_back_pres (I : List Nat → Prop)
    (hI : ∀ b p b', I b → wr b p 0 = .ok b' → I b') :
    ∀ q b b', trim_back q b = .ok b' → I b → I b' := by
  intro q
  induction q with
  | zero => intro b b' h; simp [trim_back] at h
  | succ q ih =>
    intro b b' h he
    simp only [trim_back] at h
    obtain ⟨c, _, h2⟩ := Res.bind_eq_ok h
    split at h2
    · obtain ⟨b1, h3, h4⟩ := Res.bind_eq_ok h2
      exact ih b1 b' h4 (hI _ _ _ he h3)
    · cases h2; exact he

theorem eq_loop_pres (I : List Nat → Prop)
    (hI : ∀ b p b', I b → wr b p 0 = .ok b' → I b') (f : Nat) (b : List Nat) (p : Nat)
    (s : List Nat × Nat) (h : iterate eq_body f (b, p) = .ok s) (he : I b) : I s.1 := by
  refine iterate_inv eq_body (fun t => I t.1) (fun t => I t.1) ?_ ?_ f (b, p) s he h
  · rintro ⟨b1, p1⟩ ⟨b2, p2⟩ hI1 hb
    simp only [eq_body] at hb
    obtain ⟨b3, h1, h2⟩ := Res.bind_eq_ok hb
    obtain ⟨c, _, h3⟩ := Res.bind_eq_ok h2
    split at h3
    · cases h3; exact hI _ _ _ hI1 h1
    · cases h3
  · rintro ⟨b1, p1⟩ ⟨b2, p2⟩ hI1 hb
    simp only [eq_body] at hb
    obtain ⟨b3, h1, h2⟩ := Res.bind_eq_ok hb
    obtain ⟨c, _, h3⟩ := Res.bind_eq_ok h2
    split at h3
    · cases h3
    · cases h3; exact hI _ _ _ hI1 h1

theorem semi_loop_pres (I : List Nat → Prop)
    (hI : ∀ b p b', I b → wr b p 0 = .ok b' → I b') (f : Nat) (b : List Nat) (p : Nat)
    (s : List Nat × Nat) (h : iterate semi_body f (b, p) = .ok s) (he : I b) : I s.1 := by
  refine iterate_inv semi_body (fun t => I t.1) (fun t => I t.1) ?_ ?_ f (b, p) s he h
  · rintro ⟨b1, p1⟩ ⟨b2, p2⟩ hI1 hb
    simp only [semi_body] at hb
    obtain ⟨c, _, h2⟩ := Res.bind_eq_ok hb
    split at h2
    · obtain ⟨b3, h1, h3⟩ := Res.bind_eq_ok h2
      cases h3; exact hI _ _ _ hI1 h1
    · cases h2
  · rintro ⟨b1, p1⟩ ⟨b2, p2⟩ hI1 hb
    simp only [semi_body] at hb
    obtain ⟨c, _, h2⟩ := Res.bind_eq_ok hb
    split at h2
    · obtain ⟨b3, h1, h3⟩ := Res.bind_eq_ok h2
      cases h3
    · cases h2; exact hI1

theorem split_body_pres (I : List Nat → Prop)
    (hI : ∀ b p b', I b → wr b p 0 = .ok b' → I b') (e0 : Nat) (s s' : List Nat × Nat)
    (h : split_body e0 s = .ok (.again s')) (he : I s.1) : I s'.1 := by
  obtain ⟨b, p⟩ := s
  simp only [split_body] at h
  simp only at he
  split at h
  · obtain ⟨c, hc, h2⟩ := Res.bind_eq_ok h
    split at h2
    · obtain ⟨b1, h3, h4⟩ := Res.bind_eq_ok h2
      cases h4; exact hI _ _ _ he h3
    · split at h2
      · cases h2; exact he
      · split at h2
        · obtain ⟨n, hn, h3⟩ := Res.bind_eq_ok h2
          obtain ⟨b1, h4, h5⟩ := Res.bind_eq_ok h3
          cases h5; exact hI _ _ _ he h4
        · split at h2
          · obtain ⟨t, ht, h3⟩ := Res.bind_eq_ok h2
            obtain ⟨n, hn, h4⟩ := Res.bind_eq_ok h3
            obtain ⟨b1, h5, h6⟩ := Res.bind_eq_ok h4
            cases h6
            exact trim_back_pres I hI _ _ _ h5 (eq_loop_pres I hI _ _ _ _ ht he)
          · split at h2
            · obtain ⟨t, ht, h3⟩ := Res.bind_eq_ok h2
              cases h3
              exact semi_loop_pres I hI _ _ _ _ ht he
            · obtain ⟨n, hn, h3⟩ := Res.bind_eq_ok h2
              obtain ⟨b1, h5, h6⟩ := Res.bind_eq_ok h3
              cases h6
              exact trim_back_pres I hI _ _ _ h5 he
  · cases h

theorem split_loop_pres (I : List Nat → Prop)
    (hI : ∀ b p b', I b → wr b p 0 = .ok b' → I b') (e f : Nat) (b : List Nat) (p : Nat)
    (b' : List Nat) (h : iterate (split_body e) f (b, p) = .ok b') (he : I b) : I b' := by
  refine iterate_inv (split_body e) (fun t => I t.1) I ?_ ?_ f (b, p) b' he h
  · intro s s' hI1 hs
    exact split_body_pres I hI e s s' hs hI1
  · intro s a hI1 hs
    rw [split_body_leave _ s a hs]; exact hI1

theorem nulled_wr (b0 : List Nat) (b : List Nat) (p : Nat) (b' : List Nat)
    (h : b.length = b0.length ∧ ∀ i : Nat, b[i]? = b0[i]? ∨ b[i]? = some 0)
    (hw : wr b p 0 = .ok b') :
    b'.length = b0.length ∧ ∀ i : Nat, b'[i]? = b0[i]? ∨ b'[i]? = some 0 := by
  obtain ⟨hp, rfl⟩ := wr_eq_ok hw
  refine ⟨by rw [List.length_set]; exact h.1, fun i => ?_⟩
  by_cases hi : p = i
  · subst hi
    right
    rw [List.getElem?_set_self hp]
  · rw [List.getElem?_set_ne hi]
    exact h.2 i

theorem prefix_of_nulled :
    ∀ (x y : List Nat), (∀ i : Nat, y[i]? = x[i]? ∨ y[i]? = some 0) →
      ∃ r, x = y.takeWhile (fun c => c != 0) ++ r := by
  intro x
  induction x with
  | nil =>
    intro y h
    cases y with
    | nil => exact ⟨[], rfl⟩
    | cons c y =>
      have := h 0
      simp at this
      subst this
      exact ⟨[], by simp [List.takeWhile]⟩
  | cons a x ih =>
    intro y h
    cases y with
    | nil => exact ⟨a :: x, rfl⟩
    | cons c y =>
      by_cases hc : c = 0
      · subst hc
        exact ⟨a :: x, by simp [List.takeWhile]⟩
      · have h0 := h 0
        simp [hc] at h0
        subst h0
        obtain ⟨r, hr⟩ := ih y (fun i => by simpa using h (i + 1))
        refine ⟨r, ?_⟩
        have : (c != 0) = true := by simp [hc]
        rw [List.takeWhile_cons, this]
        simp only [if_true, List.cons_append]
        rw [← hr]

/-! ## The forward skip stops at the first byte that is not null -/

theorem next_least {b : List Nat} {e p : Nat} (hT : Terminated b e) (hp : p ≤ e) :
    ∃ n j, strlen b p = .ok n ∧ next b e p = .ok j ∧ p + n ≤ j ∧ j ≤ e ∧
      (∀ i : Nat, p + n ≤ i → i < j → b[i]? = some 0) ∧
      (j = e ∨ ∃ c, b[j]? = some c ∧ c ≠ 0) := by
  have hn := strlen_token hT hp
  have hlt := strlen_lt hn
  refine ⟨(token_at b p).length, ?_⟩
  suffices h : ∃ j, next b e p = .ok j ∧ p + (token_at b p).length ≤ j ∧ j ≤ e ∧
      (∀ i : Nat, p + (token_at b p).length ≤ i → i < j → b[i]? = some 0) ∧
      (j = e ∨ ∃ c, b[j]? = some c ∧ c ≠ 0) by
    obtain ⟨j, hj⟩ := h
    exact ⟨j, hn, hj⟩
  unfold next
  rw [hn]
  simp only [Res.bind_ok]
  generalize p + (token_at b p).length = i0 at hlt ⊢
  have hi0 : i0 ≤ e := by rw [hT.1] at hlt; omega
  refine iterate_total (next_body b e)
    (fun i => i0 ≤ i ∧ i ≤ e ∧ ∀ k : Nat, i0 ≤ k → k < i → b[k]? = some 0)
    (fun j => i0 ≤ j ∧ j ≤ e ∧ (∀ k : Nat, i0 ≤ k → k < j → b[k]? = some 0) ∧
      (j = e ∨ ∃ c, b[j]? = some c ∧ c ≠ 0))
    (fun i => e - i) ?_ _ i0 ⟨le_refl _, hi0, fun k h1 h2 => by omega⟩
    (by show e - i0 < b.length + 1; rw [hT.1]; omega)
  rintro i ⟨h1, h2, h3⟩
  by_cases hie : i < e
  · obtain ⟨c, hc⟩ := rd_of_terminated hT h2
    by_cases hc0 : c = 0
    · left
      refine ⟨i + 1, ?_, ⟨by omega, by omega, fun k hk1 hk2 => ?_⟩,
        by show e - (i + 1) < e - i; omega⟩
      · simp [next_body, hie, hc, hc0]
      · by_cases hki : k = i
        · rw [hki, ← rd_eq_ok, hc, hc0]
        · exact h3 k hk1 (by omega)
    · right
      refine ⟨i, ?_, h1, h2, h3, Or.inr ⟨c, rd_eq_ok.1 hc, hc0⟩⟩
      simp [next_body, hie, hc, hc0]
  · right
    exact ⟨i, by simp [next_body, hie], h1, h2, h3, Or.inl (by omega)⟩

/-! ## `strcmpci` and `tolower` -/

theorem map_eq_iff_pointwise (f : Nat → Nat) (a b : List Nat) :
    a.map f = b.map f ↔
      a.length = b.length ∧ ∀ i : Nat, (a[i]?).map f = (b[i]?).map f := by
  constructor
  · intro h
    refine ⟨by simpa using congrArg List.length h, fun i => ?_⟩
    rw [← List.getElem?_map, ← List.getElem?_map, h]
  · rintro ⟨_, h⟩
    apply List.ext_getElem?
    intro i
    rw [List.getElem?_map, List.getElem?_map]
    exact h i

theorem strcmpci_c_str (a b : List Nat) (ha : 0 ∉ a) (hb : 0 ∉ b) :
    ∃ d, strcmpci (c_str a) (c_str b) = .ok d ∧ (d = 0 ↔ a.map tolower = b.map tolower) :=
  strcmpci_spec a b [] [] ha hb

/-! ## The write head stays behind the read head -/

theorem quote_body_ahead (b0 : List Nat) (s s' : List Nat × Nat × Nat)
    (h : quote_body s = .ok (.again s'))
    (hJ : s.2.1 < s.2.2 ∧ ∀ i : Nat, s.2.1 ≤ i → s.1[i]? = b0[i]?) :
    s'.2.1 < s'.2.2 ∧ ∀ i : Nat, s'.2.1 ≤ i → s'.1[i]? = b0[i]? := by
  obtain ⟨b, q, p⟩ := s
  simp only [quote_body] at h
  simp only at hJ
  obtain ⟨cq, _, h2⟩ := Res.bind_eq_ok h
  split at h2
  · obtain ⟨cp, hcp, h3⟩ := Res.bind_eq_ok h2
    split at h3
    · obtain ⟨c, _, h4⟩ := Res.bind_eq_ok h3
      obtain ⟨b1, h5, h6⟩ := Res.bind_eq_ok h4
      obtain ⟨_, rfl⟩ := wr_eq_ok h5
      cases h6
      refine ⟨by show q + 1 < p + 1 + 1; omega, fun i hi => ?_⟩
      simp only at hi ⊢
      rw [List.getElem?_set_ne (by omega)]
      exact hJ.2 i (by omega)
    · split at h3
      · obtain ⟨b1, _, h6⟩ := Res.bind_eq_ok h3
        cases h6
      · obtain ⟨b1, h5, h6⟩ := Res.bind_eq_ok h3
        obtain ⟨_, rfl⟩ := wr_eq_ok h5
        cases h6
        refine ⟨by show q + 1 < p + 1; omega, fun i hi => ?_⟩
        simp only at hi ⊢
        rw [List.getElem?_set_ne (by omega)]
        exact hJ.2 i (by omega)
  · cases h2

theorem quote_body_heads (s s' : List Nat × Nat × Nat)
    (h : quote_body s = .ok (.leave s')) : s'.2.1 = s.2.1 ∧ s'.2.2 = s.2.2 := by
  obtain ⟨b, q, p⟩ := s
  simp only [quote_body] at h
  obtain ⟨cq, _, h2⟩ := Res.bind_eq_ok h
  split at h2
  · obtain ⟨cp, hcp, h3⟩ := Res.bind_eq_ok h2
    split at h3
    · obtain ⟨c, _, h4⟩ := Res.bind_eq_ok h3
      obtain ⟨b1, h5, h6⟩ := Res.bind_eq_ok h4
      cases h6
    · split at h3
      · obtain ⟨b1, _, h6⟩ := Res.bind_eq_ok h3
        cases h6
        exact ⟨rfl, rfl⟩
      · obtain ⟨b1, h5, h6⟩ := Res.bind_eq_ok h3
        cases h6
  · cases h2
    exact ⟨rfl, rfl⟩

/-! ## Escaping and decoding -/

theorem decode_escape_byte (c : Nat) (r : List Nat) :
    decode (escape_byte c ++ r) = c :: decode r := by
  unfold escape_byte
  split
  · subst c; simp only [List.cons_append, List.nil_append, decode_escape, esc]; simp
  · split
    · subst c; simp only [List.cons_append, List.nil_append, decode_escape, esc]; simp
    · split
      · subst c; simp only [List.cons_append, List.nil_append, decode_escape, esc]; simp
      · split
        · subst c; simp only [List.cons_append, List.nil_append, decode_escape, esc]; simp
        · split
          · subst c; simp only [List.cons_append, List.nil_append, decode_escape, esc]; simp
          · rename_i h92 _ _ _ _
            simp only [List.cons_append, List.nil_append]
            exact decode_normal h92 r

theorem escaped_escape_byte (c : Nat) (r : List Nat) :
    escaped (escape_byte c ++ r) = escaped r := by
  unfold escape_byte
  split
  · simp only [List.cons_append, List.nil_append, escaped_escape]
  · split
    · simp only [List.cons_append, List.nil_append, escaped_escape]
    · split
      · simp only [List.cons_append, List.nil_append, escaped_escape]
      · split
        · simp only [List.cons_append, List.nil_append, escaped_escape]
        · split
          · simp only [List.cons_append, List.nil_append, escaped_escape]
          · rename_i h92 h34 _ _ _
            simp only [List.cons_append, List.nil_append]
            rw [escaped_normal h92]
            simp [h34]

theorem mem_escape_byte {c x : Nat} (h : x ∈ escape_byte c) :
    x = c ∧ c ≠ 10 ∨ x = 92 ∨ x = 34 ∨ x = 110 ∨ x = 114 ∨ x = 116 := by
  unfold escape_byte at h
  split at h
  · simp at h; omega
  · split at h
    · simp at h; omega
    · split at h
      · simp at h; omega
      · split at h
        · simp at h; omega
        · split at h
          · simp at h; omega
          · rename_i _ _ h10 _ _
            simp at h
            exact Or.inl ⟨h, h10⟩

theorem decode_escape_eq : ∀ s : List Nat, decode (escape s) = s := by
  intro s
  induction s with
  | nil => rfl
  | cons c s ih => rw [escape, decode_escape_byte, ih]

theorem escaped_escape_eq : ∀ s : List Nat, escaped (escape s) = true := by
  intro s
  induction s with
  | nil => rfl
  | cons c s ih => rw [escape, escaped_escape_byte, ih]

theorem mem_escape {x : Nat} : ∀ s : List Nat, x ∈ escape s →
    x ∈ s ∧ x ≠ 10 ∨ x = 92 ∨ x = 34 ∨ x = 110 ∨ x = 114 ∨ x = 116 := by
  intro s
  induction s with
  | nil => intro h; simp [escape] at h
  | cons c s ih =>
    intro h
    rw [escape, List.mem_append] at h
    rcases h with h | h
    · rcases mem_escape_byte h with ⟨h1, h2⟩ | h1
      · left
        exact ⟨by rw [h1]; exact List.mem_cons_self _ _, by rw [h1]; exact h2⟩
      · right; exact h1
    · rcases ih h with ⟨h1, h2⟩ | h1
      · left; exact ⟨List.mem_cons_of_mem _ h1, h2⟩
      · right; exact h1

/-! ## An assignment with nothing behind the `=` -/

theorem split_eq_empty (e : Nat) (pre : List Nat) (stop : Nat) (rest : List Nat)
    (hstop : stop = 0 ∨ stop = 10) (hp : pre.length < e) :
    split_body e (pre ++ 61 :: stop :: rest, pre.length) =
      .ok (.again (pre ++ 0 :: stop :: rest, pre.length + 1)) := by
  have hl := eq_loop_run stop rest (by omega) [] pre 61
    ((pre ++ 61 :: stop :: rest).length + 1) (by simp) (by simp)
  have hs := strcspn_run [10] (pre ++ [0]) [] stop rest (by simpa using hstop) (by simp)
  have ht := trim_back_run pre 0 (by decide) 0 [] (stop :: rest) rfl (by simp)
  simp only [List.nil_append, List.length_nil, List.replicate_zero, Nat.add_zero,
    List.append_assoc, List.singleton_append, List.length_append, List.length_singleton,
    List.length_cons] at hl hs ht
  simp only [split_body, if_pos hp, rd_at, Res.bind_ok]
  simp only [if_true, List.length_append, List.length_cons, hl, Res.bind_ok, hs, ht, Nat.add_zero]
  rw [if_neg (by decide), if_neg (by decide), if_neg (by decide)]

theorem ini_load_empty_value (k1 k2 v : List Nat) (hk1 : word k1) (hk2 : word k2)
    (hv : word v) :
    ini_load (k1 ++ 61 :: 10 :: (k2 ++ 61 :: v)) =
      .ok { data := flat [(k1, 2), (k2, 1), (v, 0)] ++ [0],
            end_ := (k1 ++ 61 :: 10 :: (k2 ++ 61 :: v)).length } := by
  have hL : Lay [(k1, 2), (k2, 1), (v, 0)] := by
    simp only [Lay]
    refine ⟨hk1.1, fun h => (alnum_ne (hk1.2 0 h)).1 rfl, fun _ => by omega,
      hk2.1, fun h => (alnum_ne (hk2.2 0 h)).1 rfl, fun _ => by omega,
      hv.1, fun h => (alnum_ne (hv.2 0 h)).1 rfl, fun h => absurd rfl h, trivial⟩
  have hq : ∀ x ∈ [(k1, 2), (k2, 1), (v, 0)], x.1.head? ≠ some 34 := by
    intro x hx
    simp only [List.mem_cons, List.mem_singleton, List.not_mem_nil, or_false] at hx
    rcases hx with rfl | rfl | rfl
    · intro h; exact (alnum_ne (word_head? hk1 h)).2.2.2.2.2.1 rfl
    · intro h; exact (alnum_ne (word_head? hk2 h)).2.2.2.2.2.1 rfl
    · intro h; exact (alnum_ne (word_head? hv h)).2.2.2.2.2.1 rfl
  have hu := unescape_lay 0 [(k1, 2), (k2, 1), (v, 0)]
    (k1 ++ 61 :: 10 :: (k2 ++ 61 :: v)).length hL hq (by simp [flat]; omega)
  simp only [List.replicate_zero, List.nil_append] at hu
  have hsplit : split_run (k1 ++ 61 :: 10 :: (k2 ++ 61 :: v)).length
      ((k1 ++ 61 :: 10 :: (k2 ++ 61 :: v)) ++ [0], 0) =
      .ok (flat [(k1, 2), (k2, 1), (v, 0)] ++ [0]) := by
    obtain ⟨kinit, klast, rfl, hkl⟩ := init_last hk1.1
    have hklast := alnum_ne (word_last? hk1 hkl)
    generalize he : (kinit ++ [klast] ++ 61 :: 10 :: (k2 ++ 61 :: v)).length = e
    have hlen : e = kinit.length + k2.length + v.length + 4 := by
      rw [← he]; simp; omega
    have s1 := split_run_step (split_key e [] kinit klast []
      (10 :: (k2 ++ 61 :: v) ++ [0]) (fun c hc => by
        have := alnum_ne (word_head? hk1 hc)
        omega) (fun x hx => by
        have := alnum_ne (hk1.2 x hx)
        omega) (by omega) (by simp) (by simp; omega))
    have s2 := split_run_step (split_eq_empty e (kinit ++ [klast]) 10 ((k2 ++ 61 :: v) ++ [0])
      (Or.inr rfl) (by simp; omega))
    have s3 := split_run_step (split_ws e (kinit ++ [klast] ++ [0]) 10 ((k2 ++ 61 :: v) ++ [0])
      (by omega) (by simp; omega))
    have s4 := split_lines_assign e (kinit ++ [klast] ++ [0, 0]) k2 v 0 [] hk2 hv (Or.inl rfl)
      (by simp; omega)
    have s5 : split_run e ((kinit ++ [klast] ++ [0, 0] ++ (k2 ++ 0 :: v)) ++ [0],
        (kinit ++ [klast] ++ [0, 0] ++ (k2 ++ 0 :: v)).length) =
        .ok ((kinit ++ [klast] ++ [0, 0] ++ (k2 ++ 0 :: v)) ++ [0]) :=
      split_run_end (by simp; omega)
    simp only [List.append_assoc, List.cons_append, List.length_append, List.length_cons,
      List.nil_append, List.length_nil, List.replicate_zero, List.singleton_append,
      Nat.add_zero, Nat.zero_add] at s1 s2 s3 s4 s5 ⊢
    rw [s1, s2, s3]
    have e2 : kinit.length + (0 + 1) + 1 + 1 = kinit.length + (0 + 1 + 1 + 1) := by omega
    rw [e2, s4, s5]
    simp [flat, List.replicate]
  unfold ini_load
  rw [split_data_eq]
  simp only
  rw [hsplit]
  simp only [Res.bind_ok]
  exact hu

theorem lookup_empty_value (k1 k2 v : List Nat) (hk1 : word k1) (hk2 : word k2)
    (hv : word v) (h12 : k1.map tolower ≠ k2.map tolower)
    (hv2 : v.map tolower ≠ k2.map tolower) :
    lookup (k1 ++ 61 :: 10 :: (k2 ++ 61 :: v)) none k1 = .ok (some k2) ∧
      lookup (k1 ++ 61 :: 10 :: (k2 ++ 61 :: v)) none k2 = .ok none := by
  have hL : Lay [(k1, 2), (k2, 1), (v, 0)] := by
    simp only [Lay]
    refine ⟨hk1.1, fun h => (alnum_ne (hk1.2 0 h)).1 rfl, fun _ => by omega,
      hk2.1, fun h => (alnum_ne (hk2.2 0 h)).1 rfl, fun _ => by omega,
      hv.1, fun h => (alnum_ne (hv.2 0 h)).1 rfl, fun h => absurd rfl h, trivial⟩
  have hg := fun key (hk : 0 ∉ key) => ini_get_lay 0 [(k1, 2), (k2, 1), (v, 0)]
    (k1 ++ 61 :: 10 :: (k2 ++ 61 :: v)).length hL (by simp [flat]; omega) none key hk
    (by intro s hs; cases hs)
  simp only [List.replicate_zero, List.nil_append] at hg
  have hh1 : k1.head? ≠ some 91 := fun h => (alnum_ne (word_head? hk1 h)).2.2.2.2.2.2.2.2.1 rfl
  have hh2 : k2.head? ≠ some 91 := fun h => (alnum_ne (word_head? hk2 h)).2.2.2.2.2.2.2.2.1 rfl
  have hh3 : v.head? ≠ some 91 := fun h => (alnum_ne (word_head? hv h)).2.2.2.2.2.2.2.2.1 rfl
  constructor
  · unfold lookup
    rw [ini_load_empty_value k1 k2 v hk1 hk2 hv]
    simp only [Res.bind_ok]
    rw [hg k1 (fun h => (alnum_ne (hk1.2 0 h)).1 rfl)]
    simp only [Res.bind_ok]
    rw [get_lay_cons, if_neg hh1, if_pos (by simp [sec_matches, key_matches])]
    simp only
    have := string_at_run (k1 ++ [0, 0]) k2 (v ++ [0]) (fun h => (alnum_ne (hk2.2 0 h)).1 rfl)
    simp only [List.length_append, List.length_cons, List.length_nil] at this
    have e1 : 0 + k1.length + 2 = k1.length + (0 + 1 + 1) := by omega
    rw [e1]
    have e2 : flat [(k1, 2), (k2, 1), (v, 0)] ++ [0] =
        k1 ++ [0, 0] ++ (k2 ++ 0 :: (v ++ [0])) := by
      simp [flat, List.replicate]
    rw [e2, this]
    rfl
  · unfold lookup
    rw [ini_load_empty_value k1 k2 v hk1 hk2 hv]
    simp only [Res.bind_ok]
    rw [hg k2 (fun h => (alnum_ne (hk2.2 0 h)).1 rfl)]
    simp only [Res.bind_ok]
    rw [get_lay_cons, if_neg hh1, if_neg (by simp [sec_matches, key_matches, h12])]
    simp only
    rw [get_lay_cons, if_neg hh3, if_neg (by simp [sec_matches, key_matches, hv2])]

/-! ## Text in front of the buffer that the tokenizer turns into one header -/

theorem split_run_shift (Z b : List Nat) (e : Nat) :
    split_run (e + Z.length) (Z ++ b, Z.length) = (split_run e (b, 0)).map (Z ++ ·) := by
  unfold split_run
  have := split_loop_shift Z b e 0 (b.length + 1) ((Z ++ b).length + 1) (by omega)
    (by simp; omega)
  simp only [Nat.zero_add] at this
  exact this

theorem split_data_of_run (T R Z : List Nat) (hlen : T.length = R.length + Z.length)
    (h : split_run T.length (T ++ [0], 0) =
      split_run (R.length + Z.length) (Z ++ (R ++ [0]), Z.length)) :
    split_data { data := T ++ [0], end_ := T.length } =
      (split_data { data := R ++ [0], end_ := R.length }).map (shi Z) := by
  rw [split_data_eq, split_data_eq]
  simp only
  rw [h, split_run_shift]
  cases split_run R.length (R ++ [0], 0) with
  | ok b => simp [shi, hlen]
  | oob => rfl
  | timeout => rfl

theorem split_data_header (name B : List Nat) (hn : ∀ x ∈ name, x ≠ 0 ∧ x ≠ 93) :
    split_data { data := (91 :: name ++ 93 :: B) ++ [0], end_ := (91 :: name ++ 93 :: B).length } =
      (split_data { data := B ++ [0], end_ := B.length }).map (shi (91 :: name ++ [0])) := by
  apply split_data_of_run
  · simp; omega
  · have hE : (91 :: name ++ 93 :: B).length = B.length + (91 :: name ++ [0]).length := by
      simp; omega
    rw [hE]
    generalize he : B.length + (91 :: name ++ [0]).length = e
    have hge : name.length + 2 ≤ e := by rw [← he]; simp
    have s1 := split_run_step (split_header e [] name (B ++ [0]) hn (by simp; omega))
    have s2 := split_run_step (split_null e (91 :: name) (B ++ [0]) (by simp; omega))
    simp only [List.nil_append, List.length_nil, Nat.zero_add, List.cons_append,
      List.append_assoc, List.length_cons, List.length_append] at s1 s2 ⊢
    have e1 : 1 + name.length = name.length + 1 := by omega
    rw [s1, e1, s2]

theorem split_data_blank (ws B : List Nat) (hws : ∀ x ∈ ws, x = 13 ∨ x = 10 ∨ x = 9 ∨ x = 32) :
    split_data { data := (ws ++ B) ++ [0], end_ := (ws ++ B).length } =
      (split_data { data := B ++ [0], end_ := B.length }).map
        (shi (List.replicate ws.length 0)) := by
  apply split_data_of_run
  · simp; omega
  · have s1 := split_ws_run (ws ++ B).length ws [] (B ++ [0]) hws (by simp)
    simp only [List.nil_append, List.length_nil, Nat.zero_add, List.append_assoc] at s1 ⊢
    rw [s1]
    congr 2
    · simp; omega
    · simp

theorem shi_shi (Z1 Z2 : List Nat) (ini : ini_t) : shi Z1 (shi Z2 ini) = shi (Z1 ++ Z2) ini := by
  simp [shi]; omega

theorem Res.map_map {α β γ : Type} (r : Res α) (f : α → β) (g : β → γ) :
    (r.map f).map g = r.map (fun a => g (f a)) := by
  cases r <;> rfl

/-- The tokenizer on a header line with blanks, and a comment or nothing,
behind the `]`: one header token and null bytes up to the next line. -/
theorem split_data_header_line (name ws cm R : List Nat) (hn : ∀ x ∈ name, x ≠ 0 ∧ x ≠ 93)
    (hws : ∀ x ∈ ws, x = 32 ∨ x = 9 ∨ x = 13) (hcm : ∀ x ∈ cm, x ≠ 0 ∧ x ≠ 10)
    (hhead : ∀ x, cm.head? = some x → x = 59) :
    split_data { data := (91 :: name ++ 93 :: (ws ++ cm ++ 10 :: R)) ++ [0],
                 end_ := (91 :: name ++ 93 :: (ws ++ cm ++ 10 :: R)).length } =
      (split_data { data := R ++ [0], end_ := R.length }).map
        (shi (91 :: name ++ 0 :: List.replicate (ws.length + cm.length + 1) 0)) := by
  rw [split_data_header name _ hn]
  have hws' : ∀ x ∈ ws, x = 13 ∨ x = 10 ∨ x = 9 ∨ x = 32 := by
    intro x hx
    have := hws x hx
    omega
  have e0 : ws ++ cm ++ 10 :: R = ws ++ (cm ++ 10 :: R) := by simp
  rw [e0, split_data_blank ws _ hws', Res.map_map]
  have hrest : split_data { data := (cm ++ 10 :: R) ++ [0], end_ := (cm ++ 10 :: R).length } =
      (split_data { data := R ++ [0], end_ := R.length }).map
        (shi (List.replicate (cm.length + 1) 0)) := by
    cases cm with
    | nil =>
      have := split_data_blank [10] R (by simp)
      simpa using this
    | cons x c =>
      have hx := hhead x rfl
      subst hx
      have := split_comment c R (fun y hy => hcm y (List.mem_cons_of_mem _ hy))
      simpa using this
  rw [hrest, Res.map_map]
  congr 1
  funext ini
  rw [shi_shi, shi_shi]
  congr 1
  simp only [List.cons_append, List.append_assoc, List.nil_append, List.singleton_append,
    List.cons.injEq, true_and, List.append_cancel_left_eq]
  rw [← List.replicate_add]
  congr 1

/-! ## The passes behind a header at the start of the buffer -/

theorem strcmpci_right_tail :
    ∀ (t a r r' : List Nat), strcmpci a (t ++ 0 :: r) = strcmpci a (t ++ 0 :: r') := by
  intro t
  induction t with
  | nil =>
    intro a r r'
    cases a with
    | nil => simp [strcmpci]
    | cons x a =>
      simp only [List.nil_append, strcmpci]
      by_cases hx : x = 0
      · simp [hx]
      · have : (tolower x : Int) - (tolower 0 : Int) ≠ 0 := by
          have h1 : tolower x ≠ 0 := fun h => hx (tolower_eq_zero.1 h)
          rw [tolower_eq_zero.2 rfl]
          omega
        rw [if_pos (Or.inl this), if_pos (Or.inl this)]
  | cons y t ih =>
    intro a r r'
    cases a with
    | nil => simp [strcmpci]
    | cons x a =>
      rw [List.cons_append, List.cons_append]
      simp only [strcmpci]
      rw [ih a r r']

theorem section_ok_tail (sec : Option (List Nat)) (t r r' : List Nat) :
    section_ok sec (t ++ 0 :: r) = section_ok sec (t ++ 0 :: r') := by
  cases sec with
  | none => rfl
  | some s =>
    simp only [section_ok]
    rw [strcmpci_right_tail t _ r r']

theorem get_loop_cur (b : List Nat) (e : Nat) (sec : Option (List Nat)) (key : List Nat)
    (cur cur' : List Nat) (h : section_ok sec cur = section_ok sec cur') :
    ∀ f p, iterate (get_body b e sec key) f (p, cur) =
      iterate (get_body b e sec key) f (p, cur') := by
  intro f
  induction f with
  | zero => intro p; rfl
  | succ f ih =>
    intro p
    simp only [iterate, get_body]
    by_cases hp : p < e
    · simp only [if_pos hp]
      cases rd b p with
      | ok c =>
        simp only [Res.bind_ok]
        by_cases hc : c = 91
        · simp only [if_pos hc]
        · simp only [if_neg hc]
          cases next b e p with
          | ok val =>
            simp only [Res.bind_ok]
            rw [h]
            cases section_ok sec cur' with
            | ok so =>
              simp only [Res.bind_ok]
              cases (if so = true then
                  (strcmpci (List.drop p b) (c_str key)).bind fun d => Res.ok (decide (d = 0))
                else Res.ok false) with
              | ok hit =>
                simp only [Res.bind_ok]
                by_cases hh : hit = true
                · simp only [if_pos hh]
                · simp only [if_neg hh]
                  cases next b e val with
                  | ok p' =>
                    simp only [Res.bind_ok]
                    exact ih p'
                  | oob => rfl
                  | timeout => rfl
              | oob => rfl
              | timeout => rfl
            | oob => rfl
            | timeout => rfl
          | oob => rfl
          | timeout => rfl
      | oob => rfl
      | timeout => rfl
    · simp only [if_neg hp]

theorem next_header (name D : List Nat) (m e : Nat) (hn : 0 ∉ name) (hD : D ≠ []) :
    next (91 :: name ++ List.replicate (m + 1) 0 ++ D)
        (e + (91 :: name ++ List.replicate (m + 1) 0).length) 0 =
      (first_token D e).map (· + (91 :: name ++ List.replicate (m + 1) 0).length) := by
  generalize hZ : 91 :: name ++ List.replicate (m + 1) 0 = Z
  have hZlen : Z.length = name.length + 1 + (m + 1) := by rw [← hZ]; simp; omega
  have hbuf : Z ++ D = [] ++ ((91 :: name) ++ 0 :: (List.replicate m 0 ++ D)) := by
    rw [← hZ]; simp [List.replicate_succ]
  have hbuf2 : Z ++ D = (91 :: name) ++ (List.replicate (m + 1) 0 ++ D) := by
    rw [← hZ]; simp
  have hs : strlen (Z ++ D) 0 = .ok (name.length + 1) := by
    have := strlen_run [] (91 :: name) (List.replicate m 0 ++ D) (by simp; exact hn)
    rw [← hbuf] at this
    simpa using this
  unfold next
  rw [hs]
  simp only [Res.bind_ok, Nat.zero_add]
  have hk := skip_zeros (91 :: name) D (m + 1) (e + Z.length) (by simp; omega) (m + 1)
    (le_refl _)
  rw [← hbuf2] at hk
  simp only [List.length_cons] at hk
  rw [hk]
  have hsh := next_loop_shift Z D e 0
  simp only [Nat.zero_add] at hsh
  have e1 : name.length + 1 + (m + 1) = Z.length := by omega
  rw [e1, hsh, first_token_eq D e hD]

theorem unescape_header (name : List Nat) (m : Nat) (ini : ini_t) (hn : 0 ∉ name)
    (hD : ini.data ≠ []) :
    unescape_quoted_strings (shi (91 :: name ++ List.replicate (m + 1) 0) ini) =
      (unescape_quoted_strings ini).map (shi (91 :: name ++ List.replicate (m + 1) 0)) := by
  have hnx := next_header name ini.data m ini.end_ hn hD
  generalize hZ : 91 :: name ++ List.replicate (m + 1) 0 = Z at hnx ⊢
  have hZlen : 1 ≤ Z.length := by rw [← hZ]; simp
  have hr : rd (Z ++ ini.data) 0 = .ok 91 := by rw [← hZ]; simp [rd]
  unfold unescape_quoted_strings
  simp only [shi]
  have hft : first_token (Z ++ ini.data) (ini.end_ + Z.length) = .ok 0 := by
    unfold first_token
    rw [hr]
    simp
  rw [hft]
  simp only [Res.bind_ok]
  have hbody : unescape_body (ini.end_ + Z.length) (Z ++ ini.data, 0) =
      (first_token ini.data ini.end_).bind fun p0 =>
        .ok (.again (Z ++ ini.data, p0 + Z.length)) := by
    simp only [unescape_body]
    rw [if_pos (by omega), hr]
    simp only [Res.bind_ok]
    rw [if_neg (by decide), hnx]
    cases first_token ini.data ini.end_ <;> rfl
  cases hp0 : first_token ini.data ini.end_ with
  | ok p0 =>
    rw [hp0] at hbody
    simp only [Res.bind_ok] at hbody ⊢
    rw [iterate_again hbody]
    rw [unescape_loop_shift Z ini.data ini.end_ p0 (ini.data.length + 1) _ (by omega)
      (by simp; omega)]
    cases iterate (unescape_body ini.end_) (ini.data.length + 1) (ini.data, p0) with
    | ok b => simp [shi]
    | oob => rfl
    | timeout => rfl
  | oob =>
    rw [hp0] at hbody
    rw [iterate_oob hbody]
    rfl
  | timeout => exact absurd hp0 (first_token_ne_timeout _ _)

theorem ini_get_header (name : List Nat) (m : Nat) (ini : ini_t) (hn : 0 ∉ name)
    (hD : ini.data ≠ []) (sec : Option (List Nat)) (key : List Nat) :
    ini_get (shi (91 :: name ++ List.replicate (m + 1) 0) ini) sec key =
      (ini_get_from ini (c_str name) sec key).map
        (Option.map (· + (91 :: name ++ List.replicate (m + 1) 0).length)) := by
  have hnx := next_header name ini.data m ini.end_ hn hD
  have hdrop : (91 :: name ++ List.replicate (m + 1) 0 ++ ini.data).drop (0 + 1) =
      name ++ 0 :: (List.replicate m 0 ++ ini.data) := by
    simp [List.replicate_succ]
  generalize hZ : 91 :: name ++ List.replicate (m + 1) 0 = Z at hnx hdrop ⊢
  have hZlen : 1 ≤ Z.length := by rw [← hZ]; simp
  have hr : rd (Z ++ ini.data) 0 = .ok 91 := by rw [← hZ]; simp [rd]
  unfold ini_get ini_get_from
  simp only [shi]
  have hft : first_token (Z ++ ini.data) (ini.end_ + Z.length) = .ok 0 := by
    unfold first_token
    rw [hr]
    simp
  rw [hft]
  simp only [Res.bind_ok]
  have hbody : get_body (Z ++ ini.data) (ini.end_ + Z.length) sec key (0, c_str []) =
      (first_token ini.data ini.end_).bind fun p0 =>
        .ok (.again (p0 + Z.length, name ++ 0 :: (List.replicate m 0 ++ ini.data))) := by
    simp only [get_body]
    rw [if_pos (by omega), hr]
    simp only [Res.bind_ok, if_true]
    rw [hnx, hdrop]
    cases first_token ini.data ini.end_ <;> rfl
  cases hp0 : first_token ini.data ini.end_ with
  | ok p0 =>
    rw [hp0] at hbody
    simp only [Res.bind_ok] at hbody ⊢
    rw [iterate_again hbody]
    rw [get_loop_shift Z ini.data ini.end_ sec key p0 _ (ini.data.length + 1) _ (by omega)
      (by simp; omega)]
    rw [get_loop_cur _ _ _ _ _ (c_str name) (section_ok_tail sec name _ [])]
  | oob =>
    rw [hp0] at hbody
    rw [iterate_oob hbody]
    rfl
  | timeout => exact absurd hp0 (first_token_ne_timeout _ _)

/-- The lookup on a text whose tokenizer result is that of the text `R` with
a header `[name` and null bytes in front: the lookup on `R`, entered in the
section `name`. -/
theorem lookup_header (T R name : List Nat) (m : Nat) (hn : 0 ∉ name)
    (h : split_data { data := T ++ [0], end_ := T.length } =
      (split_data { data := R ++ [0], end_ := R.length }).map
        (shi (91 :: name ++ List.replicate (m + 1) 0)))
    (sec : Option (List Nat)) (key : List Nat) :
    lookup T sec key =
      (ini_load R).bind fun ini =>
        (ini_get_from ini (c_str name) sec key).bind fun r =>
          match r with
          | none => .ok none
          | some v => (string_at ini.data v).bind fun s => .ok (some s) := by
  unfold lookup ini_load
  rw [h]
  cases hs : split_data { data := R ++ [0], end_ := R.length } with
  | ok i1 =>
    simp only [Res.map_ok, Res.bind_ok]
    have hne1 : i1.data ≠ [] := by
      have := (split_data_length hs).1
      intro h0
      rw [h0] at this
      simp at this
    rw [unescape_header name m i1 hn hne1]
    cases hu : unescape_quoted_strings i1 with
    | ok i2 =>
      simp only [Res.map_ok, Res.bind_ok]
      have hne2 : i2.data ≠ [] := by
        have := (unescape_length hu).1
        intro h0
        rw [h0] at this
        exact hne1 (List.length_eq_zero.1 this.symm)
      rw [ini_get_header name m i2 hn hne2]
      cases ini_get_from i2 (c_str name) sec key with
      | ok r =>
        simp only [Res.map_ok, Res.bind_ok]
        cases r with
        | none => rfl
        | some v =>
          simp only [Option.map_some', shi]
          rw [string_at_shift]
      | oob => rfl
      | timeout => rfl
    | oob => rfl
    | timeout => rfl
  | oob => rfl
  | timeout => rfl

theorem lookup_header_line (name ws cm R : List Nat) (hn : ∀ x ∈ name, x ≠ 0 ∧ x ≠ 93)
    (hws : ∀ x ∈ ws, x = 32 ∨ x = 9 ∨ x = 13) (hcm : ∀ x ∈ cm, x ≠ 0 ∧ x ≠ 10)
    (hhead : ∀ x, cm.head? = some x → x = 59) (sec : Option (List Nat)) (key : List Nat) :
    lookup (91 :: name ++ 93 :: (ws ++ cm ++ 10 :: R)) sec key =
      lookup (91 :: name ++ 93 :: 10 :: R) sec key := by
  have hn0 : 0 ∉ name := fun h => (hn 0 h).1 rfl
  have h1 := split_data_header_line name ws cm R hn hws hcm hhead
  have h2 := split_data_header_line name [] [] R hn (by simp) (by simp) (by simp)
  simp only [List.nil_append, List.length_nil, Nat.zero_add, List.append_nil] at h2
  rw [← List.replicate_succ] at h1 h2
  rw [lookup_header _ R name _ hn0 h1, lookup_header _ R name _ hn0 h2]

/-- The `]` of a header works as a line break: the text behind it is
tokenized and looked up as if it stood on the next line. -/
theorem lookup_header_break (name B : List Nat) (hn : ∀ x ∈ name, x ≠ 0 ∧ x ≠ 93)
    (sec : Option (List Nat)) (key : List Nat) :
    lookup (91 :: name ++ 93 :: B) sec key = lookup (91 :: name ++ 93 :: 10 :: B) sec key := by
  have hn0 : 0 ∉ name := fun h => (hn 0 h).1 rfl
  have h1 := split_data_header name B hn
  have h2 := split_data_header_line name [] [] B hn (by simp) (by simp) (by simp)
  simp only [List.nil_append, List.length_nil, Nat.zero_add, List.append_nil] at h2
  rw [← List.replicate_succ] at h2
  have e1 : (91 :: name ++ [0]) = 91 :: name ++ List.replicate (0 + 1) 0 := by simp
  rw [e1] at h1
  rw [lookup_header _ B name _ hn0 h1, lookup_header _ B name _ hn0 h2]

/-! ## A key without `=` at the end of the buffer -/

theorem flat_append : ∀ (L1 L2 : List (List Nat × Nat)), flat (L1 ++ L2) = flat L1 ++ flat L2 := by
  intro L1
  induction L1 with
  | nil => intro L2; simp [flat]
  | cons x L1 ih =>
    intro L2
    obtain ⟨t, k⟩ := x
    rw [List.cons_append]
    simp only [flat]
    rw [ih]
    simp only [List.append_assoc]

theorem flat_lay_lf_length : ∀ ls : List Line, (flat (lay_lf ls)).length = (lines_lf ls).length := by
  intro ls
  induction ls with
  | nil => rfl
  | cons l ls ih =>
    cases l with
    | header n =>
      simp only [lay_lf, flat, lines_lf, Line.text, List.length_append, List.length_cons,
        List.length_replicate, ih, List.length_nil]
      omega
    | assign k v =>
      simp only [lay_lf, flat, lines_lf, Line.text, List.length_append, List.length_cons,
        List.length_replicate, ih]
      omega

theorem split_lines_lf :
    ∀ (ls : List Line) (pre rest : List Nat) (e : Nat), (∀ l ∈ ls, l.wf) →
      pre.length + (lines_lf ls).length ≤ e →
      split_run e (pre ++ (lines_lf ls ++ rest), pre.length) =
        split_run e ((pre ++ flat (lay_lf ls)) ++ rest, (pre ++ flat (lay_lf ls)).length) := by
  intro ls
  induction ls with
  | nil =>
    intro pre rest e _ _
    simp [lines_lf, lay_lf, flat]
  | cons l ls ih =>
    intro pre rest e hwf he
    have hl := hwf l (List.mem_cons_self _ _)
    have hwf' : ∀ x ∈ ls, x.wf := fun x hx => hwf x (List.mem_cons_of_mem _ hx)
    cases l with
    | header n =>
      simp only [Line.wf] at hl
      simp only [lines_lf, Line.text, List.length_append, List.length_cons,
        List.length_nil] at he
      have s1 := split_lines_header e pre n (10 :: (lines_lf ls ++ rest)) hl (by omega)
      have s2 := split_run_step (split_ws e (pre ++ (91 :: n ++ [0])) 10
        (lines_lf ls ++ rest) (by decide) (by simp; omega))
      have e1 : pre ++ (lines_lf (.header n :: ls) ++ rest) =
          pre ++ (91 :: n ++ [93]) ++ 10 :: (lines_lf ls ++ rest) := by
        simp [lines_lf, Line.text]
      have e2 : pre ++ (91 :: n ++ [0]) ++ 0 :: (lines_lf ls ++ rest) =
          (pre ++ (91 :: n ++ [0, 0])) ++ (lines_lf ls ++ rest) := by simp
      have e3 : (pre ++ (91 :: n ++ [0])).length + 1 = (pre ++ (91 :: n ++ [0, 0])).length := by
        simp; omega
      rw [e1, s1, s2, e2, e3, ih (pre ++ (91 :: n ++ [0, 0])) rest e hwf' (by simp; omega)]
      congr 2
      · simp [lay_lf, flat, replicate_two_zero]
      · simp [lay_lf, flat, replicate_two_zero]
    | assign k v =>
      simp only [Line.wf] at hl
      simp only [lines_lf, Line.text, List.length_append, List.length_cons] at he
      have s1 := split_lines_assign e pre k v 10 (lines_lf ls ++ rest) hl.1 hl.2
        (Or.inr rfl) (by omega)
      have s2 := split_run_step (split_ws e (pre ++ (k ++ 0 :: v)) 10
        (lines_lf ls ++ rest) (by decide) (by simp; omega))
      have e1 : pre ++ (lines_lf (.assign k v :: ls) ++ rest) =
          pre ++ (k ++ 61 :: v) ++ 10 :: (lines_lf ls ++ rest) := by
        simp [lines_lf, Line.text]
      have e2 : pre ++ (k ++ 0 :: v) ++ 0 :: (lines_lf ls ++ rest) =
          (pre ++ (k ++ 0 :: (v ++ [0]))) ++ (lines_lf ls ++ rest) := by simp
      have e3 : (pre ++ (k ++ 0 :: v)).length + 1 = (pre ++ (k ++ 0 :: (v ++ [0]))).length := by
        simp; omega
      rw [e1, s1, s2, e2, e3, ih (pre ++ (k ++ 0 :: (v ++ [0]))) rest e hwf' (by simp; omega)]
      congr 2
      · simp [lay_lf, flat, replicate_one_zero]
      · simp [lay_lf, flat, replicate_one_zero]

/-- The case of a key with no `=` behind it in the buffer: the scan runs to
the null byte at the end and the trim takes the spaces, tabs and carriage
returns before it away. -/
theorem split_bare (e : Nat) (pre kinit : List Nat) (klast : Nat) (ws : List Nat)
    (hhead : ∀ c, (kinit ++ [klast]).head? = some c →
      ¬ (c = 13 ∨ c = 10 ∨ c = 9 ∨ c = 32) ∧ c ≠ 91 ∧ c ≠ 59)
    (hk : ∀ x ∈ kinit ++ [klast], x ≠ 0 ∧ x ≠ 61)
    (hlast : ¬ (klast = 32 ∨ klast = 9 ∨ klast = 13))
    (hws : ∀ x ∈ ws, x = 32 ∨ x = 9 ∨ x = 13) (hp : pre.length < e) :
    split_body e (pre ++ (kinit ++ klast :: (ws ++ [0])), pre.length) =
      .ok (.again (pre ++ (kinit ++ klast :: (List.replicate ws.length 0 ++ [0])),
        pre.length + kinit.length + 1 + ws.length)) := by
  obtain ⟨c, t, hct⟩ : ∃ c t, kinit ++ [klast] = c :: t := by
    cases kinit with
    | nil => exact ⟨klast, [], rfl⟩
    | cons c t => exact ⟨c, t ++ [klast], rfl⟩
  have hc := hhead c (by rw [hct]; rfl)
  have hc2 := hk c (by rw [hct]; simp)
  have eB : pre ++ (kinit ++ klast :: (ws ++ [0])) = pre ++ c :: (t ++ (ws ++ [0])) := by
    have : kinit ++ klast :: (ws ++ [0]) = (kinit ++ [klast]) ++ (ws ++ [0]) := by
      simp
    rw [this, hct]; rfl
  have hr : rd (pre ++ (kinit ++ klast :: (ws ++ [0]))) pre.length = .ok c := by
    rw [eB]; exact rd_at pre c _
  have hs : strcspn (pre ++ (kinit ++ klast :: (ws ++ [0]))) pre.length [61] =
      .ok (kinit.length + (ws.length + 1)) := by
    have := strcspn_run [61] pre ((kinit ++ [klast]) ++ ws) 0 [] (Or.inl rfl) (by
      intro x hx
      rcases List.mem_append.1 hx with hx | hx
      · have := hk x hx
        simp [this.1, this.2]
      · have := hws x hx
        simp; omega)
    simp only [List.append_assoc, List.singleton_append, List.length_append,
      List.length_singleton, List.cons_append, List.length_cons, List.nil_append,
      List.length_nil, Nat.zero_add] at this
    exact this
  have ht := trim_back_run (pre ++ kinit) klast hlast ws.length ws [0] rfl hws
  simp only [List.length_append, List.append_assoc] at ht
  simp only [split_body, if_pos hp, hr, Res.bind_ok]
  rw [if_neg hc.1, if_neg hc2.1, if_neg hc.2.1, if_neg hc2.2, if_neg hc.2.2, hs]
  simp only [Res.bind_ok]
  have e1 : pre.length + (kinit.length + (ws.length + 1)) =
      pre.length + kinit.length + 1 + ws.length := by omega
  rw [e1, ht]
  rfl

theorem lay_lf_ok : ∀ ls : List Line, (∀ l ∈ ls, l.wf) →
    ∀ x ∈ lay_lf ls, x.1 ≠ [] ∧ 0 ∉ x.1 ∧ 0 < x.2 ∧ x.1.head? ≠ some 34 := by
  intro ls
  induction ls with
  | nil => intro _ x hx; simp [lay_lf] at hx
  | cons l ls ih =>
    intro hwf x hx
    have hl := hwf l (List.mem_cons_self _ _)
    have hwf' : ∀ y ∈ ls, y.wf := fun y hy => hwf y (List.mem_cons_of_mem _ hy)
    have hw : ∀ w : List Nat, word w → w ≠ [] ∧ 0 ∉ w ∧ w.head? ≠ some 34 := fun w hw =>
      ⟨hw.1, fun h => (alnum_ne (hw.2 0 h)).1 rfl,
        fun h => (alnum_ne (word_head? hw h)).2.2.2.2.2.1 rfl⟩
    cases l with
    | header n =>
      simp only [Line.wf] at hl
      simp only [lay_lf, List.mem_cons] at hx
      rcases hx with rfl | hx
      · refine ⟨by simp, ?_, by show 0 < 2; omega, by simp⟩
        simp only [List.mem_cons, not_or]
        exact ⟨by decide, (hw n hl).2.1⟩
      · exact ih hwf' x hx
    | assign k v =>
      simp only [Line.wf] at hl
      simp only [lay_lf, List.mem_cons] at hx
      rcases hx with rfl | rfl | hx
      · exact ⟨(hw k hl.1).1, (hw k hl.1).2.1, by show 0 < 1; omega, (hw k hl.1).2.2⟩
      · exact ⟨(hw v hl.2).1, (hw v hl.2).2.1, by show 0 < 1; omega, (hw v hl.2).2.2⟩
      · exact ih hwf' x hx

theorem lay_snoc (t : List Nat) (m : Nat) (ht : t ≠ []) (ht0 : 0 ∉ t) :
    ∀ L : List (List Nat × Nat), (∀ x ∈ L, x.1 ≠ [] ∧ 0 ∉ x.1 ∧ 0 < x.2) →
      Lay (L ++ [(t, m)]) := by
  intro L
  induction L with
  | nil => intro _; simp [Lay, ht, ht0]
  | cons x L ih =>
    intro h
    obtain ⟨t1, k1⟩ := x
    have h1 := h (t1, k1) (List.mem_cons_self _ _)
    simp only [List.cons_append, Lay]
    exact ⟨h1.1, h1.2.1, fun _ => h1.2.2, ih (fun y hy => h y (List.mem_cons_of_mem _ hy))⟩

theorem get_lay_bare (key t : List Nat) (m : Nat) (ht : t.head? ≠ some 91)
    (hm : key_matches t key = true) :
    ∀ (ls : List Line) (off : Nat) (cur : List Nat), (∀ l ∈ ls, l.wf) →
      (∀ k v, Line.assign k v ∈ ls → key_matches k key = false) →
      get_lay none key off cur (lay_lf ls ++ [(t, m)]) =
        some (off + (lines_lf ls).length + t.length + m) := by
  intro ls
  induction ls with
  | nil =>
    intro off cur _ _
    simp only [lay_lf, List.nil_append, lines_lf, List.length_nil, Nat.add_zero]
    rw [get_lay_cons, if_neg ht, if_pos (by simp [sec_matches, hm])]
  | cons l ls ih =>
    intro off cur hwf hno
    have hl := hwf l (List.mem_cons_self _ _)
    have hwf' : ∀ y ∈ ls, y.wf := fun y hy => hwf y (List.mem_cons_of_mem _ hy)
    have hno' : ∀ k v, Line.assign k v ∈ ls → key_matches k key = false :=
      fun k v h => hno k v (List.mem_cons_of_mem _ h)
    cases l with
    | header n =>
      simp only [lay_lf, List.cons_append]
      rw [get_lay_cons, if_pos (by simp), ih _ _ hwf' hno']
      simp only [lines_lf, Line.text, List.length_append, List.length_cons, List.length_nil]
      congr 1
      omega
    | assign k v =>
      simp only [Line.wf] at hl
      have hk91 : k.head? ≠ some 91 :=
        fun h => (alnum_ne (word_head? hl.1 h)).2.2.2.2.2.2.2.2.1 rfl
      have hkm := hno k v (List.mem_cons_self _ _)
      simp only [lay_lf, List.cons_append]
      rw [get_lay_cons, if_neg hk91, if_neg (by simp [hkm])]
      simp only
      rw [ih _ _ hwf' hno']
      simp only [lines_lf, Line.text, List.length_append, List.length_cons]
      congr 1
      omega

theorem string_at_end {b : List Nat} {e : Nat} (hT : Terminated b e) : string_at b e = .ok [] := by
  unfold string_at
  rw [strlen_null (rd_eq_ok.2 hT.2)]
  simp

theorem ini_load_bare (ls : List Line) (k ws : List Nat) (hwf : ∀ l ∈ ls, l.wf) (hk : word k)
    (hws : ∀ x ∈ ws, x = 32 ∨ x = 9 ∨ x = 13) :
    ini_load (lines_lf ls ++ k ++ ws) =
      .ok { data := flat (lay_lf ls ++ [(k, ws.length)]) ++ [0],
            end_ := (lines_lf ls ++ k ++ ws).length } := by
  have hok := lay_lf_ok ls hwf
  have hk0 : 0 ∉ k := fun h => (alnum_ne (hk.2 0 h)).1 rfl
  have hL : Lay (lay_lf ls ++ [(k, ws.length)]) :=
    lay_snoc k ws.length hk.1 hk0 _ (fun x hx => ⟨(hok x hx).1, (hok x hx).2.1, (hok x hx).2.2.1⟩)
  have hq : ∀ x ∈ lay_lf ls ++ [(k, ws.length)], x.1.head? ≠ some 34 := by
    intro x hx
    rcases List.mem_append.1 hx with hx | hx
    · exact (hok x hx).2.2.2
    · simp only [List.mem_singleton] at hx
      subst hx
      exact fun h => (alnum_ne (word_head? hk h)).2.2.2.2.2.1 rfl
  have hflen := flat_lay_lf_length ls
  have hu := unescape_lay 0 (lay_lf ls ++ [(k, ws.length)]) (lines_lf ls ++ k ++ ws).length hL hq
    (by simp [flat_append, flat, hflen]; omega)
  simp only [List.replicate_zero, List.nil_append] at hu
  have hsplit : split_run (lines_lf ls ++ k ++ ws).length ((lines_lf ls ++ k ++ ws) ++ [0], 0) =
      .ok (flat (lay_lf ls ++ [(k, ws.length)]) ++ [0]) := by
    obtain ⟨kinit, klast, rfl, hkl⟩ := init_last hk.1
    have hklast := alnum_ne (word_last? hk hkl)
    generalize he : (lines_lf ls ++ (kinit ++ [klast]) ++ ws).length = e
    have hlen : e = (lines_lf ls).length + kinit.length + 1 + ws.length := by
      rw [← he]; simp; omega
    have s1 := split_lines_lf ls [] ((kinit ++ [klast]) ++ ws ++ [0]) e hwf (by simp; omega)
    have s2 := split_run_step (split_bare e (flat (lay_lf ls)) kinit klast ws
      (fun c hc => by
        have := alnum_ne (word_head? hk hc)
        omega) (fun x hx => by
        have := alnum_ne (hk.2 x hx)
        omega) (by omega) hws (by rw [hflen]; omega))
    have s3 : split_run e (flat (lay_lf ls) ++
        (kinit ++ klast :: (List.replicate ws.length 0 ++ [0])),
        (flat (lay_lf ls)).length + kinit.length + 1 + ws.length) =
        .ok (flat (lay_lf ls) ++ (kinit ++ klast :: (List.replicate ws.length 0 ++ [0]))) :=
      split_run_end (by rw [hflen]; omega)
    simp only [List.append_assoc, List.cons_append, List.length_append, List.length_cons,
      List.nil_append, List.length_nil, List.singleton_append, Nat.zero_add] at s1 s2 s3 ⊢
    rw [s1, s2, s3]
    simp [flat_append, flat]
  unfold ini_load
  rw [split_data_eq]
  simp only
  rw [hsplit]
  simp only [Res.bind_ok]
  exact hu

theorem lookup_bare (ls : List Line) (k ws : List Nat) (hwf : ∀ l ∈ ls, l.wf) (hk : word k)
    (hws : ∀ x ∈ ws, x = 32 ∨ x = 9 ∨ x = 13)
    (hno : ∀ k' v, Line.assign k' v ∈ ls → key_matches k' k = false) :
    lookup (lines_lf ls ++ k ++ ws) none k = .ok (some []) := by
  have hok := lay_lf_ok ls hwf
  have hk0 : 0 ∉ k := fun h => (alnum_ne (hk.2 0 h)).1 rfl
  have hL : Lay (lay_lf ls ++ [(k, ws.length)]) :=
    lay_snoc k ws.length hk.1 hk0 _ (fun x hx => ⟨(hok x hx).1, (hok x hx).2.1, (hok x hx).2.2.1⟩)
  have hflen := flat_lay_lf_length ls
  have hlenD : (lines_lf ls ++ k ++ ws).length + 1 =
      (flat (lay_lf ls ++ [(k, ws.length)]) ++ [0]).length := by
    simp [flat_append, flat, hflen]; omega
  have hg := ini_get_lay 0 (lay_lf ls ++ [(k, ws.length)]) (lines_lf ls ++ k ++ ws).length hL
    (by simpa using hlenD) none k hk0 (by intro s hs; cases hs)
  simp only [List.replicate_zero, List.nil_append] at hg
  unfold lookup
  rw [ini_load_bare ls k ws hwf hk hws]
  simp only [Res.bind_ok]
  rw [hg, get_lay_bare k k ws.length
    (fun h => (alnum_ne (word_head? hk h)).2.2.2.2.2.2.2.2.1 rfl) (by simp [key_matches])
    ls 0 [] hwf hno]
  simp only [Res.bind_ok]
  have hT : Terminated (flat (lay_lf ls ++ [(k, ws.length)]) ++ [0])
      (lines_lf ls ++ k ++ ws).length := terminated_append _ _ hlenD
  have e1 : 0 + (lines_lf ls).length + k.length + ws.length = (lines_lf ls ++ k ++ ws).length := by
    simp; omega
  rw [e1, string_at_end hT]
  rfl

theorem has_key_assign {k : List Nat} {ls : List Line} (h : ∀ l ∈ ls, has_key k l = false) :
    ∀ k' v, Line.assign k' v ∈ ls → key_matches k' k = false :=
  fun k' v hm => h (.assign k' v) hm

theorem quote_loop_ahead (b : List Nat) (p fuel : Nat) :
    (∀ s ∈ iterate_trace quote_body fuel (b, p, p + 1),
        s.2.1 < s.2.2 ∧ ∀ i : Nat, s.2.1 ≤ i → s.1[i]? = b[i]?) ∧
      ∀ r, iterate quote_body fuel (b, p, p + 1) = .ok r → r.2.1 < r.2.2 := by
  have h0 : (b, p, p + 1).2.1 < (b, p, p + 1).2.2 ∧
      ∀ i : Nat, (b, p, p + 1).2.1 ≤ i → (b, p, p + 1).1[i]? = b[i]? :=
    ⟨by show p < p + 1; omega, fun _ _ => rfl⟩
  constructor
  · exact iterate_trace_inv quote_body
      (fun s => s.2.1 < s.2.2 ∧ ∀ i : Nat, s.2.1 ≤ i → s.1[i]? = b[i]?)
      (fun s s' hJ h => quote_body_ahead b s s' h hJ) fuel _ h0
  · intro r hr
    refine iterate_inv quote_body
      (fun s => s.2.1 < s.2.2 ∧ ∀ i : Nat, s.2.1 ≤ i → s.1[i]? = b[i]?)
      (fun r => r.2.1 < r.2.2)
      (fun s s' hJ h => quote_body_ahead b s s' h hJ) ?_ fuel _ r h0 hr
    intro s a hJ h
    obtain ⟨h1, h2⟩ := quote_body_heads s a h
    rw [h1, h2]
    exact hJ.1

theorem split_data_nulls (content : List Nat) :
    ∃ b, split_data { data := content ++ [0], end_ := content.length } =
        .ok { data := b, end_ := content.length } ∧
      b.length = content.length + 1 ∧
      (∀ i : Nat, b[i]? = (content ++ [0])[i]? ∨ b[i]? = some 0) ∧
      ∀ p : Nat, ∃ r, (content ++ [0]).drop p = token_at b p ++ r := by
  have hT : Terminated (content ++ [0]) content.length := terminated_append _ _ (by simp)
  obtain ⟨b, hb, _, _⟩ := split_loop_total hT
  have hN := split_loop_pres
    (fun x => x.length = (content ++ [0]).length ∧
      ∀ i : Nat, x[i]? = (content ++ [0])[i]? ∨ x[i]? = some 0)
    (fun x p x' hx hw => nulled_wr (content ++ [0]) x p x' hx hw)
    content.length _ (content ++ [0]) 0 b hb ⟨rfl, fun _ => Or.inl rfl⟩
  refine ⟨b, ?_, by rw [hN.1]; simp, hN.2, fun p => ?_⟩
  · unfold split_data
    simp only
    rw [hb]
    rfl
  · unfold token_at
    apply prefix_of_nulled
    intro i
    rw [List.getElem?_drop, List.getElem?_drop]
    exact hN.2 (p + i)

/-! ## The claims -/

/-- C1: section scoping with first match wins.  On a text of header lines
`[name]` and assignment lines `key=value` separated by line feeds, with
non-empty alphanumeric names, keys and values, the lookup with a section
argument `s` returns the value of the first assignment in file order whose key
is `key` and whose nearest preceding header name is `s`, both up to the case of
ASCII letters (an assignment before any header stands in the section with the
empty name), and not-found when there is none. -/
theorem section_scoping_first_match (ls : List Line) (s key : List Nat)
    (hwf : ∀ l ∈ ls, l.wf) (hs : 0 ∉ s) (hk : 0 ∉ key) :
    lookup (render ls) (some s) key =
      .ok ((first_match (some s) key (entries 0 [] ls)).map (·.value)) :=
  lookup_lines ls hwf (some s) key hk (by intro t ht; cases ht; exact hs)

theorem section_scoping_witness :
    render [.header (bytes "a"), .assign (bytes "x") (bytes "1"), .header (bytes "b"),
        .assign (bytes "x") (bytes "2")] = bytes "[a]\nx=1\n[b]\nx=2" ∧
      lookup (render [.header (bytes "a"), .assign (bytes "x") (bytes "1"),
        .header (bytes "b"), .assign (bytes "x") (bytes "2")]) (some (bytes "a")) (bytes "x") =
        .ok (some (bytes "1")) ∧
      lookup (render [.header (bytes "a"), .assign (bytes "x") (bytes "1"),
        .header (bytes "b"), .assign (bytes "x") (bytes "2")]) (some (bytes "b")) (bytes "x") =
        .ok (some (bytes "2")) :=
  ⟨by decide,
   (section_scoping_first_match _ (bytes "a") (bytes "x") (by decide) (by decide)
      (by decide)).trans (by decide),
   (section_scoping_first_match _ (bytes "b") (bytes "x") (by decide) (by decide)
      (by decide)).trans (by decide)⟩

/-- C2: with the null pointer as section argument the lookup returns, on a
well-formed text, the value of the first assignment in file order whose key is
`key` up to the case of ASCII letters, whatever section it stands in, and
not-found when no key matches. -/
theorem null_section_matches_any (ls : List Line) (key : List Nat)
    (hwf : ∀ l ∈ ls, l.wf) (hk : 0 ∉ key) :
    lookup (render ls) none key =
      .ok (((entries 0 [] ls).find? fun en => key_matches en.key key).map (·.value)) := by
  rw [lookup_lines ls hwf none key hk (by intro t ht; cases ht)]
  simp [first_match, sec_matches]

theorem null_section_witness :
    lookup (render [.header (bytes "a"), .assign (bytes "x") (bytes "1"),
        .header (bytes "b"), .assign (bytes "x") (bytes "2")]) none (bytes "x") =
      .ok (some (bytes "1")) :=
  (null_section_matches_any _ (bytes "x") (by decide) (by decide)).trans (by decide)

/-- C3: the lookup does not see the case of ASCII letters in its arguments:
on every buffer, section arguments that are equal after `tolower` (or both
null) and keys that are equal after `tolower` give the same result. -/
theorem lookup_case_insensitive (ini : ini_t) (s s' : Option (List Nat)) (k k' : List Nat)
    (hs : s.map (List.map tolower) = s'.map (List.map tolower))
    (hk : k.map tolower = k'.map tolower) :
    ini_get ini s k = ini_get ini s' k' :=
  ini_get_lower ini s s' k k' hs hk

theorem lookup_case_insensitive_witness :
    ini_load (bytes "[net]\nhost=1") =
        .ok { data := [91, 110, 101, 116, 0, 0, 104, 111, 115, 116, 0, 49, 0], end_ := 12 } ∧
      ini_get { data := [91, 110, 101, 116, 0, 0, 104, 111, 115, 116, 0, 49, 0], end_ := 12 }
          (some (bytes "Net")) (bytes "Host") =
        ini_get { data := [91, 110, 101, 116, 0, 0, 104, 111, 115, 116, 0, 49, 0], end_ := 12 }
          (some (bytes "net")) (bytes "host") ∧
      lookup (bytes "[net]\nhost=1") (some (bytes "Net")) (bytes "Host") =
        .ok (some (bytes "1")) :=
  ⟨by decide, lookup_case_insensitive _ _ _ _ _ (by decide) (by decide), by decide⟩

/-- C4: quoted escape decoding.  For the line `k="body"`, with an
alphanumeric key, a body without null byte and line feed in which every
backslash has a byte behind it and every double quote is the second byte of an
escape, and a non-empty decoded form, the lookup returns the body decoded from
left to right, without the quotes. -/
theorem quoted_value_decoded (k body : List Nat) (hk : word k) (hb0 : 0 ∉ body)
    (hb10 : 10 ∉ body) (hesc : escaped body = true) (hne : decode body ≠ []) :
    lookup (k ++ [61, 34] ++ body ++ [34]) none k = .ok (some (decode body)) ∧
      lookup (k ++ [61, 34] ++ body ++ [34]) (some []) k = .ok (some (decode body)) :=
  ⟨lookup_quoted k body none hk hb0 hb10 hesc hne (Or.inl rfl),
   lookup_quoted k body (some []) hk hb0 hb10 hesc hne (Or.inr rfl)⟩

theorem quoted_value_witness :
    bytes "key" ++ [61, 34] ++ bytes "a\\tb\\\"c" ++ [34] = bytes "key=\"a\\tb\\\"c\"" ∧
      lookup (bytes "key" ++ [61, 34] ++ bytes "a\\tb\\\"c" ++ [34]) none (bytes "key") =
        .ok (some [97, 9, 98, 34, 99]) :=
  ⟨by decide,
   (quoted_value_decoded (bytes "key") (bytes "a\\tb\\\"c") (by decide) (by decide) (by decide)
      (by decide) (by decide)).1.trans (by decide)⟩

/-- C5: white space around an assignment is trimmed.  With runs of spaces
and tabs before the key, between the key and `=` and between `=` and the
value, and a run of spaces, tabs and carriage returns behind the value up to
the line feed or the end of the buffer, the lookup returns exactly the value;
the spaces inside the value stay. -/
theorem whitespace_trimmed (ws1 k ws2 ws3 v ws4 tail : List Nat)
    (hws1 : ∀ x ∈ ws1, x = 32 ∨ x = 9) (hk : word k)
    (hws2 : ∀ x ∈ ws2, x = 32 ∨ x = 9) (hws3 : ∀ x ∈ ws3, x = 32 ∨ x = 9)
    (hv : ∀ x ∈ v, alnum x = true ∨ x = 32)
    (hvhead : ∀ c, v.head? = some c → alnum c = true)
    (hvlast : ∀ c, v.getLast? = some c → alnum c = true) (hvne : v ≠ [])
    (hws4 : ∀ x ∈ ws4, x = 32 ∨ x = 9 ∨ x = 13) (htail : tail = [] ∨ tail = [10]) :
    lookup (ws1 ++ k ++ ws2 ++ [61] ++ ws3 ++ v ++ ws4 ++ tail) none k = .ok (some v) := by
  refine lookup_line ws1 k ws2 ws3 v ws4 tail none ?_ hk.1 ?_ ?_ ?_ ?_ hws3 hvne ?_ ?_ ?_ hws4
    htail (Or.inl rfl)
  · intro x hx
    have := hws1 x hx
    omega
  · intro c hc
    have := alnum_ne (word_head? hk hc)
    omega
  · intro x hx
    have := alnum_ne (hk.2 x hx)
    omega
  · intro c hc
    have := alnum_ne (word_last? hk hc)
    omega
  · intro x hx
    have := hws2 x hx
    omega
  · intro c hc
    have := alnum_ne (hvhead c hc)
    omega
  · intro x hx
    rcases hv x hx with h | h
    · have := alnum_ne h
      omega
    · omega
  · intro c hc
    have := alnum_ne (hvlast c hc)
    omega

theorem whitespace_trimmed_witness :
    [] ++ bytes "key" ++ bytes " " ++ [61] ++ bytes " " ++ bytes "value" ++ bytes "   \r" ++ [10]
        = bytes "key = value   \r\n" ∧
      lookup ([] ++ bytes "key" ++ bytes " " ++ [61] ++ bytes " " ++ bytes "value" ++
        bytes "   \r" ++ [10]) none (bytes "key") = .ok (some (bytes "value")) :=
  ⟨by decide,
   whitespace_trimmed [] (bytes "key") (bytes " ") (bytes " ") (bytes "value") (bytes "   \r")
     [10] (by decide) (by decide) (by decide) (by decide) (by decide) (by decide) (by decide)
     (by decide) (by decide) (by decide)⟩

/-- C6: a comment line is discarded.  A line that starts with `;` and holds
no null byte, put with its line feed in front of any text `B`, changes no
result of a lookup: every section and key argument gives on `;c\nB` what it
gives on `B`. -/
theorem comment_line_discarded (c B : List Nat) (hc : ∀ x ∈ c, x ≠ 0 ∧ x ≠ 10)
    (sec : Option (List Nat)) (key : List Nat) :
    lookup (59 :: c ++ 10 :: B) sec key = lookup B sec key :=
  lookup_comment c B hc sec key

theorem comment_line_witness :
    59 :: bytes " comment" ++ 10 :: bytes "key=val" = bytes "; comment\nkey=val" ∧
      lookup (59 :: bytes " comment" ++ 10 :: bytes "key=val") none (bytes "key") =
        .ok (some (bytes "val")) :=
  ⟨by decide,
   (comment_line_discarded (bytes " comment") (bytes "key=val") (by decide) none
      (bytes "key")).trans (by decide)⟩

/-- C7, as the claim states it, fails: in the line `k= "a;b"` the text
behind `=` holds a `;`, no null byte and no line feed and does not start with
a double quote, and the lookup returns `a;b`, not the text from the first byte
that is no space to the end of the line. -/
theorem inline_semicolon_quoted_counterexample :
    ¬ ∀ k v : List Nat, word k → 0 ∉ v → 10 ∉ v → v.head? ≠ some 34 → 59 ∈ v →
        lookup (k ++ 61 :: v) none k = .ok (some (value_of v)) := by
  intro h
  have h1 := h (bytes "k") (bytes " \"a;b\"") (by decide) (by decide) (by decide) (by decide)
    (by decide)
  have h2 : lookup (bytes "k" ++ 61 :: bytes " \"a;b\"") none (bytes "k") =
      .ok (some (bytes "a;b")) := by decide
  rw [h2] at h1
  revert h1
  decide

/-- C7, amended: a `;` inside the value part of an assignment starts no
comment.  When the text `v` behind `=` holds a `;`, no null byte and no line
feed, and its first byte that is no space or tab is no double quote, the lookup
returns `v` from that byte to its last byte that is no space, tab or carriage
return, the `;` and what follows it included. -/
theorem inline_semicolon_kept (k v : List Nat) (hk : word k) (hv0 : 0 ∉ v) (hv10 : 10 ∉ v)
    (hq : (v.dropWhile is_blank).head? ≠ some 34) (h59 : 59 ∈ v) :
    lookup (k ++ 61 :: v) none k = .ok (some (value_of v)) := by
  obtain ⟨ws3, ws4, hv, hws3, hws4, hne, hhead, hh, hl⟩ := value_split v h59
  have hsub : ∀ x ∈ value_of v, x ∈ v := by
    intro x hx
    rw [hv]
    simp [hx]
  have := lookup_line [] k [] ws3 (value_of v) ws4 [] none (by simp) hk.1
    (fun c hc => by
      have := alnum_ne (word_head? hk hc)
      omega)
    (fun x hx => by
      have := alnum_ne (hk.2 x hx)
      omega)
    (fun c hc => by
      have := alnum_ne (word_last? hk hc)
      omega)
    (by simp) hws3 hne
    (fun c hc => ⟨hh c hc, fun h34 => hq (by rw [← hhead, hc, h34])⟩)
    (fun x hx => ⟨fun h => hv0 (h ▸ hsub x hx), fun h => hv10 (h ▸ hsub x hx)⟩)
    hl hws4 (Or.inl rfl) (Or.inl rfl)
  have e1 : [] ++ k ++ [] ++ [61] ++ ws3 ++ value_of v ++ ws4 ++ [] = k ++ 61 :: v := by
    conv_rhs => rw [hv]
    simp
  rw [e1] at this
  exact this

theorem inline_semicolon_witness :
    bytes "key" ++ 61 :: bytes "val ; trailing" = bytes "key=val ; trailing" ∧
      lookup (bytes "key" ++ 61 :: bytes "val ; trailing") none (bytes "key") =
        .ok (some (bytes "val ; trailing")) :=
  ⟨by decide,
   (inline_semicolon_kept (bytes "key") (bytes "val ; trailing") (by decide) (by decide)
      (by decide) (by decide) (by decide)).trans (by decide)⟩

/-- C8: the top-level scope is the section with the empty name.  On a
well-formed text whose first lines are the assignments `top`, the lookup with
the empty string as section argument returns the value of the first assignment
of `top` whose key matches; and with a non-empty section argument `ini_get`
returns not-found or a pointer behind the lines of `top`, never the value of
one of them. -/
theorem top_level_is_empty_section (top : List (List Nat × List Nat)) (rest : List Line)
    (key : List Nat)
    (hwf : ∀ l ∈ top.map (fun p => Line.assign p.1 p.2) ++ rest, l.wf) (hk : 0 ∉ key) :
    (∀ kv, top.find? (fun p => key_matches p.1 key) = some kv →
        lookup (render (top.map (fun p => Line.assign p.1 p.2) ++ rest)) (some []) key =
          .ok (some kv.2)) ∧
      (∀ s ini, s ≠ [] → 0 ∉ s →
        ini_load (render (top.map (fun p => Line.assign p.1 p.2) ++ rest)) = .ok ini →
        ∃ r, ini_get ini (some s) key = .ok r ∧
          ∀ o, r = some o → (render (top.map (fun p => Line.assign p.1 p.2))).length ≤ o) := by
  constructor
  · intro kv hkv
    rw [lookup_lines _ hwf (some []) key hk (by intro t ht; cases ht; simp),
      first_match_top_hit (some []) key [] rest (by simp [sec_matches]) top 0 kv hkv]
  · intro s ini hs hs0 hload
    rw [ini_load_lines _ hwf] at hload
    cases hload
    refine ⟨_, ini_get_lines _ hwf (some s) key hk (by intro t ht; cases ht; exact hs0), ?_⟩
    intro o ho
    have hsm : sec_matches (some s) [] = false := by
      simp only [sec_matches, List.map_nil, decide_eq_false_iff_not, List.map_eq_nil_iff]
      exact hs
    rw [first_match_top_skip (some s) key [] rest hsm top 0] at ho
    cases hfm : first_match (some s) key
        (entries (0 + (top.map (fun p => p.1.length + p.2.length + 2)).sum) [] rest) with
    | none => rw [hfm] at ho; cases ho
    | some en =>
      rw [hfm] at ho
      simp only [Option.map_some', Option.some.injEq] at ho
      have h1 := entries_offset_gt _ _ _ en (List.mem_of_find?_eq_some hfm)
      have h2 := render_top_length top
      omega

theorem top_level_witness :
    lookup (render ([(bytes "x", bytes "1")].map (fun p => Line.assign p.1 p.2) ++
        [.header (bytes "a"), .assign (bytes "x") (bytes "2")])) (some []) (bytes "x") =
      .ok (some (bytes "1")) :=
  (top_level_is_empty_section [(bytes "x", bytes "1")]
    [.header (bytes "a"), .assign (bytes "x") (bytes "2")] (bytes "x") (by decide)
    (by decide)).1 (bytes "x", bytes "1") (by decide)

/-- C9: a lookup miss is a normal result.  On every buffer `ini_load` hands
over, `ini_get` comes to an end and returns not-found when no token of the
buffer is the key up to the case of ASCII letters, when the section argument is
not empty and is the name of no section token, and when the key is empty. -/
theorem lookup_miss_not_found (content : List Nat) (ini : ini_t)
    (hload : ini_load content = .ok ini) (sec : Option (List Nat)) (key : List Nat) :
    (0 ∉ key →
        (∀ i, i < ini.data.length → token_start ini.data i = true →
          (token_at ini.data i).map tolower ≠ key.map tolower) →
        ini_get ini sec key = .ok none) ∧
      (∀ s, sec = some s → s ≠ [] → 0 ∉ s →
        (∀ i, i < ini.data.length → token_start ini.data i = true → ini.data[i]? = some 91 →
          (token_at ini.data (i + 1)).map tolower ≠ s.map tolower) →
        ini_get ini sec key = .ok none) ∧
      ini_get ini sec [] = .ok none := by
  have hT := ini_load_terminated hload
  obtain ⟨b, e⟩ := ini
  refine ⟨fun hk hno => ini_get_no_key b e sec key hT hk hno, ?_,
    ini_get_empty_key b e sec hT⟩
  intro s hsec hs hs0 hno
  subst hsec
  exact ini_get_no_section b e s key hT hs hs0 hno

theorem lookup_miss_witness :
    ini_get { data := [91, 97, 0, 0, 120, 0, 49, 0], end_ := 7 } (some (bytes "a")) (bytes "y") =
        .ok none ∧
      ini_get { data := [91, 97, 0, 0, 120, 0, 49, 0], end_ := 7 } (some (bytes "b")) (bytes "x") =
        .ok none ∧
      ini_get { data := [91, 97, 0, 0, 120, 0, 49, 0], end_ := 7 } (some (bytes "a")) [] =
        .ok none :=
  ⟨(lookup_miss_not_found (bytes "[a]\nx=1") _ (by decide) (some (bytes "a")) (bytes "y")).1
      (by decide) (by decide),
   (lookup_miss_not_found (bytes "[a]\nx=1") _ (by decide) (some (bytes "b")) (bytes "x")).2.1
      (bytes "b") rfl (by decide) (by decide) (by decide),
   (lookup_miss_not_found (bytes "[a]\nx=1") _ (by decide) (some (bytes "a")) []).2.2⟩

/-- C10, the code at the failing input: on the six bytes `k="abc` with the
null byte at index 6 the tokenizer comes through, the loop over the quoted
string leaves its read head at index 7, and the forward skip called there
reads outside the buffer. -/
theorem unterminated_quote_reads_past_end :
    split_data { data := bytes "k=\"abc" ++ [0], end_ := 6 } =
        .ok { data := [107, 0, 34, 97, 98, 99, 0], end_ := 6 } ∧
      iterate quote_body 8 ([107, 0, 34, 97, 98, 99, 0], 2, 3) =
        .ok ([107, 0, 97, 98, 99, 0, 0], 6, 7) ∧
      strlen [107, 0, 97, 98, 99, 0, 0] 7 = .oob ∧
      next [107, 0, 97, 98, 99, 0, 0] 6 7 = .oob ∧
      unescape_quoted_strings { data := [107, 0, 34, 97, 98, 99, 0], end_ := 6 } = .oob ∧
      ini_load (bytes "k=\"abc") = .oob := by
  decide

/-! ## The claims on the passes themselves -/

/-- C11: the tokenizer is total and stays in bounds.  On every buffer of
`content.length` bytes with the null byte behind them `split_data` returns: no
read or write leaves the buffer (the model answers an access outside it, also
one below index 0 in the backward trim, with `oob`), the rounds it is given are
enough, and the loop is left with the scan cursor at `content.length`. -/
theorem split_data_total_in_bounds (content : List Nat) :
    ∃ b, split_data { data := content ++ [0], end_ := content.length } =
        .ok { data := b, end_ := content.length } ∧
      iterate_exit (split_body content.length) ((content ++ [0]).length + 1)
        (content ++ [0], 0) = .ok (b, content.length) := by
  have hT : Terminated (content ++ [0]) content.length := terminated_append _ _ (by simp)
  obtain ⟨b, hb, hx, _⟩ := split_loop_total hT
  refine ⟨b, ?_, hx⟩
  unfold split_data
  simp only
  rw [hb]
  rfl

/-- C12, as the claim states it, fails: on `[sec] junk\nkey=val` the text
`junk` behind the `]` is not discarded; it runs on into the next line as the
token `junk\nkey`, and the lookup of `key` in the section `sec` finds
nothing, while on `[sec]\nkey=val` it returns `val`. -/
theorem header_trailing_text_counterexample :
    ¬ ∀ (name t R : List Nat) (sec : Option (List Nat)) (key : List Nat),
        word name → 0 ∉ t → 10 ∉ t →
        lookup (91 :: name ++ 93 :: (t ++ 10 :: R)) sec key =
          lookup (91 :: name ++ 93 :: 10 :: R) sec key := by
  intro h
  have h1 := h (bytes "sec") (bytes " junk") (bytes "key=val") (some (bytes "sec")) (bytes "key")
    (by decide) (by decide) (by decide)
  have h2 : lookup (91 :: bytes "sec" ++ 93 :: (bytes " junk" ++ 10 :: bytes "key=val"))
      (some (bytes "sec")) (bytes "key") = .ok none := by decide
  have h3 : lookup (91 :: bytes "sec" ++ 93 :: 10 :: bytes "key=val")
      (some (bytes "sec")) (bytes "key") = .ok (some (bytes "val")) := by decide
  rw [h2, h3] at h1
  revert h1
  decide

/-- C12, amended: the `]` of a section line ends the section token, which is
exactly `name`.  When the text behind the `]` on that line is made of spaces,
tabs and carriage returns, followed by nothing or by a comment that starts
with `;`, the tokenizer turns the `]`, that text and the line feed into null
bytes, and every lookup gives what it gives on `[name]\n` followed by the same
lines `R`.  Any other text `B` behind the `]` is kept: it is tokenized and
looked up as if it stood on the next line. -/
theorem header_trailing_blanks_discarded (name ws cm R : List Nat)
    (hn : ∀ x ∈ name, x ≠ 0 ∧ x ≠ 93) (hws : ∀ x ∈ ws, x = 32 ∨ x = 9 ∨ x = 13)
    (hcm : ∀ x ∈ cm, x ≠ 0 ∧ x ≠ 10) (hhead : ∀ x, cm.head? = some x → x = 59) :
    split_data { data := (91 :: name ++ 93 :: (ws ++ cm ++ 10 :: R)) ++ [0],
                 end_ := (91 :: name ++ 93 :: (ws ++ cm ++ 10 :: R)).length } =
        (split_data { data := R ++ [0], end_ := R.length }).map
          (shi (91 :: name ++ 0 :: List.replicate (ws.length + cm.length + 1) 0)) ∧
      (∀ (sec : Option (List Nat)) (key : List Nat),
        lookup (91 :: name ++ 93 :: (ws ++ cm ++ 10 :: R)) sec key =
          lookup (91 :: name ++ 93 :: 10 :: R) sec key) ∧
      ∀ (B : List Nat) (sec : Option (List Nat)) (key : List Nat),
        lookup (91 :: name ++ 93 :: B) sec key = lookup (91 :: name ++ 93 :: 10 :: B) sec key :=
  ⟨split_data_header_line name ws cm R hn hws hcm hhead,
   fun sec key => lookup_header_line name ws cm R hn hws hcm hhead sec key,
   fun B sec key => lookup_header_break name B hn sec key⟩

theorem header_trailing_witness :
    91 :: bytes "sec" ++ 93 :: (bytes " \t" ++ bytes "; junk" ++ 10 :: bytes "key=val") =
        bytes "[sec] \t; junk\nkey=val" ∧
      lookup (91 :: bytes "sec" ++ 93 :: (bytes " \t" ++ bytes "; junk" ++ 10 :: bytes "key=val"))
        (some (bytes "sec")) (bytes "key") = .ok (some (bytes "val")) :=
  ⟨by decide,
   ((header_trailing_blanks_discarded (bytes "sec") (bytes " \t") (bytes "; junk")
      (bytes "key=val") (by decide) (by decide) (by decide) (by decide)).2.1
      (some (bytes "sec")) (bytes "key")).trans (by decide)⟩

/-- C13, as the claim states it, fails: on `bare\nfoo=bar` the scan for the
`=` runs over the line feed, the tokenizer leaves the token `bare\nfoo` with
the value `bar`, and the lookup finds neither `bare` nor `foo`. -/
theorem bare_key_merges_counterexample :
    ini_load (bytes "bare\nfoo=bar") =
        .ok { data := bytes "bare\nfoo" ++ 0 :: (bytes "bar" ++ [0]), end_ := 12 } ∧
      lookup (bytes "bare\nfoo=bar") none (bytes "foo") = .ok none ∧
      ¬ ∀ k rest : List Nat, word k → 0 ∉ rest →
        lookup (k ++ 10 :: rest) none k = .ok (some []) := by
  refine ⟨by decide, by decide, ?_⟩
  intro h
  have h1 := h (bytes "bare") (bytes "foo=bar") (by decide) (by decide)
  have h2 : lookup (bytes "bare" ++ 10 :: bytes "foo=bar") none (bytes "bare") = .ok none := by
    decide
  rw [h2] at h1
  revert h1
  decide

/-- C13, amended: a key without `=` that ends the buffer.  When well-formed
lines, each with its line feed and none an assignment to `k`, are followed by
the bare key `k` and by nothing but spaces, tabs and carriage returns up to the
end of the buffer, the tokenizer leaves `k` as the last token, with null bytes
behind it and no value token, and the lookup of `k` with the null section
returns the empty string. -/
theorem bare_key_at_end (ls : List Line) (k ws : List Nat) (hwf : ∀ l ∈ ls, l.wf)
    (hk : word k) (hws : ∀ x ∈ ws, x = 32 ∨ x = 9 ∨ x = 13)
    (hno : ∀ l ∈ ls, has_key k l = false) :
    ini_load (lines_lf ls ++ k ++ ws) =
        .ok { data := flat (lay_lf ls ++ [(k, ws.length)]) ++ [0],
              end_ := (lines_lf ls ++ k ++ ws).length } ∧
      lookup (lines_lf ls ++ k ++ ws) none k = .ok (some []) :=
  ⟨ini_load_bare ls k ws hwf hk hws, lookup_bare ls k ws hwf hk hws (has_key_assign hno)⟩

theorem bare_key_witness :
    lines_lf [.assign (bytes "foo") (bytes "bar")] ++ bytes "bare" ++ bytes " \r" =
        bytes "foo=bar\nbare \r" ∧
      lookup (lines_lf [.assign (bytes "foo") (bytes "bar")] ++ bytes "bare" ++ bytes " \r") none
        (bytes "bare") = .ok (some []) :=
  ⟨by decide,
   (bare_key_at_end [.assign (bytes "foo") (bytes "bar")] (bytes "bare") (bytes " \r")
      (by decide) (by decide) (by decide) (by decide)).2⟩

/-- C14, the code at the failing input: on `k="abc\nj=2` the tokenizer
leaves the tokens `k`, `"abc`, `j` and `2`; the unescape pass, whose loop
tests the write head, reads on over the end of the token `"abc`, and the
fill that follows wipes the token `j`: a lookup of `j` finds nothing. -/
theorem unterminated_quote_wipes_next_token :
    split_data { data := bytes "k=\"abc\nj=2" ++ [0], end_ := 10 } =
        .ok { data := [107, 0, 34, 97, 98, 99, 0, 106, 0, 50, 0], end_ := 10 } ∧
      token_start [107, 0, 34, 97, 98, 99, 0, 106, 0, 50, 0] 7 = true ∧
      token_at [107, 0, 34, 97, 98, 99, 0, 106, 0, 50, 0] 7 = bytes "j" ∧
      unescape_quoted_strings { data := [107, 0, 34, 97, 98, 99, 0, 106, 0, 50, 0], end_ := 10 } =
        .ok { data := [107, 0, 97, 98, 99, 0, 0, 0, 0, 50, 0], end_ := 10 } ∧
      token_start [107, 0, 97, 98, 99, 0, 0, 0, 0, 50, 0] 7 = false ∧
      lookup (bytes "k=\"abc\nj=2") none (bytes "j") = .ok none := by
  decide

/-- C15: the write head never overtakes the read head.  The loop over a
quoted token is entered with the write head `q` on the opening quote and the
read head `p` one byte behind it; in every state in which the loop body is
entered `q < p` holds and the bytes from `q` on are still those of the buffer
the loop was entered with, so what is read at `p` has not been overwritten; and
the loop is left with `q < p`. -/
theorem write_head_behind_read_head (b : List Nat) (p fuel : Nat) :
    (∀ s ∈ iterate_trace quote_body fuel (b, p, p + 1),
        s.2.1 < s.2.2 ∧ ∀ i : Nat, s.2.1 ≤ i → s.1[i]? = b[i]?) ∧
      ∀ r, iterate quote_body fuel (b, p, p + 1) = .ok r → r.2.1 < r.2.2 :=
  quote_loop_ahead b p fuel

theorem write_head_witness :
    (iterate_trace quote_body 9 (bytes "\"a\\tb\"" ++ [0], 0, 1)).map (fun s => (s.2.1, s.2.2)) =
        [(0, 1), (1, 2), (2, 4), (3, 5)] ∧
      (∀ s ∈ iterate_trace quote_body 9 (bytes "\"a\\tb\"" ++ [0], 0, 1), s.2.1 < s.2.2) ∧
      3 < 5 :=
  ⟨by decide,
   fun s hs => ((write_head_behind_read_head (bytes "\"a\\tb\"" ++ [0]) 0 9).1 s hs).1,
   (write_head_behind_read_head (bytes "\"a\\tb\"" ++ [0]) 0 9).2
     ([97, 9, 98, 0, 98, 34, 0], 3, 5) (by decide)⟩

/-- C16: the postcondition of the forward skip.  On a buffer with its null
byte at `e` and for `p ≤ e`, `strlen(p)` is some `n` and `next` returns the
least `j ≥ p + n` that is `e` or the index of a byte that is not null: so
`p + n ≤ j ≤ e`, the bytes from `p + n` up to `j` are null, and for `p < e`
the result lies behind `p`. -/
theorem next_postcondition (b : List Nat) (e p : Nat) (hT : Terminated b e) (hp : p ≤ e) :
    ∃ n j, strlen b p = .ok n ∧ next b e p = .ok j ∧ p + n ≤ j ∧ j ≤ e ∧
      (∀ i : Nat, p + n ≤ i → i < j → b[i]? = some 0) ∧
      (j = e ∨ ∃ c, b[j]? = some c ∧ c ≠ 0) ∧
      (∀ j' : Nat, p + n ≤ j' → (j' = e ∨ ∃ c, b[j']? = some c ∧ c ≠ 0) → j ≤ j') ∧
      (p < e → p < j) := by
  obtain ⟨n, j, h1, h2, h3, h4, h5, h6⟩ := next_least hT hp
  refine ⟨n, j, h1, h2, h3, h4, h5, h6, ?_, ?_⟩
  · intro j' hj' hstop
    by_contra hlt
    have hz := h5 j' hj' (by omega)
    rcases hstop with rfl | ⟨c, hc, hc0⟩
    · omega
    · rw [hz] at hc
      cases hc
      exact hc0 rfl
  · intro hpe
    obtain ⟨c, hc⟩ := rd_of_terminated hT hp
    exact next_gt hpe hc h2

theorem next_postcondition_witness :
    ∃ n j, strlen [97, 98, 0, 0, 99, 0] 0 = .ok n ∧ next [97, 98, 0, 0, 99, 0] 5 0 = .ok j ∧
      0 + n ≤ j ∧ j ≤ 5 ∧
      (∀ i : Nat, 0 + n ≤ i → i < j → [97, 98, 0, 0, 99, 0][i]? = some 0) ∧
      (j = 5 ∨ ∃ c, [97, 98, 0, 0, 99, 0][j]? = some c ∧ c ≠ 0) ∧
      (∀ j' : Nat, 0 + n ≤ j' →
        (j' = 5 ∨ ∃ c, [97, 98, 0, 0, 99, 0][j']? = some c ∧ c ≠ 0) → j ≤ j') ∧
      (0 < 5 → 0 < j) :=
  next_postcondition [97, 98, 0, 0, 99, 0] 5 0 ⟨rfl, rfl⟩ (by decide)

/-- C17: `strcmpci` is equality up to the case of ASCII letters.  On two
null-terminated strings it returns a number that is zero exactly when the
strings have the same length and agree byte by byte after `tolower`, which
maps `A`..`Z` to `a`..`z` and leaves every other byte, also one from 128 on, as
it is; a string never compares equal to a longer one it is the start of. -/
theorem strcmpci_equal_iff (a b : List Nat) (ha : 0 ∉ a) (hb : 0 ∉ b) :
    (∃ d, strcmpci (c_str a) (c_str b) = .ok d ∧
      (d = 0 ↔ a.length = b.length ∧ ∀ i : Nat, (a[i]?).map tolower = (b[i]?).map tolower) ∧
      (∀ x r, b = a ++ x :: r → d ≠ 0)) ∧
      (∀ c, 65 ≤ c → c ≤ 90 → tolower c = c + 32) ∧
      (∀ c, ¬ (65 ≤ c ∧ c ≤ 90) → tolower c = c) := by
  refine ⟨?_, fun c h1 h2 => by simp [tolower, h1, h2], fun c h => by simp [tolower, h]⟩
  obtain ⟨d, hd, hiff⟩ := strcmpci_c_str a b ha hb
  rw [map_eq_iff_pointwise] at hiff
  refine ⟨d, hd, hiff, ?_⟩
  intro x r hbr hd0
  have := (hiff.1 hd0).1
  rw [hbr] at this
  simp at this

theorem strcmpci_equal_witness :
    strcmpci (c_str (bytes "Net")) (c_str (bytes "net")) = .ok 0 ∧
      ∃ d, strcmpci (c_str (bytes "Net")) (c_str (bytes "net")) = .ok d ∧
        (d = 0 ↔ (bytes "Net").length = (bytes "net").length ∧
          ∀ i : Nat, ((bytes "Net")[i]?).map tolower = ((bytes "net")[i]?).map tolower) ∧
        (∀ x r, bytes "net" = bytes "Net" ++ x :: r → d ≠ 0) :=
  ⟨by decide, (strcmpci_equal_iff (bytes "Net") (bytes "net") (by decide) (by decide)).1⟩

/-- C18: quoting and reading back.  For a key of ASCII letters and digits
and a byte string `s` that is not empty and holds no null byte, the lookup of
the key on the buffer `k="E(s)"`, where `E` writes a backslash in front of
every backslash and double quote and writes line feed, carriage return and tab
as backslash-n, backslash-r and backslash-t, returns exactly `s`. -/
theorem quote_round_trip (k s : List Nat) (hk : word k) (hs : s ≠ []) (hs0 : 0 ∉ s) :
    lookup (k ++ [61, 34] ++ escape s ++ [34]) none k = .ok (some s) := by
  have h := lookup_quoted k (escape s) none hk
    (fun h0 => by
      rcases mem_escape s h0 with h1 | h1
      · exact hs0 h1.1
      · omega)
    (fun h10 => by
      rcases mem_escape s h10 with h1 | h1
      · exact h1.2 rfl
      · omega)
    (escaped_escape_eq s) (by rw [decode_escape_eq]; exact hs) (Or.inl rfl)
  rw [decode_escape_eq] at h
  exact h

theorem quote_round_trip_witness :
    bytes "k" ++ [61, 34] ++ escape (bytes " a=b;[c]\\\"\n\t ") ++ [34] =
        bytes "k=\" a=b;[c]\\\\\\\"\\n\\t \"" ∧
      lookup (bytes "k" ++ [61, 34] ++ escape (bytes " a=b;[c]\\\"\n\t ") ++ [34]) none (bytes "k") =
        .ok (some (bytes " a=b;[c]\\\"\n\t ")) :=
  ⟨by decide,
   quote_round_trip (bytes "k") (bytes " a=b;[c]\\\"\n\t ") (by decide) (by decide) (by decide)⟩

/-- C19: an empty value shifts the pairing of keys and values.  On the
buffer `k1=\nk2=v`, with `k1`, `k2` and `v` of ASCII letters and digits, `k2`
different from `k1` and from `v` up to the case of ASCII letters, the
assignment to `k1` leaves a key token and no value token: the lookup of `k1`
returns the string `k2`, and the lookup of `k2` finds nothing. -/
theorem empty_value_shifts_pairing (k1 k2 v : List Nat) (hk1 : word k1) (hk2 : word k2)
    (hv : word v) (h12 : k1.map tolower ≠ k2.map tolower)
    (hv2 : v.map tolower ≠ k2.map tolower) :
    lookup (k1 ++ 61 :: 10 :: (k2 ++ 61 :: v)) none k1 = .ok (some k2) ∧
      lookup (k1 ++ 61 :: 10 :: (k2 ++ 61 :: v)) none k2 = .ok none :=
  lookup_empty_value k1 k2 v hk1 hk2 hv h12 hv2

theorem empty_value_witness :
    bytes "k1" ++ 61 :: 10 :: (bytes "k2" ++ 61 :: bytes "v") = bytes "k1=\nk2=v" ∧
      lookup (bytes "k1" ++ 61 :: 10 :: (bytes "k2" ++ 61 :: bytes "v")) none (bytes "k1") =
        .ok (some (bytes "k2")) ∧
      lookup (bytes "k1" ++ 61 :: 10 :: (bytes "k2" ++ 61 :: bytes "v")) none (bytes "k2") =
        .ok none ∧
      lookup (bytes "k1=\"\"\nk2=v") none (bytes "k1") = .ok (some (bytes "k2")) :=
  ⟨by decide,
   (empty_value_shifts_pairing (bytes "k1") (bytes "k2") (bytes "v") (by decide) (by decide)
      (by decide) (by decide) (by decide)).1,
   (empty_value_shifts_pairing (bytes "k1") (bytes "k2") (bytes "v") (by decide) (by decide)
      (by decide) (by decide) (by decide)).2,
   by decide⟩

/-- C20: the tokenizer writes null bytes only.  On every buffer of
`content.length` bytes with the null byte behind them `split_data` returns a
buffer of the same length in which every index holds the byte it held before
or the null byte; so the token at any offset is a run of bytes of the text at
that same offset. -/
theorem split_data_writes_nulls_only (content : List Nat) :
    ∃ b, split_data { data := content ++ [0], end_ := content.length } =
        .ok { data := b, end_ := content.length } ∧
      b.length = content.length + 1 ∧
      (∀ i : Nat, b[i]? = (content ++ [0])[i]? ∨ b[i]? = some 0) ∧
      ∀ p : Nat, ∃ r, (content ++ [0]).drop p = token_at b p ++ r :=
  split_data_nulls content

end Ini
